import Mathlib

/-!
Verification of the UV-mapper core of this repository
(`src/Misc/uvMapper.ts`) against its natural-language specification.

The TypeScript source is shallowly embedded: numbers are modelled by an
arbitrary linear ordered field `K` (instantiated with `ℚ` for concrete
evaluation; the float semantics of the source is idealised to exact
arithmetic).  Calls to `Math.sqrt` are modelled by an explicit function
parameter `sqrtK : K → K` standing for the real square root, so that all
definitions stay executable; theorems either quantify over `sqrtK` (they
hold for every choice, in particular the real one) or take the needed
properties of `sqrtK` as hypotheses.  JavaScript `Infinity` (used for the
unbounded packing space) is modelled by `Option K` with `none = Infinity`.
Mutation of arrays is modelled by explicit state passing.
-/

namespace UvMapper

/-- Babylon `Vector2`: a 2D point / vector. -/
structure Pt2 (K : Type) where
  x : K
  y : K
deriving DecidableEq, Repr

/-- Babylon `Vector3`: a 3D point / vector. -/
structure Pt3 (K : Type) where
  x : K
  y : K
  z : K
deriving DecidableEq, Repr

variable {K : Type} [LinearOrderedField K] [FloorRing K]

/-- Componentwise addition (Babylon `Vector2.add`). -/
def add2 (a b : Pt2 K) : Pt2 K := ⟨a.x + b.x, a.y + b.y⟩

/-- Componentwise subtraction (Babylon `Vector2.subtract`). -/
def sub2 (a b : Pt2 K) : Pt2 K := ⟨a.x - b.x, a.y - b.y⟩

/-- Componentwise addition (Babylon `Vector3.add`). -/
def add3 (a b : Pt3 K) : Pt3 K := ⟨a.x + b.x, a.y + b.y, a.z + b.z⟩

/-- Componentwise subtraction (Babylon `Vector3.subtract`). -/
def sub3 (a b : Pt3 K) : Pt3 K := ⟨a.x - b.x, a.y - b.y, a.z - b.z⟩

/-- Scalar multiplication (Babylon `Vector3.scale`). -/
def scale3 (a : Pt3 K) (s : K) : Pt3 K := ⟨a.x * s, a.y * s, a.z * s⟩

/-- Dot product (Babylon `Vector3.Dot`). -/
def dot3 (a b : Pt3 K) : K := a.x * b.x + a.y * b.y + a.z * b.z

/-- Cross product (Babylon `Vector3.Cross(left, right)`). -/
def cross3 (a b : Pt3 K) : Pt3 K :=
  ⟨a.y * b.z - a.z * b.y, a.z * b.x - a.x * b.z, a.x * b.y - a.y * b.x⟩

/-- Source constant `SMALL_NUM = 1e-12`. -/
def SMALL_NUM : K := 1 / 10 ^ 12

/-- Source `roundTo(a, precision)`: `Math.round(a / precision) * precision`,
with the `!precision` guard returning `a` unchanged.  JavaScript
`Math.round(x)` is `⌊x + 1/2⌋`. -/
def roundTo (a p : K) : K :=
  if p = 0 then a else ((⌊a / p + 1 / 2⌋ : ℤ) : K) * p

/-! ## Vertex Deduplicator (`UvMapper.removeDoubles`, source lines 1178–1250)

The source buckets every vertex of the flat position array by its
coordinate triple rounded to `PRECISION = 1e-12` (a nested
`{x: {y: {z: [...]}}}` hash of stringified numbers; bucket members are
pushed in ascending vertex order).  The sparse `equivalencies` array is
modelled by an association list from vertex index to its list; indices
without an entry correspond to JavaScript `undefined`.  The rounded normal
stored in each `VertexInfo` is dead data in the source (only the position
keys the bucket and only `index` is read back), so it is not carried here;
`verticesToRemove` is likewise discarded by the source (only
`equivalencies` is consumed).  Iteration order over the hash keys only
affects `verticesToRemove`, not `equivalencies` (buckets touch disjoint
indices), so buckets are processed in insertion order. -/

/-- Rounded coordinate triple of vertex `i` of a flat position array
(the bucket key built at source lines 1189–1209). -/
def keyOf (positions : List K) (i : ℕ) : Pt3 K :=
  ⟨roundTo (positions.getD (3 * i) 0) SMALL_NUM,
   roundTo (positions.getD (3 * i + 1) 0) SMALL_NUM,
   roundTo (positions.getD (3 * i + 2) 0) SMALL_NUM⟩

/-- Append index `i` to the bucket keyed `k`, creating the bucket at the
end if the key is new (models `zMap.push` into the nested hash). -/
def bucketInsert (buckets : List (Pt3 K × List ℕ)) (k : Pt3 K) (i : ℕ) :
    List (Pt3 K × List ℕ) :=
  match buckets with
  | [] => [(k, [i])]
  | q :: rest =>
      if q.1 = k then (q.1, q.2 ++ [i]) :: rest else q :: bucketInsert rest k i

/-- All buckets of a position array, in first-appearance order; each bucket
lists its vertex indices in ascending (scan) order. -/
def vertexBuckets (positions : List K) : List (Pt3 K × List ℕ) :=
  (List.range (positions.length / 3)).foldl
    (fun b i => bucketInsert b (keyOf positions i) i) []

/-- Entries contributed to `equivalencies` by one bucket (source lines
1230–1241): buckets of size 1 contribute nothing; otherwise the first
member maps to the whole bucket (`[main, other₁, …]` in push order) and
every other member maps to `[itself, main]`. -/
def bucketEquiv (l : List ℕ) : List (ℕ × List ℕ) :=
  match l with
  | [] => []
  | main :: rest =>
      if rest = [] then [] else (main, main :: rest) :: rest.map (fun k => (k, [k, main]))

/-- Source `removeDoubles`: the `equivalencies` mapping (the source also
returns the untouched `indices` array, omitted here). -/
def removeDoubles (positions : List K) : List (ℕ × List ℕ) :=
  (vertexBuckets positions).foldl (fun acc b => acc ++ bucketEquiv b.2) []

/-- Lookup in the sparse `equivalencies` array; `none` models the
JavaScript `undefined` of an absent entry. -/
def equivLookup (eq : List (ℕ × List ℕ)) (i : ℕ) : Option (List ℕ) :=
  (eq.find? (fun p => p.1 = i)).map (·.2)

/-- Source `sortAndGetFirst(arr, idx)` (lines 336–344): if the entry exists
and is nonempty, sort it ascending and return its head, else return `idx`
itself. -/
def sortAndGetFirst (arr : List (ℕ × List ℕ)) (idx : ℕ) : ℕ :=
  match equivLookup arr idx with
  | some l => if l = [] then idx else (l.mergeSort (· ≤ ·)).headD idx
  | none => idx

/-! ### Properties of the bucket construction -/

set_option linter.unusedSectionVars false

section RemoveDoublesProofs

lemma bucketInsert_nil (k : Pt3 K) (i : ℕ) :
    bucketInsert ([] : List (Pt3 K × List ℕ)) k i = [(k, [i])] := rfl

lemma bucketInsert_cons (q : Pt3 K × List ℕ) (B : List (Pt3 K × List ℕ))
    (k : Pt3 K) (i : ℕ) :
    bucketInsert (q :: B) k i =
      if q.1 = k then (q.1, q.2 ++ [i]) :: B else q :: bucketInsert B k i := rfl

variable {f : ℕ → Pt3 K}

lemma mem_bucketInsert_key {B : List (Pt3 K × List ℕ)} {k : Pt3 K} {i : ℕ}
    (hB : ∀ q ∈ B, ∀ j ∈ q.2, f j = q.1) (hi : f i = k) :
    ∀ p ∈ bucketInsert B k i, ∀ j ∈ p.2, f j = p.1 := by
  induction B with
  | nil =>
      intro p hp j hj
      rw [bucketInsert_nil, List.mem_singleton] at hp
      subst hp
      rw [List.mem_singleton] at hj
      subst hj
      exact hi
  | cons q B ih =>
      intro p hp j hj
      rw [bucketInsert_cons] at hp
      by_cases hk : q.1 = k
      · rw [if_pos hk] at hp
        rcases List.mem_cons.1 hp with h | h
        · subst h
          rcases List.mem_append.1 hj with h' | h'
          · exact hB q (List.mem_cons_self _ _) j h'
          · rw [List.mem_singleton] at h'
            subst h'
            exact hi.trans hk.symm
        · exact hB p (List.mem_cons_of_mem _ h) j hj
      · rw [if_neg hk] at hp
        rcases List.mem_cons.1 hp with h | h
        · rw [h] at hj ⊢
          exact hB q (List.mem_cons_self _ _) j hj
        · exact ih (fun r hr => hB r (List.mem_cons_of_mem _ hr)) p h j hj

lemma mem_bucketInsert_lt {B : List (Pt3 K × List ℕ)} {k : Pt3 K} {i : ℕ}
    (hB : ∀ q ∈ B, ∀ j ∈ q.2, j < i) :
    ∀ p ∈ bucketInsert B k i, ∀ j ∈ p.2, j < i + 1 := by
  induction B with
  | nil =>
      intro p hp j hj
      rw [bucketInsert_nil, List.mem_singleton] at hp
      subst hp
      rw [List.mem_singleton] at hj
      omega
  | cons q B ih =>
      intro p hp j hj
      rw [bucketInsert_cons] at hp
      by_cases hk : q.1 = k
      · rw [if_pos hk] at hp
        rcases List.mem_cons.1 hp with h | h
        · subst h
          rcases List.mem_append.1 hj with h' | h'
          · exact Nat.lt_succ_of_lt (hB q (List.mem_cons_self _ _) j h')
          · rw [List.mem_singleton] at h'
            omega
        · exact Nat.lt_succ_of_lt (hB p (List.mem_cons_of_mem _ h) j hj)
      · rw [if_neg hk] at hp
        rcases List.mem_cons.1 hp with h | h
        · rw [h] at hj
          exact Nat.lt_succ_of_lt (hB q (List.mem_cons_self _ _) j hj)
        · exact ih (fun r hr => hB r (List.mem_cons_of_mem _ hr)) p h j hj

lemma mem_bucketInsert_nodup {B : List (Pt3 K × List ℕ)} {k : Pt3 K} {i : ℕ}
    (hB : ∀ q ∈ B, q.2.Nodup) (hlt : ∀ q ∈ B, ∀ j ∈ q.2, j < i) :
    ∀ p ∈ bucketInsert B k i, p.2.Nodup := by
  induction B with
  | nil =>
      intro p hp
      rw [bucketInsert_nil, List.mem_singleton] at hp
      subst hp
      simp
  | cons q B ih =>
      intro p hp
      rw [bucketInsert_cons] at hp
      by_cases hk : q.1 = k
      · rw [if_pos hk] at hp
        rcases List.mem_cons.1 hp with h | h
        · subst h
          refine List.Nodup.append (hB q (List.mem_cons_self _ _)) (by simp) ?_
          intro a ha hb
          rw [List.mem_singleton] at hb
          exact absurd (hlt q (List.mem_cons_self _ _) a ha) (by omega)
        · exact hB p (List.mem_cons_of_mem _ h)
      · rw [if_neg hk] at hp
        rcases List.mem_cons.1 hp with h | h
        · rw [h]
          exact hB q (List.mem_cons_self _ _)
        · exact ih (fun r hr => hB r (List.mem_cons_of_mem _ hr))
            (fun r hr => hlt r (List.mem_cons_of_mem _ hr)) p h

lemma mem_bucketInsert_ne {B : List (Pt3 K × List ℕ)} {k : Pt3 K} {i : ℕ}
    (hB : ∀ q ∈ B, q.2 ≠ []) :
    ∀ p ∈ bucketInsert B k i, p.2 ≠ [] := by
  induction B with
  | nil =>
      intro p hp
      rw [bucketInsert_nil, List.mem_singleton] at hp
      subst hp
      simp
  | cons q B ih =>
      intro p hp
      rw [bucketInsert_cons] at hp
      by_cases hk : q.1 = k
      · rw [if_pos hk] at hp
        rcases List.mem_cons.1 hp with h | h
        · subst h
          simp
        · exact hB p (List.mem_cons_of_mem _ h)
      · rw [if_neg hk] at hp
        rcases List.mem_cons.1 hp with h | h
        · rw [h]
          exact hB q (List.mem_cons_self _ _)
        · exact ih (fun r hr => hB r (List.mem_cons_of_mem _ hr)) p h

lemma bucketInsert_key_sub {B : List (Pt3 K × List ℕ)} {k : Pt3 K} {i : ℕ} :
    ∀ p ∈ bucketInsert B k i, p.1 ∈ B.map Prod.fst ∨ p.1 = k := by
  induction B with
  | nil =>
      intro p hp
      rw [bucketInsert_nil, List.mem_singleton] at hp
      subst hp
      simp
  | cons q B ih =>
      intro p hp
      rw [bucketInsert_cons] at hp
      by_cases hk : q.1 = k
      · rw [if_pos hk] at hp
        rcases List.mem_cons.1 hp with h | h
        · subst h
          simp
        · left
          exact List.mem_cons_of_mem _ (List.mem_map_of_mem Prod.fst h)
      · rw [if_neg hk] at hp
        rcases List.mem_cons.1 hp with h | h
        · subst h
          simp
        · rcases ih p h with h' | h'
          · left
            exact List.mem_cons_of_mem _ h'
          · right
            exact h'

lemma bucketInsert_keys_nodup {B : List (Pt3 K × List ℕ)} {k : Pt3 K} {i : ℕ}
    (hB : (B.map Prod.fst).Nodup) :
    ((bucketInsert B k i).map Prod.fst).Nodup := by
  induction B with
  | nil =>
      rw [bucketInsert_nil]
      simp
  | cons q B ih =>
      rw [bucketInsert_cons]
      by_cases hk : q.1 = k
      · rw [if_pos hk]
        simpa only [List.map_cons] using hB
      · rw [if_neg hk]
        simp only [List.map_cons, List.nodup_cons] at hB ⊢
        refine ⟨?_, ih hB.2⟩
        intro hmem
        rcases List.mem_map.1 hmem with ⟨p, hp, hfst⟩
        rcases bucketInsert_key_sub p hp with h' | h'
        · exact hB.1 (by rw [← hfst]; exact h')
        · exact hk (by rw [← hfst, h'])

lemma bucketInsert_cover_pres {B : List (Pt3 K × List ℕ)} {k : Pt3 K} {i j : ℕ}
    {p : Pt3 K × List ℕ} (hp : p ∈ B) (hj : j ∈ p.2) :
    ∃ q ∈ bucketInsert B k i, j ∈ q.2 := by
  induction B with
  | nil => cases hp
  | cons q B ih =>
      rw [bucketInsert_cons]
      by_cases hk : q.1 = k
      · rw [if_pos hk]
        rcases List.mem_cons.1 hp with h | h
        · subst h
          exact ⟨(p.1, p.2 ++ [i]), List.mem_cons_self _ _, List.mem_append_left _ hj⟩
        · exact ⟨p, List.mem_cons_of_mem _ h, hj⟩
      · rw [if_neg hk]
        rcases List.mem_cons.1 hp with h | h
        · subst h
          exact ⟨p, List.mem_cons_self _ _, hj⟩
        · rcases ih h with ⟨q', hq', hjq'⟩
          exact ⟨q', List.mem_cons_of_mem _ hq', hjq'⟩

lemma bucketInsert_cover_new {B : List (Pt3 K × List ℕ)} {k : Pt3 K} {i : ℕ} :
    ∃ q ∈ bucketInsert B k i, i ∈ q.2 := by
  induction B with
  | nil => exact ⟨(k, [i]), by rw [bucketInsert_nil]; simp⟩
  | cons q B ih =>
      rw [bucketInsert_cons]
      by_cases hk : q.1 = k
      · rw [if_pos hk]
        exact ⟨(q.1, q.2 ++ [i]), List.mem_cons_self _ _,
          List.mem_append_right _ (by simp)⟩
      · rw [if_neg hk]
        rcases ih with ⟨q', hq', hiq'⟩
        exact ⟨q', List.mem_cons_of_mem _ hq', hiq'⟩

/-- Invariant of the bucket construction after scanning the first `m`
vertices. -/
structure BucketInv (f : ℕ → Pt3 K) (m : ℕ) (B : List (Pt3 K × List ℕ)) : Prop where
  key : ∀ p ∈ B, ∀ j ∈ p.2, f j = p.1
  lt : ∀ p ∈ B, ∀ j ∈ p.2, j < m
  ne : ∀ p ∈ B, p.2 ≠ []
  nodup : ∀ p ∈ B, p.2.Nodup
  keys : (B.map Prod.fst).Nodup
  cover : ∀ i < m, ∃ p ∈ B, i ∈ p.2

lemma bucketInv_foldl (f : ℕ → Pt3 K) (m : ℕ) :
    BucketInv f m ((List.range m).foldl (fun b i => bucketInsert b (f i) i) []) := by
  induction m with
  | zero => exact ⟨by simp, by simp, by simp, by simp, by simp, by omega⟩
  | succ m ih =>
      rw [List.range_succ, List.foldl_append, List.foldl_cons, List.foldl_nil]
      refine ⟨mem_bucketInsert_key ih.key rfl, mem_bucketInsert_lt ih.lt,
        mem_bucketInsert_ne ih.ne, mem_bucketInsert_nodup ih.nodup ih.lt,
        bucketInsert_keys_nodup ih.keys, ?_⟩
      intro i hi
      rcases Nat.lt_succ_iff_lt_or_eq.1 hi with h | h
      · rcases ih.cover i h with ⟨p, hp, hip⟩
        exact bucketInsert_cover_pres hp hip
      · subst h
        exact bucketInsert_cover_new

lemma vertexBuckets_inv (positions : List K) :
    BucketInv (keyOf positions) (positions.length / 3) (vertexBuckets positions) :=
  bucketInv_foldl _ _

/-- In a list with pairwise distinct first components, entries are
identified by their first component. -/
lemma eq_of_fst_eq {B : List (Pt3 K × List ℕ)} (hkeys : (B.map Prod.fst).Nodup)
    {p q : Pt3 K × List ℕ} (hp : p ∈ B) (hq : q ∈ B) (h1 : p.1 = q.1) : p = q := by
  induction B with
  | nil => cases hp
  | cons r B ih =>
      simp only [List.map_cons, List.nodup_cons] at hkeys
      rcases List.mem_cons.1 hp with hp' | hp' <;> rcases List.mem_cons.1 hq with hq' | hq'
      · rw [hp', hq']
      · exfalso
        subst hp'
        exact hkeys.1 (by rw [h1]; exact List.mem_map_of_mem Prod.fst hq')
      · exfalso
        subst hq'
        exact hkeys.1 (by rw [← h1]; exact List.mem_map_of_mem Prod.fst hp')
      · exact ih hkeys.2 hp' hq'

/-- Two buckets containing members with the same key coincide. -/
lemma bucket_eq_of_key {m : ℕ} {B : List (Pt3 K × List ℕ)} (h : BucketInv f m B)
    {p q : Pt3 K × List ℕ} (hp : p ∈ B) (hq : q ∈ B) {i j : ℕ}
    (hip : i ∈ p.2) (hjq : j ∈ q.2) (hkey : f i = f j) : p = q :=
  eq_of_fst_eq h.keys hp hq
    (by rw [← h.key p hp i hip, ← h.key q hq j hjq, hkey])

end RemoveDoublesProofs

section RemoveDoublesEntries

lemma pairwise_imp_mem {α : Type} {R S : α → α → Prop} :
    ∀ {l : List α}, (∀ a ∈ l, ∀ b ∈ l, R a b → S a b) → l.Pairwise R → l.Pairwise S := by
  intro l
  induction l with
  | nil => intro _ _; exact List.Pairwise.nil
  | cons a l ih =>
      intro h hp
      rcases List.pairwise_cons.1 hp with ⟨ha, hl⟩
      refine List.pairwise_cons.2 ⟨?_, ?_⟩
      · intro b hb
        exact h a (List.mem_cons_self _ _) b (List.mem_cons_of_mem _ hb) (ha b hb)
      · exact ih (fun x hx y hy => h x (List.mem_cons_of_mem _ hx) y (List.mem_cons_of_mem _ hy)) hl

lemma foldl_append_eq_flatMap {α β : Type} (g : β → List α) (bs : List β) (acc : List α) :
    bs.foldl (fun a b => a ++ g b) acc = acc ++ bs.flatMap g := by
  induction bs generalizing acc with
  | nil => simp
  | cons b bs ih => simp [ih, List.append_assoc]

lemma removeDoubles_eq_flatMap (positions : List K) :
    removeDoubles positions =
      (vertexBuckets positions).flatMap (fun b => bucketEquiv b.2) := by
  unfold removeDoubles
  rw [foldl_append_eq_flatMap]
  simp

lemma mem_bucketEquiv {b : List ℕ} {i : ℕ} {l : List ℕ} :
    (i, l) ∈ bucketEquiv b ↔
      ∃ main rest, b = main :: rest ∧ rest ≠ [] ∧
        ((i = main ∧ l = main :: rest) ∨ (i ∈ rest ∧ l = [i, main])) := by
  cases b with
  | nil => simp [bucketEquiv]
  | cons main rest =>
      by_cases hr : rest = []
      · subst hr
        simp [bucketEquiv]
      · rw [bucketEquiv, if_neg hr]
        constructor
        · intro h
          rcases List.mem_cons.1 h with h | h
          · exact ⟨main, rest, rfl, hr,
              Or.inl ⟨congrArg Prod.fst h, congrArg Prod.snd h⟩⟩
          · rcases List.mem_map.1 h with ⟨a, ha, hpair⟩
            have h1 : a = i := congrArg Prod.fst hpair
            have h2 : [a, main] = l := congrArg Prod.snd hpair
            subst h1
            exact ⟨main, rest, rfl, hr, Or.inr ⟨ha, h2.symm⟩⟩
        · rintro ⟨main', rest', heq, hr', hcase⟩
          injection heq with h1 h2
          subst h1
          subst h2
          rcases hcase with ⟨hi, hl⟩ | ⟨hi, hl⟩
          · subst hi
            subst hl
            exact List.mem_cons_self _ _
          · subst hl
            exact List.mem_cons_of_mem _ (List.mem_map.2 ⟨i, hi, rfl⟩)

lemma bucketEquiv_keys (b : List ℕ) :
    (bucketEquiv b).map Prod.fst = if 2 ≤ b.length then b else [] := by
  cases b with
  | nil => simp [bucketEquiv]
  | cons main rest =>
      by_cases hr : rest = []
      · subst hr
        simp [bucketEquiv]
      · have hlen : 2 ≤ (main :: rest).length := by
          cases rest with
          | nil => exact absurd rfl hr
          | cons a t => simp
        rw [bucketEquiv, if_neg hr, if_pos hlen]
        simp only [List.map_cons, List.map_map]
        rw [show (Prod.fst ∘ fun k => (k, [k, main])) = id from rfl, List.map_id]

lemma removeDoubles_keys_nodup (positions : List K) :
    ((removeDoubles positions).map Prod.fst).Nodup := by
  have inv := vertexBuckets_inv positions
  rw [removeDoubles_eq_flatMap, List.map_flatMap, List.nodup_flatMap]
  constructor
  · intro p hp
    rw [bucketEquiv_keys]
    by_cases h2 : 2 ≤ p.2.length
    · rw [if_pos h2]
      exact inv.nodup p hp
    · rw [if_neg h2]
      exact List.nodup_nil
  · have hne : (vertexBuckets positions).Pairwise (fun p q => p.1 ≠ q.1) :=
      List.pairwise_map.mp inv.keys
    refine pairwise_imp_mem ?_ hne
    intro p hp q hq hpq
    show ((bucketEquiv p.2).map Prod.fst).Disjoint ((bucketEquiv q.2).map Prod.fst)
    intro a ha hb
    rw [bucketEquiv_keys] at ha hb
    by_cases h2p : 2 ≤ p.2.length
    · by_cases h2q : 2 ≤ q.2.length
      · rw [if_pos h2p] at ha
        rw [if_pos h2q] at hb
        exact hpq ((inv.key p hp a ha).symm.trans (inv.key q hq a hb))
      · rw [if_neg h2q] at hb
        cases hb
    · rw [if_neg h2p] at ha
      cases ha

/-- Every entry of the deduplication mapping arises from a bucket of at
least two coincident vertices. -/
lemma mem_removeDoubles (positions : List K) {i : ℕ} {l : List ℕ} :
    (i, l) ∈ removeDoubles positions ↔
      ∃ p ∈ vertexBuckets positions, ∃ main rest,
        p.2 = main :: rest ∧ rest ≠ [] ∧
        ((i = main ∧ l = main :: rest) ∨ (i ∈ rest ∧ l = [i, main])) := by
  rw [removeDoubles_eq_flatMap, List.mem_flatMap]
  constructor
  · rintro ⟨p, hp, hmem⟩
    rcases mem_bucketEquiv.1 hmem with ⟨main, rest, h1, h2, h3⟩
    exact ⟨p, hp, main, rest, h1, h2, h3⟩
  · rintro ⟨p, hp, main, rest, h1, h2, h3⟩
    exact ⟨p, hp, mem_bucketEquiv.2 ⟨main, rest, h1, h2, h3⟩⟩

lemma equivLookup_eq_some {E : List (ℕ × List ℕ)} (hE : (E.map Prod.fst).Nodup)
    {i : ℕ} {l : List ℕ} : equivLookup E i = some l ↔ (i, l) ∈ E := by
  induction E with
  | nil => simp [equivLookup]
  | cons p E ih =>
      simp only [List.map_cons, List.nodup_cons] at hE
      by_cases hp : p.1 = i
      · rw [equivLookup, List.find?_cons_of_pos _ (by simp [hp])]
        constructor
        · intro h
          have hl : p.2 = l := Option.some.inj h
          exact List.mem_cons.2 (Or.inl (by rw [← hp, ← hl]))
        · intro h
          rcases List.mem_cons.1 h with h | h
          · rw [← h]
            rfl
          · exfalso
            exact hE.1 (by rw [hp]; exact List.mem_map_of_mem Prod.fst h)
      · rw [equivLookup, List.find?_cons_of_neg _ (by simp [hp])]
        rw [show ((E.find? fun q => q.1 = i).map (·.2) : Option (List ℕ)) =
          equivLookup E i from rfl, ih hE.2]
        constructor
        · exact fun h => List.mem_cons_of_mem _ h
        · intro h
          rcases List.mem_cons.1 h with h | h
          · exfalso
            apply hp
            rw [← h]
          · exact h

lemma roundTo_zero (p : K) : roundTo (0 : K) p = 0 := by
  unfold roundTo
  by_cases hp : p = 0
  · rw [if_pos hp]
  · rw [if_neg hp]
    have : ⌊(0 : K) / p + 1 / 2⌋ = 0 := by
      rw [zero_div, zero_add]
      rw [Int.floor_eq_zero_iff]
      constructor <;> norm_num
    rw [this]
    norm_num

/-- Claim C6 (amended).  The `equivalencies` mapping returned by
`removeDoubles` is a sparse mapping defined exactly for the vertices that
share their rounded position with at least one other vertex; every defined
entry lists at least two indices, contains the queried index itself, only
indices occupying the same rounded 3D position, and the induced relation
is symmetric.  An empty mesh yields an empty mapping.  (Contrary to the
claim as stated, vertices at unique positions have no entry, a non-first
member's list `[itself, first]` is not sorted, and entries are not the
full equivalence class for non-first members.) -/
theorem removeDoubles_amended (positions : List K) :
    (∀ i l, equivLookup (removeDoubles positions) i = some l →
        i ∈ l ∧ 2 ≤ l.length ∧
        (∀ j ∈ l, keyOf positions j = keyOf positions i) ∧
        ∀ j ∈ l, ∃ lj, equivLookup (removeDoubles positions) j = some lj ∧ i ∈ lj) ∧
    (∀ i j, i < positions.length / 3 → j < positions.length / 3 → i ≠ j →
        keyOf positions i = keyOf positions j →
        ∃ l, equivLookup (removeDoubles positions) i = some l) ∧
    removeDoubles ([] : List K) = [] := by
  have hnd := removeDoubles_keys_nodup positions
  have inv := vertexBuckets_inv positions
  refine ⟨?_, ?_, by simp [removeDoubles, vertexBuckets]⟩
  · intro i l hlook
    have hm := (equivLookup_eq_some hnd).1 hlook
    rcases (mem_removeDoubles positions).1 hm with ⟨p, hp, main, rest, hpl, hr, hcase⟩
    have hmainp : main ∈ p.2 := by rw [hpl]; exact List.mem_cons_self _ _
    rcases hcase with ⟨hi, hl⟩ | ⟨hi, hl⟩
    · subst hl
      have hip : i ∈ p.2 := by rw [hi]; exact hmainp
      refine ⟨by rw [hi]; exact List.mem_cons_self _ _, ?_, ?_, ?_⟩
      · cases rest with
        | nil => exact absurd rfl hr
        | cons a t => simp
      · intro j hj
        have hjp : j ∈ p.2 := by rw [hpl]; exact hj
        rw [inv.key p hp j hjp, inv.key p hp i hip]
      · intro j hj
        rcases List.mem_cons.1 hj with hj | hj
        · refine ⟨main :: rest, ?_, by rw [hi]; exact List.mem_cons_self _ _⟩
          have hj' : j = i := hj.trans hi.symm
          rw [hj']
          exact hlook
        · refine ⟨[j, main], ?_, by rw [hi]; simp⟩
          exact (equivLookup_eq_some hnd).2
            ((mem_removeDoubles positions).2
              ⟨p, hp, main, rest, hpl, hr, Or.inr ⟨hj, rfl⟩⟩)
    · subst hl
      have hip : i ∈ p.2 := by rw [hpl]; exact List.mem_cons_of_mem _ hi
      refine ⟨List.mem_cons_self _ _, by simp, ?_, ?_⟩
      · intro j hj
        have hjp : j ∈ p.2 := by
          rw [hpl]
          rcases List.mem_cons.1 hj with hj | hj
          · subst hj
            exact List.mem_cons_of_mem _ hi
          · rw [List.mem_singleton] at hj
            subst hj
            exact List.mem_cons_self _ _
        rw [inv.key p hp j hjp, inv.key p hp i hip]
      · intro j hj
        rcases List.mem_cons.1 hj with hj | hj
        · refine ⟨[i, main], ?_, List.mem_cons_self _ _⟩
          rw [hj]
          exact hlook
        · rw [List.mem_singleton] at hj
          refine ⟨main :: rest, ?_, List.mem_cons_of_mem _ hi⟩
          rw [hj]
          exact (equivLookup_eq_some hnd).2
            ((mem_removeDoubles positions).2 ⟨p, hp, main, rest, hpl, hr, Or.inl ⟨rfl, rfl⟩⟩)
  · intro i j hi hj hne hkey
    rcases inv.cover i hi with ⟨p, hp, hip⟩
    rcases inv.cover j hj with ⟨q, hq, hjq⟩
    have hpq : p = q := bucket_eq_of_key inv hp hq hip hjq hkey
    subst hpq
    rcases hm : p.2 with _ | ⟨main, rest⟩
    · rw [hm] at hip
      cases hip
    · have hr : rest ≠ [] := by
        intro hrest
        subst hrest
        rw [hm, List.mem_singleton] at hip hjq
        exact hne (hip.trans hjq.symm)
      rw [hm] at hip
      rcases List.mem_cons.1 hip with h | h
      · subst h
        exact ⟨i :: rest, (equivLookup_eq_some hnd).2
          ((mem_removeDoubles positions).2 ⟨p, hp, i, rest, hm, hr, Or.inl ⟨rfl, rfl⟩⟩)⟩
      · exact ⟨[i, main], (equivLookup_eq_some hnd).2
          ((mem_removeDoubles positions).2 ⟨p, hp, main, rest, hm, hr, Or.inr ⟨h, rfl⟩⟩)⟩

lemma removeDoubles_pair_eval :
    removeDoubles ([0, 0, 0, 0, 0, 0] : List ℚ) = [(0, [0, 1]), (1, [1, 0])] := by
  have hk0 : keyOf ([0, 0, 0, 0, 0, 0] : List ℚ) 0 = ⟨0, 0, 0⟩ := by
    norm_num [keyOf, List.getD, roundTo_zero]
  have hk1 : keyOf ([0, 0, 0, 0, 0, 0] : List ℚ) 1 = ⟨0, 0, 0⟩ := by
    norm_num [keyOf, List.getD, roundTo_zero]
  norm_num [removeDoubles, vertexBuckets, List.range_succ, bucketInsert, bucketEquiv,
    hk0, hk1]

/-- Witness for `removeDoubles_amended` at a concrete mesh of two
coincident vertices: vertex `1`'s entry `[1, 0]` contains itself, has the
right key, and the relation is symmetric back to vertex `0`. -/
theorem removeDoubles_amended_witness :
    ∃ lj, equivLookup (removeDoubles ([0, 0, 0, 0, 0, 0] : List ℚ)) 0 = some lj ∧
      (1 : ℕ) ∈ lj := by
  have h := (removeDoubles_amended ([0, 0, 0, 0, 0, 0] : List ℚ)).1 1 [1, 0]
    (by rw [removeDoubles_pair_eval]; rfl)
  exact h.2.2.2 0 (by simp)

/-- Claim C6 as stated is false on the code: for the mesh of two
coincident vertices, `removeDoubles` maps vertex `1` to `[1, 0]`, which is
not the sorted list `[0, 1]` of indices occupying its rounded position
(and for a mesh with any uniquely-positioned vertex the mapping would be
undefined there rather than a self-singleton). -/
theorem removeDoubles_claim_counterexample :
    ¬ (∀ i, i < 2 →
        equivLookup (removeDoubles ([0, 0, 0, 0, 0, 0] : List ℚ)) i =
          some (List.insertionSort (· ≤ ·)
            ((List.range 2).filter fun j =>
              keyOf ([0, 0, 0, 0, 0, 0] : List ℚ) j =
                keyOf ([0, 0, 0, 0, 0, 0] : List ℚ) i))) := by
  intro h
  have h1 := h 1 (by norm_num)
  rw [removeDoubles_pair_eval] at h1
  have hk0 : keyOf ([0, 0, 0, 0, 0, 0] : List ℚ) 0 = ⟨0, 0, 0⟩ := by
    norm_num [keyOf, List.getD, roundTo_zero]
  have hk1 : keyOf ([0, 0, 0, 0, 0, 0] : List ℚ) 1 = ⟨0, 0, 0⟩ := by
    norm_num [keyOf, List.getD, roundTo_zero]
  rw [List.range_succ, List.range_succ, List.range_zero] at h1
  simp only [hk0, hk1, List.nil_append, List.filter] at h1
  norm_num [equivLookup, List.find?, List.insertionSort, List.orderedInsert] at h1

end RemoveDoublesEntries


/-! ## Face record (`class Face`, source lines 30–114)

Only the fields consumed by the algorithms are carried.  The thirteen
optional per-vertex attribute channels (normals, tangents, colors, extra
UVs, skinning data), which the source extracts as slices and copies
verbatim, are modelled as one opaque per-corner blob `vAttrs`. -/

/-- The Face record: 3 vertex references (world position and original
index), 3 mutable UV slots, the per-corner attribute blobs, the face
normal, the face area, a source mesh index, a source triangle offset
(`index` = `indexBegin`), and 3 canonical edge keys
`(meshIndex, minIndex, maxIndex)` (the source's string
`offset + "_" + i1 + "_" + i2`, on which the triple encoding is
injective). -/
structure Face (K : Type) where
  meshIndex : ℕ
  index : ℕ
  v : List (Pt3 K × ℕ)
  uv : List (Pt2 K)
  vAttrs : List (List K)
  no : Pt3 K
  area : K
  edgeKeys : List (ℕ × ℕ × ℕ)
deriving DecidableEq, Repr

/-- Apply a transform to every UV slot of a face (the source mutates the
shared `Vector2` objects in place). -/
def mapUv (t : Pt2 K → Pt2 K) (f : Face K) : Face K := { f with uv := f.uv.map t }

/-! ## Island orientation (`convexhull2d`, `fitAabb2d`, `boxFit2D`,
`rotateUvs`, `boundsIslands`, `optiRotateUvIsland`, source lines 375–400,
478–506, 644–753, 888–910) -/

/-- Source `cross(a, b, o)` (line 375). -/
def crossO (a b o : Pt2 K) : K :=
  (a.x - o.x) * (b.y - o.y) - (a.y - o.y) * (b.x - o.x)

/-- Source `mulV2V2Cw(mat, vec)` (line 394): use a unit vector as a
rotation matrix. -/
def mulV2V2Cw (mat vec : Pt2 K) : Pt2 K :=
  ⟨mat.x * vec.x + mat.y * vec.y, mat.y * vec.x - mat.x * vec.y⟩

/-- The JavaScript sort comparator of `convexhull2d`
(`a.x === b.x ? a.y - b.y : a.x - b.x`): lexicographic by x then y. -/
def hullLe (a b : Pt2 K) : Prop := a.x < b.x ∨ (a.x = b.x ∧ a.y ≤ b.y)

instance : DecidableRel (hullLe (K := K)) := fun a b => by
  unfold hullLe
  infer_instance

/-- One push of the monotone-chain loop: pop while the last two chain
points and the new point fail the turn test (`cross ≤ 0`), then push.  The
chain is kept reversed (most recent point first), so the source's
`lower[lower.length - 2]`, `lower[lower.length - 1]` are the second and
first elements. -/
def chainPush : List (Pt2 K) → Pt2 K → List (Pt2 K)
  | b :: a :: rest, p =>
      if crossO a b p ≤ 0 then chainPush (a :: rest) p else p :: b :: a :: rest
  | acc, p => p :: acc

/-- Source `convexhull2d(points)`: fewer than 3 points give `[]`; otherwise
sort lexicographically, build the lower chain left to right and the upper
chain right to left, drop each chain's last point (`pop()`), and
concatenate.  `insertionSort` is a stable sort, as JavaScript's `sort`. -/
def convexhull2d (points : List (Pt2 K)) : List (Pt2 K) :=
  if points.length < 3 then []
  else
    let sorted := List.insertionSort hullLe points
    let lower := (sorted.foldl chainPush []).tail.reverse
    let upper := (sorted.reverse.foldl chainPush []).tail.reverse
    lower ++ upper

/-- The bounding-box area of the hull points in the frame of the (not yet
normalised) edge direction `d`: `mulV2V2Cw` of the normalised direction
scales every coordinate by `1/‖d‖`, so this is `‖d‖²` times the area the
source computes.  The source's early `break` when the partial area already
exceeds the best is semantically a no-op (the running area only grows with
`j`), so the full product is taken.  An empty list gives `0` (the source
would produce `∞ · ∞` from its sentinels; the loop always runs over the
nonempty hull). -/
def fitRawArea (d : Pt2 K) (pts : List (Pt2 K)) : K :=
  let ts := pts.map (fun p => mulV2V2Cw d p)
  let xs := ts.map (·.x)
  let ys := ts.map (·.y)
  (xs.foldl max (xs.headD 0) - xs.foldl min (xs.headD 0)) *
    (ys.foldl max (ys.headD 0) - ys.foldl min (ys.headD 0))

/-- Hull edges `(hull[i], hull[iPrev])` with `iPrev` starting at `n - 1`
(source lines 697–736): each point paired with its cyclic predecessor. -/
def fitEdges (hull : List (Pt2 K)) : List (Pt2 K × Pt2 K) :=
  match hull.getLast? with
  | none => []
  | some last => hull.zip (last :: hull.dropLast)

/-- One rotating-calipers candidate (source lines 700–736), in exact
arithmetic.  The source normalises `dvec` and tests `dvec.x > 1e-6`; for
`‖dvec‖ > 0` that is `dvec.x > 1e-6 · ‖dvec‖`, i.e.
`0 < dvec.x ∧ (1e-6)² · ‖dvec‖² < dvec.x²` (for `dvec = 0` Babylon's
`normalize` leaves the zero vector and the test fails, as here).  Areas of
candidates are compared after multiplying by the two squared lengths
(`area/l2 < areaBest/l2b ↔ area·l2b < areaBest·l2`, both positive), so the
running best carries `(dvec, rawArea, ‖dvec‖²)`. -/
def fitStep (hull : List (Pt2 K)) (best : Option (Pt2 K × K × K))
    (e : Pt2 K × Pt2 K) : Option (Pt2 K × K × K) :=
  let dvec := sub2 e.1 e.2
  let l2 := dvec.x ^ 2 + dvec.y ^ 2
  if 0 < dvec.x ∧ (1 / 10 ^ 6 : K) ^ 2 * l2 < dvec.x ^ 2 then
    let area := fitRawArea dvec hull
    match best with
    | none => some (dvec, area, l2)
    | some (db, ab, l2b) =>
        if area * l2b < ab * l2 then some (dvec, area, l2) else some (db, ab, l2b)
  else best

/-- Source `fitAabb2d(hull)`, reduced to what its callers consume: the
best edge direction, unnormalised (`none` when no candidate passed, in
which case the source returns angle `0`).  The source's angle is
`atan2(dvecBest.y, dvecBest.x)` of the normalised best direction, which
equals the angle of this unnormalised one. -/
def fitAabb2dDir (hull : List (Pt2 K)) : Option (Pt2 K) :=
  ((fitEdges hull).foldl (fitStep hull) none).map (·.1)

/-- Source `boxFit2D(points)`: the fitted direction of the convex hull
(`none` encodes angle `0`). -/
def boxFitDir (points : List (Pt2 K)) : Option (Pt2 K) :=
  fitAabb2dDir (convexhull2d points)

/-- The map applied by `rotateUvs(uvPoints, angle)` to each point:
`TransformCoordinates` with `Matrix.RotationZ(-angle)` sends `(x, y)` to
`(x·cos angle + y·sin angle, -x·sin angle + y·cos angle)`; `c` and `s`
stand for `cos angle` and `sin angle`. -/
def pointRot (c s : K) (p : Pt2 K) : Pt2 K :=
  ⟨p.x * c + p.y * s, -(p.x * s) + p.y * c⟩

/-- Source `rotateUvs` (lines 644–654) as a pure map (the `angle !== 0`
skip is decided at the call sites). -/
def rotateUvs (c s : K) (pts : List (Pt2 K)) : List (Pt2 K) :=
  pts.map (pointRot c s)

/-- One min/max update of `boundsIslands`' inner loop (the four
independent `if`s of source lines 490–501), on the state
`(minx, miny, maxx, maxy)`. -/
def boundsStep (b : K × K × K × K) (uv : Pt2 K) : K × K × K × K :=
  (if uv.x < b.1 then uv.x else b.1,
   if uv.y < b.2.1 then uv.y else b.2.1,
   if b.2.2.1 < uv.x then uv.x else b.2.2.1,
   if b.2.2.2 < uv.y then uv.y else b.2.2.2)

/-- Bounds of a point list, seeded with the first point (the source seeds
with `faces[0].uv[0]` and then scans every point, the first included).
The empty case is `(0,0,0,0)`; the source would throw there. -/
def boundsPts : List (Pt2 K) → K × K × K × K
  | [] => (0, 0, 0, 0)
  | p :: rest => (p :: rest).foldl boundsStep (p.x, p.y, p.x, p.y)

/-- Source `boundsIslands(faces)` (lines 478–506): bounds of all UV points
of the faces, in face-then-corner order. -/
def boundsIslands (faces : List (Face K)) : K × K × K × K :=
  boundsPts (faces.flatMap (·.uv))

/-- Width `maxx - minx` of a bounds tuple. -/
def boundsW (b : K × K × K × K) : K := b.2.2.1 - b.1

/-- Height `maxy - miny` of a bounds tuple. -/
def boundsH (b : K × K × K × K) : K := b.2.2.2 - b.2.1

/-- First half of `optiRotateUvIsland` (source lines 888–900): rotate all
island UVs by the fitted minimum-area-box angle, unless that angle is `0`
(`atan2(d.y, d.x) = 0` iff `d.y = 0 ∧ 0 < d.x`).  The rotation's cosine
and sine are the normalised fitted direction, so the square root of its
squared length enters through `sqrtK`. -/
def fitRotateStep (sqrtK : K → K) (faces : List (Face K)) : List (Face K) :=
  match boxFitDir (faces.flatMap (·.uv)) with
  | none => faces
  | some d =>
      if d.y = 0 ∧ 0 < d.x then faces
      else
        faces.map (mapUv (pointRot (d.x / sqrtK (d.x ^ 2 + d.y ^ 2))
          (d.y / sqrtK (d.x ^ 2 + d.y ^ 2))))

/-- Second half of `optiRotateUvIsland` (source lines 902–909): if the
bounding box is wider than tall beyond the `1e-5` tolerance, rotate a
further 90° (`pointRot (cos (π/2)) (sin (π/2)) = pointRot 0 1`). -/
def orientStep (faces1 : List (Face K)) : List (Face K) :=
  if boundsH (boundsIslands faces1) + 1 / 10 ^ 5 < boundsW (boundsIslands faces1) then
    faces1.map (mapUv (pointRot 0 1))
  else faces1

/-- Source `optiRotateUvIsland(faces)`. -/
def optiRotateUvIsland (sqrtK : K → K) (faces : List (Face K)) : List (Face K) :=
  orientStep (fitRotateStep sqrtK faces)

/-! ## Island Builder (`UvMapper.getUvIslands`, source lines 1097–1176)

Within one call, each projection group is processed from the last group
down to the first; the group's face array is `group.concat(deletedFaces)`
(so the accumulated degenerate faces are appended to EVERY group).  The
flood fill reads nothing of a face but its `edgeKeys`, so it is defined
over the list of edge-key lists; `faceModes` holds 0 (unvisited),
1 (frontier) or 2 (done), and every island collects the positions whose
mode moves 0 → 1. -/

/-- The `edgeUsers` table (source lines 1110–1120) looked up at one key:
the positions of the faces using that key, in push order (a face using a
key twice is pushed twice). -/
def edgeUsersAux (k : ℕ × ℕ × ℕ) : List (List (ℕ × ℕ × ℕ)) → ℕ → List ℕ
  | [], _ => []
  | ks :: rest, i => (ks.filter (· = k)).map (fun _ => i) ++ edgeUsersAux k rest (i + 1)

/-- All users of edge key `k` (positions into the face array). -/
def edgeUsers (keyss : List (List (ℕ × ℕ × ℕ))) (k : ℕ × ℕ × ℕ) : List ℕ :=
  edgeUsersAux k keyss 0

/-- Source lines 1139–1147: visit one user `ii` of an edge key of face
`i`; an unvisited user other than `i` itself becomes frontier and is
pushed onto the current island.  The flood state is
`(faceModes, newIsland, ok)`.  The mode read defaults to 1 for an
out-of-range position so that such a read is inert; `edgeUsers` only
yields in-range positions, so this matches the source. -/
def visitUser (i : ℕ) (st : List ℕ × List ℕ × Bool) (ii : ℕ) :
    List ℕ × List ℕ × Bool :=
  if i ≠ ii ∧ st.1.getD ii 1 = 0 then (st.1.set ii 1, st.2.1 ++ [ii], true) else st

/-- Source lines 1136–1149: if face `i` is frontier, visit the users of
its edge keys, then mark it done. -/
def visitFace (keyss : List (List (ℕ × ℕ × ℕ))) (st : List ℕ × List ℕ × Bool)
    (i : ℕ) : List ℕ × List ℕ × Bool :=
  if st.1.getD i 0 = 1 then
    let st' := (keyss[i]?.getD []).foldl
      (fun s k => (edgeUsers keyss k).foldl (visitUser i) s) st
    (st'.1.set i 2, st'.2.1, st'.2.2)
  else st

/-- One pass of the middle `while (ok)` loop (source lines 1133–1152):
`ok` is reset, then every face position is processed in order. -/
def passOnce (keyss : List (List (ℕ × ℕ × ℕ))) (modes island : List ℕ) :
    List ℕ × List ℕ × Bool :=
  (List.range keyss.length).foldl (visitFace keyss) (modes, island, false)

/-- Number of unvisited faces, the termination measure. -/
def countZero (modes : List ℕ) : ℕ := modes.countP (· = 0)

/-- Combined termination measure of the flood state: the `ok` flag is only
ever raised together with a strict drop in the number of unvisited faces. -/
def floodMeasure (st : List ℕ × List ℕ × Bool) : ℕ :=
  2 * countZero st.1 + (if st.2.2 = true then 1 else 0)

lemma getD_irrel {m : List ℕ} {i d₁ d₂ : ℕ} (hi : i < m.length) :
    m.getD i d₁ = m.getD i d₂ := by
  rw [List.getD_eq_getElem _ _ hi, List.getD_eq_getElem _ _ hi]

lemma getD_one_eq_zero_lt {m : List ℕ} {i : ℕ} (h : m.getD i 1 = 0) : i < m.length := by
  by_contra hle
  rw [List.getD_eq_getElem?_getD, List.getElem?_eq_none (by omega),
    Option.getD_none] at h
  exact one_ne_zero h

lemma getD_set_self {m : List ℕ} {i v : ℕ} (hi : i < m.length) :
    (m.set i v).getD i 0 = v := by
  rw [List.getD_eq_getElem?_getD, List.getElem?_set_self hi]
  rfl

lemma getD_set_ne {m : List ℕ} {i j v : ℕ} (hne : i ≠ j) :
    (m.set i v).getD j 0 = m.getD j 0 := by
  rw [List.getD_eq_getElem?_getD, List.getElem?_set_ne hne,
    ← List.getD_eq_getElem?_getD]

lemma countZero_set_le {m : List ℕ} {i v : ℕ} (hv : v ≠ 0) :
    countZero (m.set i v) ≤ countZero m := by
  induction m generalizing i with
  | nil => simp [countZero]
  | cons x rest ih =>
      cases i with
      | zero =>
          simp only [List.set_cons_zero, countZero, List.countP_cons]
          have hd : (decide (v = 0)) = false := by simp [hv]
          rw [hd]
          simp only [Bool.false_eq_true, if_false]
          omega
      | succ i =>
          simp only [List.set_cons_succ, countZero, List.countP_cons]
          have := ih (i := i)
          unfold countZero at this
          omega

lemma countZero_set_one_lt {m : List ℕ} {i : ℕ} (h : m.getD i 0 = 0)
    (hi : i < m.length) : countZero (m.set i 1) < countZero m := by
  induction m generalizing i with
  | nil => simp at hi
  | cons x rest ih =>
      cases i with
      | zero =>
          rw [List.getD_cons_zero] at h
          subst h
          simp [countZero, List.countP_cons]
      | succ i =>
          rw [List.getD_cons_succ] at h
          simp only [List.length_cons] at hi
          simp only [List.set_cons_succ, countZero, List.countP_cons]
          have := ih h (by omega)
          unfold countZero at this
          omega

lemma floodMeasure_visitUser (i : ℕ) (st : List ℕ × List ℕ × Bool) (ii : ℕ) :
    floodMeasure (visitUser i st ii) ≤ floodMeasure st := by
  unfold visitUser
  by_cases h : i ≠ ii ∧ st.1.getD ii 1 = 0
  · rw [if_pos h]
    have hi : ii < st.1.length := getD_one_eq_zero_lt h.2
    have h0 : st.1.getD ii 0 = 0 := (getD_irrel hi).trans h.2
    have hlt := countZero_set_one_lt h0 hi
    show 2 * countZero (st.1.set ii 1) + (if (true : Bool) = true then 1 else 0) ≤
      2 * countZero st.1 + (if st.2.2 = true then 1 else 0)
    rw [if_pos rfl]
    split <;> omega
  · rw [if_neg h]

lemma foldl_measure_le {α β : Type} (f : α → β → α) (μ : α → ℕ)
    (h : ∀ a b, μ (f a b) ≤ μ a) : ∀ (l : List β) (a : α), μ (l.foldl f a) ≤ μ a := by
  intro l
  induction l with
  | nil => intro a; exact le_refl _
  | cons b l ih =>
      intro a
      exact le_trans (ih (f a b)) (h a b)

lemma floodMeasure_visitFace (keyss : List (List (ℕ × ℕ × ℕ)))
    (st : List ℕ × List ℕ × Bool) (i : ℕ) :
    floodMeasure (visitFace keyss st i) ≤ floodMeasure st := by
  unfold visitFace
  by_cases h : st.1.getD i 0 = 1
  · rw [if_pos h]
    have hfold : floodMeasure ((keyss[i]?.getD []).foldl
        (fun s k => (edgeUsers keyss k).foldl (visitUser i) s) st) ≤ floodMeasure st := by
      refine foldl_measure_le _ _ (fun a k => ?_) _ st
      exact foldl_measure_le _ _ (fun a' ii => floodMeasure_visitUser i a' ii) _ a
    set st' := (keyss[i]?.getD []).foldl
      (fun s k => (edgeUsers keyss k).foldl (visitUser i) s) st with hst'
    have hset : countZero (st'.1.set i 2) ≤ countZero st'.1 :=
      countZero_set_le (by omega)
    have hstep : floodMeasure (st'.1.set i 2, st'.2.1, st'.2.2) ≤ floodMeasure st' := by
      show 2 * countZero (st'.1.set i 2) + (if st'.2.2 = true then 1 else 0) ≤
        2 * countZero st'.1 + (if st'.2.2 = true then 1 else 0)
      omega
    exact le_trans hstep hfold
  · rw [if_neg h]

lemma floodMeasure_passOnce (keyss : List (List (ℕ × ℕ × ℕ))) (modes island : List ℕ) :
    floodMeasure (passOnce keyss modes island) ≤ 2 * countZero modes := by
  have := foldl_measure_le (visitFace keyss) floodMeasure
    (floodMeasure_visitFace keyss) (List.range keyss.length) (modes, island, false)
  unfold floodMeasure at this
  simp only [if_neg Bool.false_ne_true] at this
  calc floodMeasure (passOnce keyss modes island)
      ≤ 2 * countZero modes + 0 := this
    _ = 2 * countZero modes := by omega

lemma passOnce_ok_lt (keyss : List (List (ℕ × ℕ × ℕ))) (modes island : List ℕ)
    (h : (passOnce keyss modes island).2.2 = true) :
    countZero (passOnce keyss modes island).1 < countZero modes := by
  have := floodMeasure_passOnce keyss modes island
  unfold floodMeasure at this
  rw [if_pos h] at this
  omega

lemma passOnce_count_le (keyss : List (List (ℕ × ℕ × ℕ))) (modes island : List ℕ) :
    countZero (passOnce keyss modes island).1 ≤ countZero modes := by
  have := floodMeasure_passOnce keyss modes island
  unfold floodMeasure at this
  split at this <;> omega

/-- The middle `while (ok)` loop (source lines 1133–1152): run passes
until one makes no progress; returns the final modes and island. -/
def innerLoop (keyss : List (List (ℕ × ℕ × ℕ))) (modes island : List ℕ) :
    List ℕ × List ℕ :=
  if h : (passOnce keyss modes island).2.2 = true then
    innerLoop keyss (passOnce keyss modes island).1 (passOnce keyss modes island).2.1
  else ((passOnce keyss modes island).1, (passOnce keyss modes island).2.1)
termination_by countZero modes
decreasing_by exact passOnce_ok_lt keyss modes island h

lemma innerLoop_count_le (keyss : List (List (ℕ × ℕ × ℕ))) (modes island : List ℕ) :
    countZero (innerLoop keyss modes island).1 ≤ countZero modes := by
  unfold innerLoop
  split
  · exact le_trans (innerLoop_count_le keyss _ _) (passOnce_count_le keyss modes island)
  · exact passOnce_count_le keyss modes island
termination_by countZero modes
decreasing_by exact passOnce_ok_lt keyss modes island (by assumption)

lemma findIdx_zero_spec {m : List ℕ} {i : ℕ}
    (h : m.findIdx? (fun x => x = 0) = some i) :
    i < m.length ∧ m.getD i 0 = 0 := by
  rcases List.findIdx?_eq_some_iff_findIdx_eq.1 h with ⟨hlt, hidx⟩
  subst hidx
  refine ⟨hlt, ?_⟩
  rw [List.getD_eq_getElem _ _ hlt]
  have := @List.findIdx_getElem _ (fun x => decide (x = 0)) m hlt
  simpa using this

/-- The outer island loop (source lines 1128–1168): exhaust the flood
fill, store the island, seed the next one at the first unvisited face,
until none remains. -/
def outerLoop (keyss : List (List (ℕ × ℕ × ℕ))) (modes island : List ℕ)
    (acc : List (List ℕ)) : List (List ℕ) :=
  match h : (innerLoop keyss modes island).1.findIdx? (fun x => x = 0) with
  | some i =>
      outerLoop keyss ((innerLoop keyss modes island).1.set i 1) [i]
        (acc ++ [(innerLoop keyss modes island).2])
  | none => acc ++ [(innerLoop keyss modes island).2]
termination_by countZero modes
decreasing_by
  exact lt_of_lt_of_le
    (countZero_set_one_lt (findIdx_zero_spec h).2 (findIdx_zero_spec h).1)
    (innerLoop_count_le keyss modes island)

/-- Source lines 1122–1168 for one face array (given as edge-key lists):
`faceModes` starts all 0 with position 0 seeded frontier and
`newIsland = [faces[0]]` (for an empty array the source pushes
`undefined`; here the junk seed 0 remains).  The result is the island
list as lists of face positions. -/
def buildIslandsIdx (keyss : List (List (ℕ × ℕ × ℕ))) : List (List ℕ) :=
  outerLoop keyss ((List.replicate keyss.length 0).set 0 1) [0] []

instance : Inhabited (Face K) :=
  ⟨{ meshIndex := 0, index := 0, v := [], uv := [], vAttrs := [],
     no := ⟨0, 0, 0⟩, area := 0, edgeKeys := [] }⟩

/-- The islands of one face array, as face lists: the flood fill runs on
the edge-key lists and each position is mapped back to its face. -/
def groupIslands (faces : List (Face K)) : List (List (Face K)) :=
  (buildIslandsIdx (faces.map (·.edgeKeys))).map
    (fun isl => isl.map (fun i => faces.getD i default))

/-- Source `getUvIslands(faceGroups, deletedFaces)` (lines 1097–1176):
groups are processed from the last down to the first, each concatenated
with the accumulated `deletedFaces`; afterwards every island is oriented
by `optiRotateUvIsland`.  (The `if (!faces) continue` of line 1106 is dead
code: a `concat` result is never falsy.) -/
def getUvIslands (sqrtK : K → K) (faceGroups : List (List (Face K)))
    (deletedFaces : List (Face K)) : List (List (Face K)) :=
  (faceGroups.reverse.foldl
      (fun acc group => acc ++ groupIslands (group ++ deletedFaces)) []).map
    (optiRotateUvIsland sqrtK)



section OrientProofs

lemma pointRot01 (p : Pt2 K) : pointRot (0 : K) 1 p = ⟨p.y, -p.x⟩ := by
  unfold pointRot
  congr 1 <;> ring

lemma neg_if_lt (x y : K) :
    (if -x < -y then -x else -y) = -(if y < x then x else y) := by
  by_cases h : y < x
  · rw [if_pos h, if_pos (neg_lt_neg h)]
  · rw [if_neg h, if_neg (by rwa [neg_lt_neg_iff])]

lemma neg_if_lt_flip (x y : K) :
    (if -x < -y then -y else -x) = -(if y < x then y else x) := by
  by_cases h : y < x
  · rw [if_pos h, if_pos (neg_lt_neg h)]
  · rw [if_neg h, if_neg (by rwa [neg_lt_neg_iff])]

lemma boundsStep_rot90 (s : K × K × K × K) (p : Pt2 K) :
    boundsStep (s.2.1, -s.2.2.1, s.2.2.2, -s.1) (pointRot 0 1 p) =
      ((boundsStep s p).2.1, -(boundsStep s p).2.2.1,
       (boundsStep s p).2.2.2, -(boundsStep s p).1) := by
  obtain ⟨a, b, c, d⟩ := s
  rw [pointRot01]
  unfold boundsStep
  simp only
  rw [neg_if_lt p.x c, neg_if_lt_flip a p.x]

lemma foldl_boundsStep_rot90 (pts : List (Pt2 K)) (s : K × K × K × K) :
    (pts.map (pointRot 0 1)).foldl boundsStep (s.2.1, -s.2.2.1, s.2.2.2, -s.1) =
      ((pts.foldl boundsStep s).2.1, -(pts.foldl boundsStep s).2.2.1,
       (pts.foldl boundsStep s).2.2.2, -(pts.foldl boundsStep s).1) := by
  induction pts generalizing s with
  | nil => rfl
  | cons p pts ih =>
      rw [List.map_cons, List.foldl_cons, List.foldl_cons, boundsStep_rot90]
      exact ih (boundsStep s p)

lemma boundsPts_rot90 (pts : List (Pt2 K)) :
    boundsPts (pts.map (pointRot 0 1)) =
      ((boundsPts pts).2.1, -(boundsPts pts).2.2.1,
       (boundsPts pts).2.2.2, -(boundsPts pts).1) := by
  cases pts with
  | nil => simp [boundsPts]
  | cons p rest =>
      rw [List.map_cons]
      have e1 : boundsPts (pointRot (0 : K) 1 p :: rest.map (pointRot 0 1)) =
          (pointRot (0 : K) 1 p :: rest.map (pointRot 0 1)).foldl boundsStep
            ((pointRot (0 : K) 1 p).x, (pointRot (0 : K) 1 p).y,
             (pointRot (0 : K) 1 p).x, (pointRot (0 : K) 1 p).y) := rfl
      have e2 : boundsPts (p :: rest) =
          (p :: rest).foldl boundsStep (p.x, p.y, p.x, p.y) := rfl
      rw [e1, e2]
      have hinit : ((pointRot (0 : K) 1 p).x, (pointRot (0 : K) 1 p).y,
          (pointRot (0 : K) 1 p).x, (pointRot (0 : K) 1 p).y) =
          (((p.x, p.y, p.x, p.y) : K × K × K × K).2.1,
           -((p.x, p.y, p.x, p.y) : K × K × K × K).2.2.1,
           ((p.x, p.y, p.x, p.y) : K × K × K × K).2.2.2,
           -((p.x, p.y, p.x, p.y) : K × K × K × K).1) := by
        rw [pointRot01]
      rw [List.foldl_cons, List.foldl_cons, hinit, boundsStep_rot90]
      exact foldl_boundsStep_rot90 rest _

lemma flatMap_mapUv (t : Pt2 K → Pt2 K) (fs : List (Face K)) :
    (fs.map (mapUv t)).flatMap (·.uv) = (fs.flatMap (·.uv)).map t := by
  induction fs with
  | nil => rfl
  | cons f fs ih =>
      simp only [List.map_cons, List.flatMap_cons, List.map_append, ih, mapUv]

lemma boundsIslands_rot90 (fs : List (Face K)) :
    boundsIslands (fs.map (mapUv (pointRot 0 1))) =
      ((boundsIslands fs).2.1, -(boundsIslands fs).2.2.1,
       (boundsIslands fs).2.2.2, -(boundsIslands fs).1) := by
  unfold boundsIslands
  rw [flatMap_mapUv, boundsPts_rot90]

/-- Claim C5 (amended): after `optiRotateUvIsland`, if the bounding box is
wider than tall beyond the `1e-5` tolerance an additional 90° rotation is
applied, so every island is normalised to a portrait aspect (width at most
height plus the tolerance) before packing — not to a landscape aspect as
the claim states. -/
theorem optiRotate_portrait (sqrtK : K → K) (faces : List (Face K)) :
    boundsW (boundsIslands (optiRotateUvIsland sqrtK faces)) ≤
      boundsH (boundsIslands (optiRotateUvIsland sqrtK faces)) + 1 / 10 ^ 5 := by
  unfold optiRotateUvIsland
  set fs := fitRotateStep sqrtK faces with hfs
  clear_value fs
  unfold orientStep
  by_cases h : boundsH (boundsIslands fs) + 1 / 10 ^ 5 < boundsW (boundsIslands fs)
  · rw [if_pos h]
    rw [boundsIslands_rot90]
    unfold boundsW boundsH at h ⊢
    simp only
    have heps : (0 : K) < 1 / 10 ^ 5 := by positivity
    linarith
  · rw [if_neg h]
    linarith [not_lt.1 h]

/-- A concrete face whose island the source rotates from landscape to
portrait: a right triangle with UVs (0,0), (4,0), (0,1). -/
def exFace : Face ℚ where
  meshIndex := 0
  index := 0
  v := [(⟨0, 0, 0⟩, 0), (⟨4, 0, 0⟩, 1), (⟨0, 1, 0⟩, 2)]
  uv := [⟨0, 0⟩, ⟨4, 0⟩, ⟨0, 1⟩]
  vAttrs := []
  no := ⟨0, 0, 1⟩
  area := 2
  edgeKeys := [(0, 0, 1), (0, 1, 2), (0, 0, 2)]

/-- Claim C5 as stated is false on the code: on the island of `exFace` the
fitted angle is `0` and the box is wider than tall, yet the island is
rotated 90°, ending taller than wide (width 1, height 4) — the opposite of
the claimed landscape normalisation.  (`Math.sqrt` is modelled by the
identity here; the path taken never evaluates it.) -/
theorem optiRotate_claim_counterexample :
    boundsW (boundsIslands (optiRotateUvIsland (fun q : ℚ => q) [exFace])) <
      boundsH (boundsIslands (optiRotateUvIsland (fun q : ℚ => q) [exFace])) := by
  norm_num [optiRotateUvIsland, fitRotateStep, orientStep, boxFitDir, convexhull2d,
    exFace, List.insertionSort, List.orderedInsert, hullLe, chainPush, crossO,
    fitAabb2dDir, fitEdges, fitStep, fitRawArea, mulV2V2Cw, sub2, boundsIslands,
    boundsPts, boundsStep, boundsW, boundsH, mapUv, pointRot]

end OrientProofs

section IslandProofs

/-- Flood-fill bookkeeping invariant: a face position has been pushed
(onto an earlier island of `J` or the current island) exactly once iff its
mode is nonzero. -/
def Inv2 (J modes island : List ℕ) : Prop :=
  ∀ x : ℕ, (J ++ island).count x = if modes.getD x 0 ≠ 0 then 1 else 0

lemma foldl_pres {α β : Type} (f : α → β → α) (P : α → Prop)
    (h : ∀ a b, P a → P (f a b)) : ∀ (l : List β) (a : α), P a → P (l.foldl f a) := by
  intro l
  induction l with
  | nil => exact fun a ha => ha
  | cons b l ih => exact fun a ha => ih (f a b) (h a b ha)

lemma visitUser_length (i : ℕ) (st : List ℕ × List ℕ × Bool) (ii : ℕ) :
    (visitUser i st ii).1.length = st.1.length := by
  unfold visitUser
  split
  · exact List.length_set ..
  · rfl

lemma visitFace_length (keyss : List (List (ℕ × ℕ × ℕ))) (st : List ℕ × List ℕ × Bool)
    (i : ℕ) : (visitFace keyss st i).1.length = st.1.length := by
  unfold visitFace
  split
  · rw [List.length_set]
    refine foldl_pres _ (fun a => a.1.length = st.1.length) ?_ _ st rfl
    intro a k ha
    refine foldl_pres _ (fun a => a.1.length = st.1.length) ?_ _ a ha
    intro a' ii ha'
    rw [visitUser_length, ha']
  · rfl

lemma passOnce_length (keyss : List (List (ℕ × ℕ × ℕ))) (modes island : List ℕ) :
    (passOnce keyss modes island).1.length = modes.length := by
  unfold passOnce
  exact foldl_pres _ (fun a => a.1.length = modes.length)
    (fun a i ha => (visitFace_length keyss a i).trans ha) _ (modes, island, false) rfl

lemma innerLoop_length (keyss : List (List (ℕ × ℕ × ℕ))) (modes island : List ℕ) :
    (innerLoop keyss modes island).1.length = modes.length := by
  unfold innerLoop
  split
  · exact (innerLoop_length keyss _ _).trans (passOnce_length keyss modes island)
  · exact passOnce_length keyss modes island
termination_by countZero modes
decreasing_by exact passOnce_ok_lt keyss modes island (by assumption)

lemma visitUser_inv (J : List ℕ) (i : ℕ) (st : List ℕ × List ℕ × Bool) (ii : ℕ)
    (h : Inv2 J st.1 st.2.1) :
    Inv2 J (visitUser i st ii).1 (visitUser i st ii).2.1 := by
  unfold visitUser
  split
  next hcond =>
    intro x
    have hi : ii < st.1.length := getD_one_eq_zero_lt hcond.2
    show (J ++ (st.2.1 ++ [ii])).count x = if (st.1.set ii 1).getD x 0 ≠ 0 then 1 else 0
    rw [← List.append_assoc, List.count_append, h x]
    by_cases hx : x = ii
    · subst hx
      rw [getD_set_self hi]
      have h0 : st.1.getD x 0 = 0 := (getD_irrel hi).trans hcond.2
      rw [h0]
      simp
    · rw [getD_set_ne (Ne.symm hx)]
      have : List.count x [ii] = 0 :=
        List.count_eq_zero_of_not_mem (by simpa using hx)
      rw [this, Nat.add_zero]
  next => exact h

lemma visitUser_getD_self (i : ℕ) (st : List ℕ × List ℕ × Bool) (ii : ℕ) :
    (visitUser i st ii).1.getD i 0 = st.1.getD i 0 := by
  unfold visitUser
  split
  next hcond =>
    show (st.1.set ii 1).getD i 0 = st.1.getD i 0
    rw [getD_set_ne (Ne.symm hcond.1)]
  next => rfl

lemma visitFace_inv (J : List ℕ) (keyss : List (List (ℕ × ℕ × ℕ)))
    (st : List ℕ × List ℕ × Bool) (i : ℕ) (h : Inv2 J st.1 st.2.1) :
    Inv2 J (visitFace keyss st i).1 (visitFace keyss st i).2.1 := by
  unfold visitFace
  split
  next hcond =>
    have hall := foldl_pres (fun s k => (edgeUsers keyss k).foldl (visitUser i) s)
      (fun a => Inv2 J a.1 a.2.1 ∧ a.1.getD i 0 = st.1.getD i 0)
      (by
        intro a k ha
        refine foldl_pres _
          (fun a => Inv2 J a.1 a.2.1 ∧ a.1.getD i 0 = st.1.getD i 0) ?_ _ a ha
        intro a' ii ha'
        exact ⟨visitUser_inv J i a' ii ha'.1, (visitUser_getD_self i a' ii).trans ha'.2⟩)
      (keyss[i]?.getD []) st ⟨h, rfl⟩
    set st' := (keyss[i]?.getD []).foldl
      (fun s k => (edgeUsers keyss k).foldl (visitUser i) s) st with hst'
    intro x
    show (J ++ st'.2.1).count x = if (st'.1.set i 2).getD x 0 ≠ 0 then 1 else 0
    have hmode : st'.1.getD i 0 = 1 := hall.2.trans hcond
    have hilt : i < st'.1.length := by
      by_contra hle
      rw [List.getD_eq_default _ _ (by omega)] at hmode
      exact absurd hmode (by norm_num)
    by_cases hx : x = i
    · subst hx
      rw [getD_set_self hilt]
      have hcnt := hall.1 x
      rw [hmode] at hcnt
      simpa using hcnt
    · rw [getD_set_ne (Ne.symm hx)]
      exact hall.1 x
  next => exact h

lemma passOnce_inv (J : List ℕ) (keyss : List (List (ℕ × ℕ × ℕ)))
    (modes island : List ℕ) (h : Inv2 J modes island) :
    Inv2 J (passOnce keyss modes island).1 (passOnce keyss modes island).2.1 := by
  unfold passOnce
  exact foldl_pres _ (fun a => Inv2 J a.1 a.2.1)
    (fun a i ha => visitFace_inv J keyss a i ha) _ (modes, island, false) h

lemma innerLoop_inv (J : List ℕ) (keyss : List (List (ℕ × ℕ × ℕ)))
    (modes island : List ℕ) (h : Inv2 J modes island) :
    Inv2 J (innerLoop keyss modes island).1 (innerLoop keyss modes island).2 := by
  unfold innerLoop
  split
  · exact innerLoop_inv J keyss _ _ (passOnce_inv J keyss modes island h)
  · exact passOnce_inv J keyss modes island h
termination_by countZero modes
decreasing_by exact passOnce_ok_lt keyss modes island (by assumption)

lemma seed_inv (J : List ℕ) (m : List ℕ) (i : ℕ) (h : Inv2 J m [])
    (h0 : m.getD i 0 = 0) (hi : i < m.length) :
    Inv2 J (m.set i 1) [i] := by
  intro x
  rw [List.count_append]
  have hJ : List.count x (J ++ []) = List.count x J := by rw [List.append_nil]
  have hx0 := h x
  rw [List.append_nil] at hx0
  by_cases hx : x = i
  · subst hx
    rw [getD_set_self hi]
    rw [h0] at hx0
    rw [if_neg (by omega : ¬(0 : ℕ) ≠ 0)] at hx0
    rw [hx0]
    simp
  · rw [getD_set_ne (Ne.symm hx)]
    have : List.count x [i] = 0 := List.count_eq_zero_of_not_mem (by simpa using hx)
    rw [this, Nat.add_zero, hx0]

lemma count_range (n x : ℕ) : (List.range n).count x = if x < n then 1 else 0 := by
  by_cases h : x < n
  · rw [if_pos h]
    exact List.count_eq_one_of_mem (List.nodup_range _) (List.mem_range.2 h)
  · rw [if_neg h]
    exact List.count_eq_zero_of_not_mem (by simpa using h)

lemma outerLoop_perm (keyss : List (List (ℕ × ℕ × ℕ))) (modes island : List ℕ)
    (acc : List (List ℕ)) (hlen : modes.length = keyss.length)
    (hinv : Inv2 acc.flatten modes island) :
    ((outerLoop keyss modes island acc).flatten).Perm (List.range keyss.length) := by
  have hinner := innerLoop_inv acc.flatten keyss modes island hinv
  have hilen := (innerLoop_length keyss modes island).trans hlen
  unfold outerLoop
  split
  next i heq =>
    have hspec := findIdx_zero_spec heq
    refine outerLoop_perm keyss _ _ _ (by rw [List.length_set]; exact hilen) ?_
    have hseed := seed_inv (acc.flatten ++ (innerLoop keyss modes island).2)
      (innerLoop keyss modes island).1 i
      (by
        intro x
        rw [List.append_nil]
        exact hinner x)
      hspec.2 hspec.1
    intro x
    rw [List.flatten_append, List.flatten_cons, List.flatten_nil, List.append_nil]
    exact hseed x
  next heq =>
    have hnone := List.findIdx?_eq_none_iff.1 heq
    rw [List.perm_iff_count]
    intro x
    rw [List.flatten_append, List.flatten_cons, List.flatten_nil, List.append_nil,
      hinner x, count_range]
    by_cases hx : x < keyss.length
    · rw [if_pos hx]
      have hxlt : x < (innerLoop keyss modes island).1.length := by rw [hilen]; exact hx
      have hmem := List.getElem_mem hxlt
      have hne := hnone _ hmem
      simp only [decide_eq_false_iff_not] at hne
      rw [if_pos (by rw [List.getD_eq_getElem _ _ hxlt]; exact hne)]
    · rw [if_neg hx]
      rw [if_neg (by
        rw [List.getD_eq_default _ _ (by omega)]
        omega)]
termination_by countZero modes
decreasing_by
  rename_i i heq
  exact lt_of_lt_of_le
    (countZero_set_one_lt (findIdx_zero_spec heq).2 (findIdx_zero_spec heq).1)
    (innerLoop_count_le keyss modes island)

lemma buildIslandsIdx_partition (keyss : List (List (ℕ × ℕ × ℕ))) (h : keyss ≠ []) :
    ((buildIslandsIdx keyss).flatten).Perm (List.range keyss.length) := by
  unfold buildIslandsIdx
  refine outerLoop_perm keyss _ _ []
    (by rw [List.length_set, List.length_replicate]) ?_
  intro x
  have hn : 0 < keyss.length := List.length_pos.2 h
  simp only [List.flatten_nil, List.nil_append]
  by_cases hx : x = 0
  · subst hx
    rw [getD_set_self (by rw [List.length_replicate]; exact hn)]
    simp
  · rw [getD_set_ne (Ne.symm hx)]
    have hrep : (List.replicate keyss.length (0 : ℕ)).getD x 0 = 0 := by
      rcases lt_or_le x keyss.length with hlt | hle
      · rw [List.getD_eq_getElem _ _ (by rw [List.length_replicate]; exact hlt)]
        simp
      · rw [List.getD_eq_default _ _ (by rw [List.length_replicate]; exact hle)]
    rw [hrep]
    have : List.count x [0] = 0 := List.count_eq_zero_of_not_mem (by simpa using hx)
    rw [this]
    simp

end IslandProofs

section IslandFaceProofs

/-- The identity of a face: source mesh and triangle offset. -/
def faceId (f : Face K) : ℕ × ℕ := (f.meshIndex, f.index)

lemma map_getD_range {α : Type} (l : List α) (d : α) :
    (List.range l.length).map (fun i => l.getD i d) = l := by
  induction l with
  | nil => rfl
  | cons a l ih =>
      rw [List.length_cons, List.range_succ_eq_map, List.map_cons, List.map_map]
      have hc : ((fun i => (a :: l).getD i d) ∘ Nat.succ) = fun i => l.getD i d := by
        funext i
        simp [Function.comp, List.getD_cons_succ]
      rw [hc, ih]
      rfl

lemma group_islands_perm (faces : List (Face K)) (h : faces ≠ []) :
    ((groupIslands faces).flatten).Perm faces := by
  unfold groupIslands
  rw [← List.map_flatten]
  have hlen : (faces.map (fun f => f.edgeKeys)).length = faces.length :=
    List.length_map ..
  have hperm := buildIslandsIdx_partition (faces.map (fun f => f.edgeKeys))
    (by simpa using h)
  rw [hlen] at hperm
  have hmap := hperm.map (fun i => faces.getD i default)
  rwa [map_getD_range] at hmap

lemma map_faceId_mapUv (t : Pt2 K → Pt2 K) (fs : List (Face K)) :
    (fs.map (mapUv t)).map faceId = fs.map faceId := by
  rw [List.map_map]
  rfl

lemma fitRotateStep_faceIds (sqrtK : K → K) (fs : List (Face K)) :
    (fitRotateStep sqrtK fs).map faceId = fs.map faceId := by
  unfold fitRotateStep
  split
  · rfl
  · split
    · rfl
    · exact map_faceId_mapUv _ fs

lemma orientStep_faceIds (fs : List (Face K)) :
    (orientStep fs).map faceId = fs.map faceId := by
  unfold orientStep
  split
  · exact map_faceId_mapUv _ fs
  · rfl

lemma optiRotate_faceIds (sqrtK : K → K) (fs : List (Face K)) :
    (optiRotateUvIsland sqrtK fs).map faceId = fs.map faceId := by
  unfold optiRotateUvIsland
  rw [orientStep_faceIds, fitRotateStep_faceIds]

lemma flatten_map_opti (sqrtK : K → K) (L : List (List (Face K))) :
    ((L.map (optiRotateUvIsland sqrtK)).flatten).map faceId =
      (L.flatten).map faceId := by
  induction L with
  | nil => rfl
  | cons isl L ih =>
      rw [List.map_cons, List.flatten_cons, List.flatten_cons, List.map_append,
        List.map_append, optiRotate_faceIds, ih]

lemma fold_islands_perm (d : List (Face K)) :
    ∀ (gs : List (List (Face K))) (acc : List (List (Face K))),
      (∀ g ∈ gs, g ++ d ≠ []) →
      ((gs.foldl (fun acc group => acc ++ groupIslands (group ++ d)) acc).flatten).Perm
        (acc.flatten ++ gs.flatMap (fun g => g ++ d)) := by
  intro gs
  induction gs with
  | nil =>
      intro acc _
      simp
  | cons g gs ih =>
      intro acc hne
      rw [List.foldl_cons]
      have h1 := ih (acc ++ groupIslands (g ++ d))
        (fun g' hg' => hne g' (List.mem_cons_of_mem _ hg'))
      refine h1.trans ?_
      rw [List.flatten_append, List.flatMap_cons]
      have h2 : ((groupIslands (g ++ d)).flatten).Perm (g ++ d) :=
        group_islands_perm (g ++ d) (hne g (List.mem_cons_self _ _))
      have h3 : (acc.flatten ++ (groupIslands (g ++ d)).flatten ++
            gs.flatMap (fun g => g ++ d)).Perm
          (acc.flatten ++ (g ++ d) ++ gs.flatMap (fun g => g ++ d)) :=
        (h2.append_left acc.flatten).append_right _
      refine h3.trans ?_
      rw [List.append_assoc]

lemma flatMap_reverse_perm {α β : Type} (gs : List α) (f : α → List β) :
    (gs.reverse.flatMap f).Perm (gs.flatMap f) := by
  induction gs with
  | nil => exact List.Perm.refl _
  | cons a gs ih =>
      rw [List.reverse_cons, List.flatMap_append, List.flatMap_cons, List.flatMap_cons,
        List.flatMap_nil, List.append_nil]
      exact (List.perm_append_comm).trans (ih.append_left (f a))

/-- Claim C1 (amended).  Within one call of `getUvIslands`, the islands
built from each projection group partition that group's face array
`group ++ deletedFaces` exactly once; hence, at the level of face
identities, the flattened island list is a permutation of the groups'
concatenation, in which every degenerate (deleted) face occurs once per
projection group — degenerate faces are carried inside islands, not kept
apart, and are duplicated when there are several groups. -/
theorem getUvIslands_partition (sqrtK : K → K) (faceGroups : List (List (Face K)))
    (deletedFaces : List (Face K))
    (h : ∀ g ∈ faceGroups, g ++ deletedFaces ≠ []) :
    (((getUvIslands sqrtK faceGroups deletedFaces).flatten).map faceId).Perm
      ((faceGroups.flatMap (fun g => g ++ deletedFaces)).map faceId) := by
  unfold getUvIslands
  rw [flatten_map_opti]
  have hperm := fold_islands_perm deletedFaces faceGroups.reverse []
    (fun g hg => h g (List.mem_reverse.1 hg))
  simp only [List.flatten_nil, List.nil_append] at hperm
  exact (hperm.map faceId).trans
    ((flatMap_reverse_perm faceGroups (fun g => g ++ deletedFaces)).map faceId)

end IslandFaceProofs

/-- A concrete non-degenerate face (mesh 0, triangle offset 0). -/
def fA : Face ℚ where
  meshIndex := 0
  index := 0
  v := [(⟨0, 0, 0⟩, 0), (⟨1, 0, 0⟩, 1), (⟨0, 1, 0⟩, 2)]
  uv := [⟨0, 0⟩, ⟨1, 0⟩, ⟨0, 1⟩]
  vAttrs := []
  no := ⟨0, 0, 1⟩
  area := 1 / 2
  edgeKeys := [(0, 0, 1), (0, 1, 2), (0, 0, 2)]

/-- A concrete non-degenerate face (mesh 0, triangle offset 3), sharing no
edge with `fA`. -/
def fB : Face ℚ where
  meshIndex := 0
  index := 3
  v := [(⟨0, 0, 5⟩, 3), (⟨2, 0, 5⟩, 4), (⟨0, 2, 5⟩, 5)]
  uv := [⟨0, 0⟩, ⟨2, 0⟩, ⟨0, 2⟩]
  vAttrs := []
  no := ⟨0, 0, 1⟩
  area := 2
  edgeKeys := [(0, 3, 4), (0, 4, 5), (0, 3, 5)]

/-- A concrete degenerate face (mesh 0, triangle offset 6): its three
vertices coincide, so after deduplication all its edge keys collapse to
`(0, 6, 6)`; its UVs were set to `(0, 0)` when it was deleted. -/
def fD : Face ℚ where
  meshIndex := 0
  index := 6
  v := [(⟨3, 3, 3⟩, 6), (⟨3, 3, 3⟩, 7), (⟨3, 3, 3⟩, 8)]
  uv := [⟨0, 0⟩, ⟨0, 0⟩, ⟨0, 0⟩]
  vAttrs := []
  no := ⟨0, 0, 0⟩
  area := 0
  edgeKeys := [(0, 6, 6), (0, 6, 6), (0, 6, 6)]

/-- Witness for `getUvIslands_partition`: a single group holding the one
face `fB` and no deleted faces. -/
theorem getUvIslands_partition_witness :
    (((getUvIslands (fun q : ℚ => q) [[fB]] []).flatten).map faceId).Perm
      (([[fB]].flatMap (fun g => g ++ [])).map faceId) :=
  getUvIslands_partition (fun q : ℚ => q) [[fB]] []
    (by
      intro g hg
      rw [List.mem_singleton] at hg
      subst hg
      simp)

lemma innerB1 : innerLoop [fB.edgeKeys, fD.edgeKeys] [1, 0] [0] = ([2, 0], [0]) := by
  unfold innerLoop
  rw [show passOnce [fB.edgeKeys, fD.edgeKeys] [1, 0] [0] = ([2, 0], [0], false) from by decide]
  rfl

lemma innerB2 : innerLoop [fB.edgeKeys, fD.edgeKeys] [2, 1] [1] = ([2, 2], [1]) := by
  unfold innerLoop
  rw [show passOnce [fB.edgeKeys, fD.edgeKeys] [2, 1] [1] = ([2, 2], [1], false) from by decide]
  rfl

lemma buildIslandsIdx_pairB_eval :
    buildIslandsIdx [fB.edgeKeys, fD.edgeKeys] = [[0], [1]] := by
  show outerLoop [fB.edgeKeys, fD.edgeKeys] [1, 0] [0] [] = [[0], [1]]
  have hf1 : ([2, 0] : List ℕ).findIdx? (fun x => decide (x = 0)) = some 1 := by decide
  have hf2 : ([2, 2] : List ℕ).findIdx? (fun x => decide (x = 0)) = none := by decide
  unfold outerLoop
  split
  · rename_i i heq
    rw [innerB1, hf1] at heq
    injection heq with h
    subst h
    rw [innerB1]
    show outerLoop [fB.edgeKeys, fD.edgeKeys] [2, 1] [1] [[0]] = [[0], [1]]
    unfold outerLoop
    split
    · rename_i j heq2
      rw [innerB2, hf2] at heq2
      exact Option.noConfusion heq2
    · rw [innerB2]
      rfl
  · rename_i heq
    rw [innerB1, hf1] at heq
    exact Option.noConfusion heq

lemma innerA1 : innerLoop [fA.edgeKeys, fD.edgeKeys] [1, 0] [0] = ([2, 0], [0]) := by
  unfold innerLoop
  rw [show passOnce [fA.edgeKeys, fD.edgeKeys] [1, 0] [0] = ([2, 0], [0], false) from by decide]
  rfl

lemma innerA2 : innerLoop [fA.edgeKeys, fD.edgeKeys] [2, 1] [1] = ([2, 2], [1]) := by
  unfold innerLoop
  rw [show passOnce [fA.edgeKeys, fD.edgeKeys] [2, 1] [1] = ([2, 2], [1], false) from by decide]
  rfl

lemma buildIslandsIdx_pairA_eval :
    buildIslandsIdx [fA.edgeKeys, fD.edgeKeys] = [[0], [1]] := by
  show outerLoop [fA.edgeKeys, fD.edgeKeys] [1, 0] [0] [] = [[0], [1]]
  have hf1 : ([2, 0] : List ℕ).findIdx? (fun x => decide (x = 0)) = some 1 := by decide
  have hf2 : ([2, 2] : List ℕ).findIdx? (fun x => decide (x = 0)) = none := by decide
  unfold outerLoop
  split
  · rename_i i heq
    rw [innerA1, hf1] at heq
    injection heq with h
    subst h
    rw [innerA1]
    show outerLoop [fA.edgeKeys, fD.edgeKeys] [2, 1] [1] [[0]] = [[0], [1]]
    unfold outerLoop
    split
    · rename_i j heq2
      rw [innerA2, hf2] at heq2
      exact Option.noConfusion heq2
    · rw [innerA2]
      rfl
  · rename_i heq
    rw [innerA1, hf1] at heq
    exact Option.noConfusion heq

lemma islandsB : groupIslands [fB, fD] = [[fB], [fD]] := by
  unfold groupIslands
  rw [show buildIslandsIdx (([fB, fD] : List (Face ℚ)).map (fun f => f.edgeKeys))
      = [[0], [1]] from buildIslandsIdx_pairB_eval]
  rfl

lemma islandsA : groupIslands [fA, fD] = [[fA], [fD]] := by
  unfold groupIslands
  rw [show buildIslandsIdx (([fA, fD] : List (Face ℚ)).map (fun f => f.edgeKeys))
      = [[0], [1]] from buildIslandsIdx_pairA_eval]
  rfl

lemma getUvIslands_ce_eval :
    getUvIslands (fun q : ℚ => q) [[fA], [fB]] [fD] =
      ([[fB], [fD], [fA], [fD]] : List (List (Face ℚ))).map
        (optiRotateUvIsland (fun q : ℚ => q)) := by
  unfold getUvIslands
  simp [islandsB, islandsA]

/-- Claim C1 as stated is false: deleted (degenerate) faces are appended to
EVERY processed group, so with two groups the same degenerate face lands in
two different islands and the flattened island list repeats its identity,
contradicting the claimed partition of the combined faces. -/
theorem getUvIslands_claim_counterexample :
    ¬ (((getUvIslands (fun q : ℚ => q) [[fA], [fB]] [fD]).flatten).map faceId).Nodup := by
  intro hnd
  rw [getUvIslands_ce_eval, flatten_map_opti] at hnd
  rw [show (([[fB], [fD], [fA], [fD]] : List (List (Face ℚ))).flatten).map faceId
      = [(0, 3), (0, 6), (0, 0), (0, 6)] from rfl] at hnd
  exact absurd hnd (by decide)

/-! ## Box packer (`BoxPacker.BoxPack2d`, source lines 1670–1761, and the
box construction of `UvMapper.packIslands`, source lines 1584–1626)

A JS `Box` is `{x, y, w, h, islandIdx}`; a free space is a box whose
height may be `Infinity`, modelled as `Option K` with `none` for the
unbounded height.  `USER_FILL_HOLES` and `USER_ISLAND_MARGIN` are the
constants `0`, so `mergeUvIslands` and the margin block are not executed. -/

structure BoxR (K : Type) where
  x : K
  y : K
  w : K
  h : K
  islandIdx : ℕ
deriving Repr, DecidableEq

structure Space (K : Type) where
  x : K
  y : K
  w : K
  h : Option K
deriving Repr, DecidableEq

/-- `box.w > space.w || box.h > space.h` (line 1699) skips the space; a
box fits when neither holds, with `box.h > Infinity` always false. -/
def boxFits (b : BoxR K) (s : Space K) : Bool :=
  if s.w < b.w then false
  else
    match s.h with
    | none => true
    | some sh => if sh < b.h then false else true

/-- `box.h === space.h` for an `Option`-valued space height: never true of
the unbounded space. -/
def hEq (b : K) : Option K → Bool
  | none => false
  | some sh => if b = sh then true else false

/-- `space.h -= box.h` (lines 1734/1750): `Infinity` minus a finite height
stays `Infinity`. -/
def hSub (s : Option K) (b : K) : Option K := s.map (· - b)

/-- The backwards space search of lines 1695–1699: the largest index whose
space accommodates the box. -/
def findSpaceIdx (b : BoxR K) (spaces : List (Space K)) : Option ℕ :=
  (List.range spaces.length).reverse.find?
    (fun i => match spaces[i]? with
      | some s => boxFits b s
      | none => false)

/-- Lines 1715–1716: `spaces.pop()` removes the last space, then if the
found index is still in range the popped space overwrites it. -/
def popSwap (spaces : List (Space K)) (i : ℕ) : List (Space K) :=
  if i < spaces.length - 1 then
    match spaces.getLast? with
    | some last => spaces.dropLast.set i last
    | none => spaces.dropLast
  else spaces.dropLast

/-- Lines 1707–1708: the box moved to the space's top-left corner. -/
def placedAt (s : Space K) (b : BoxR K) : BoxR K := { b with x := s.x, y := s.y }

/-- Lines 1723–1724: the space shrunk to the right of the box (the
height-match case keeps the space's height, which equals the box's). -/
def updRight (s : Space K) (b : BoxR K) : Space K :=
  { s with x := s.x + b.w, w := s.w - b.w }

/-- Lines 1733–1734 and 1749–1750: the space shrunk below the box. -/
def updDown (s : Space K) (b : BoxR K) : Space K :=
  { s with y := s.y + b.h, h := hSub s.h b.h }

/-- Lines 1743–1748: the new space pushed to the right of the box in the
general split case. -/
def newRight (s : Space K) (b : BoxR K) : Space K :=
  ⟨s.x + b.w, s.y, s.w - b.w, some b.h⟩

/-- One iteration of the `for (const box of boxes)` loop (lines
1693–1754) on the state `(spaces, placed boxes, width, height)`: find a
space, place the box at its top-left corner, and split the space by the
exact-fit / height-match / width-match / general cases; a box with no
fitting space is left where it was. -/
def packStep (st : List (Space K) × List (BoxR K) × K × K) (b : BoxR K) :
    List (Space K) × List (BoxR K) × K × K :=
  match findSpaceIdx b st.1 with
  | none => (st.1, st.2.1 ++ [b], st.2.2.1, st.2.2.2)
  | some i =>
      match st.1[i]? with
      | none => (st.1, st.2.1 ++ [b], st.2.2.1, st.2.2.2)
      | some s =>
          let spaces' :=
            if b.w = s.w ∧ hEq b.h s.h then popSwap st.1 i
            else if hEq b.h s.h then st.1.set i (updRight s b)
            else if b.w = s.w then st.1.set i (updDown s b)
            else st.1.set i (updDown s b) ++ [newRight s b]
          (spaces', st.2.1 ++ [placedAt s b],
            max st.2.2.1 ((placedAt s b).x + (placedAt s b).w),
            max st.2.2.2 ((placedAt s b).y + (placedAt s b).h))

/-- Total box area (line 1676). -/
def packArea (boxes : List (BoxR K)) : K :=
  boxes.foldl (fun a b => a + b.w * b.h) 0

/-- Maximum box width (line 1677), seeded with 0. -/
def packMaxWidth (boxes : List (BoxR K)) : K :=
  boxes.foldl (fun m b => max m b.w) 0

/-- `boxes.sort((a, b) => b.h - a.h)` (line 1681): stable sort by height,
descending. -/
def sortBoxes (boxes : List (BoxR K)) : List (BoxR K) :=
  boxes.insertionSort (fun a b => b.h ≤ a.h)

/-- `Math.max(Math.ceil(Math.sqrt(area / 0.95)), maxWidth)` (line 1685). -/
def startWidthOf (sqrtK : K → K) (boxes : List (BoxR K)) : K :=
  max ((⌈sqrtK (packArea boxes / (95 / 100))⌉ : ℤ) : K) (packMaxWidth boxes)

/-- `BoxPacker.BoxPack2d` (lines 1670–1761): the mutated box array (with
assigned positions, in sorted order) together with the container width and
height.  The returned `fill` ratio reads only `area`, `width` and `height`
and is not consumed by `packIslands`. -/
def BoxPack2d (sqrtK : K → K) (boxes : List (BoxR K)) :
    List (BoxR K) × K × K :=
  let st := (sortBoxes boxes).foldl packStep
    ([⟨0, 0, startWidthOf sqrtK boxes, none⟩], [], 0, 0)
  (st.2.1, st.2.2.1, st.2.2.2)

/-- The box `packIslands` builds for one island (lines 1593–1624, with
`USER_ISLAND_MARGIN = 0`): origin position, the island bounds' dimensions
clamped from below by `SMALL_NUM`. -/
def islandBox (idx : ℕ) (isl : List (Face K)) : BoxR K :=
  { x := 0, y := 0,
    w := if boundsW (boundsIslands isl) < SMALL_NUM then SMALL_NUM
         else boundsW (boundsIslands isl),
    h := if boundsH (boundsIslands isl) < SMALL_NUM then SMALL_NUM
         else boundsH (boundsIslands isl),
    islandIdx := idx }

/-- The `packBoxes` array of `packIslands` (lines 1589–1626). -/
def packBoxes (islandList : List (List (Face K))) : List (BoxR K) :=
  (List.range islandList.length).map (fun i => islandBox i (islandList.getD i []))

/-- Membership of a point in a placed box's half-open extent. -/
def inBoxPt (b : BoxR K) (p : K × K) : Prop :=
  b.x ≤ p.1 ∧ p.1 < b.x + b.w ∧ b.y ≤ p.2 ∧ p.2 < b.y + b.h

/-- Membership of a point in a free space's half-open extent; an unbounded
space has no lower edge. -/
def inSpacePt (s : Space K) (p : K × K) : Prop :=
  s.x ≤ p.1 ∧ p.1 < s.x + s.w ∧ s.y ≤ p.2 ∧
    (match s.h with
     | none => True
     | some sh => p.2 < s.y + sh)

/-- A box list is overlap-free when boxes at two distinct positions never
contain a common point. -/
def NoOverlap (l : List (BoxR K)) : Prop :=
  ∀ i j (hi : i < l.length) (hj : j < l.length), i ≠ j →
    ∀ p : K × K, ¬(inBoxPt (l.get ⟨i, hi⟩) p ∧ inBoxPt (l.get ⟨j, hj⟩) p)

section PackerProofs

lemma packStep_eq_of_found (st : List (Space K) × List (BoxR K) × K × K)
    (b : BoxR K) (i : ℕ) (hilt : i < st.1.length) (s : Space K)
    (hs : st.1.get ⟨i, hilt⟩ = s) (hfind : findSpaceIdx b st.1 = some i) :
    packStep st b =
      ((if b.w = s.w ∧ hEq b.h s.h then popSwap st.1 i
        else if hEq b.h s.h then st.1.set i (updRight s b)
        else if b.w = s.w then st.1.set i (updDown s b)
        else st.1.set i (updDown s b) ++ [newRight s b]),
       st.2.1 ++ [placedAt s b],
       max st.2.2.1 ((placedAt s b).x + (placedAt s b).w),
       max st.2.2.2 ((placedAt s b).y + (placedAt s b).h)) := by
  subst hs
  unfold packStep
  split
  · rename_i heq
    rw [hfind] at heq
    exact Option.noConfusion heq
  · rename_i i' heq
    rw [hfind] at heq
    injection heq with hii
    subst hii
    split
    · rename_i heq2
      rw [List.getElem?_eq_getElem hilt] at heq2
      exact Option.noConfusion heq2
    · rename_i s' heq2
      rw [List.getElem?_eq_getElem hilt] at heq2
      injection heq2 with hss
      subst hss
      rfl

lemma findSpaceIdx_spec {b : BoxR K} {spaces : List (Space K)} {i : ℕ}
    (h : findSpaceIdx b spaces = some i) :
    ∃ hi : i < spaces.length, boxFits b (spaces.get ⟨i, hi⟩) = true := by
  unfold findSpaceIdx at h
  have h1 := List.find?_some h
  have h2 := List.mem_of_find?_eq_some h
  rw [List.mem_reverse, List.mem_range] at h2
  refine ⟨h2, ?_⟩
  rw [List.getElem?_eq_getElem h2] at h1
  simpa using h1

lemma findSpaceIdx_none {b : BoxR K} {spaces : List (Space K)}
    (h : findSpaceIdx b spaces = none) :
    ∀ i (hi : i < spaces.length), boxFits b (spaces.get ⟨i, hi⟩) = false := by
  intro i hi
  unfold findSpaceIdx at h
  rw [List.find?_eq_none] at h
  have := h i (by rw [List.mem_reverse, List.mem_range]; exact hi)
  rw [List.getElem?_eq_getElem hi] at this
  simpa using this

lemma boxFits_w {b : BoxR K} {s : Space K} (h : boxFits b s = true) :
    b.w ≤ s.w := by
  unfold boxFits at h
  by_cases hlt : s.w < b.w
  · rw [if_pos hlt] at h
    exact absurd h (by simp)
  · exact le_of_not_lt hlt

lemma boxFits_h {b : BoxR K} {s : Space K} {sh : K} (h : boxFits b s = true)
    (hsh : s.h = some sh) : b.h ≤ sh := by
  simp only [boxFits, hsh] at h
  by_cases hlt : s.w < b.w
  · rw [if_pos hlt] at h
    exact absurd h (by simp)
  · rw [if_neg hlt] at h
    by_cases hlt2 : sh < b.h
    · rw [if_pos hlt2] at h
      exact absurd h (by simp)
    · exact le_of_not_lt hlt2

lemma boxFits_inf {b : BoxR K} {s : Space K} (hh : s.h = none)
    (hw : b.w ≤ s.w) : boxFits b s = true := by
  unfold boxFits
  rw [hh, if_neg (not_lt.2 hw)]

lemma hEq_true {b : K} {s : Option K} (h : hEq b s = true) : s = some b := by
  cases s with
  | none => exact absurd h (by simp [hEq])
  | some sh =>
      simp only [hEq] at h
      by_cases he : b = sh
      · rw [he]
      · rw [if_neg he] at h
        exact absurd h (by simp)

lemma placed_sub_space {b : BoxR K} {s : Space K} (hfit : boxFits b s = true)
    {p : K × K} (hp : inBoxPt (placedAt s b) p) : inSpacePt s p := by
  obtain ⟨bx, by₀, bw, bh, bi⟩ := b
  obtain ⟨sx, sy, sw, sh⟩ := s
  obtain ⟨hx1, hx2, hy1, hy2⟩ := hp
  have hw := boxFits_w hfit
  simp only [placedAt] at hx1 hx2 hy1 hy2
  refine ⟨hx1, by simp only; linarith, hy1, ?_⟩
  cases sh with
  | none => trivial
  | some shv =>
      have hhle := boxFits_h hfit rfl
      show p.2 < sy + shv
      simp only at hy2 hhle
      linarith

lemma updRight_sub_space {b : BoxR K} {s : Space K} (hw : 0 ≤ b.w)
    {p : K × K} (hp : inSpacePt (updRight s b) p) : inSpacePt s p := by
  obtain ⟨sx, sy, sw, sh⟩ := s
  obtain ⟨hx1, hx2, hy1, hy2⟩ := hp
  simp only [updRight] at hx1 hx2 hy1 hy2
  exact ⟨by linarith, by linarith, hy1, hy2⟩

lemma updRight_box_disj {b : BoxR K} {s : Space K} {p : K × K}
    (hp : inSpacePt (updRight s b) p) (hb : inBoxPt (placedAt s b) p) : False := by
  obtain ⟨bx, by₀, bw, bh, bi⟩ := b
  obtain ⟨sx, sy, sw, sh⟩ := s
  obtain ⟨hx1, _, _, _⟩ := hp
  obtain ⟨_, hx2, _, _⟩ := hb
  simp only [updRight] at hx1
  simp only [placedAt] at hx2
  linarith

lemma newRight_sub_space {b : BoxR K} {s : Space K} (hw : 0 ≤ b.w)
    (hfit : boxFits b s = true) {p : K × K}
    (hp : inSpacePt (newRight s b) p) : inSpacePt s p := by
  obtain ⟨bx, by₀, bw, bh, bi⟩ := b
  obtain ⟨sx, sy, sw, sh⟩ := s
  obtain ⟨hx1, hx2, hy1, hy2⟩ := hp
  simp only [newRight] at hx1 hx2 hy1 hy2
  simp only at hw
  refine ⟨by linarith, by linarith, hy1, ?_⟩
  cases sh with
  | none => trivial
  | some shv =>
      have hhle := boxFits_h hfit rfl
      show p.2 < sy + shv
      simp only at hy2 hhle
      linarith

lemma newRight_box_disj {b : BoxR K} {s : Space K} {p : K × K}
    (hp : inSpacePt (newRight s b) p) (hb : inBoxPt (placedAt s b) p) : False := by
  obtain ⟨bx, by₀, bw, bh, bi⟩ := b
  obtain ⟨sx, sy, sw, sh⟩ := s
  obtain ⟨hx1, _, _, _⟩ := hp
  obtain ⟨_, hx2, _, _⟩ := hb
  simp only [newRight] at hx1
  simp only [placedAt] at hx2
  linarith

lemma updDown_sub_space {b : BoxR K} {s : Space K} (hh : 0 ≤ b.h)
    {p : K × K} (hp : inSpacePt (updDown s b) p) : inSpacePt s p := by
  obtain ⟨sx, sy, sw, sh⟩ := s
  obtain ⟨hx1, hx2, hy1, hy2⟩ := hp
  simp only [updDown] at hx1 hx2 hy1 hy2
  refine ⟨hx1, hx2, by linarith, ?_⟩
  cases sh with
  | none => trivial
  | some shv =>
      show p.2 < sy + shv
      have hy2' : p.2 < sy + b.h + (shv - b.h) := hy2
      linarith

lemma updDown_box_disj {b : BoxR K} {s : Space K} {p : K × K}
    (hp : inSpacePt (updDown s b) p) (hb : inBoxPt (placedAt s b) p) : False := by
  obtain ⟨bx, by₀, bw, bh, bi⟩ := b
  obtain ⟨sx, sy, sw, sh⟩ := s
  obtain ⟨_, _, hy1, _⟩ := hp
  obtain ⟨_, _, _, hy2⟩ := hb
  simp only [updDown] at hy1
  simp only [placedAt] at hy2
  linarith

lemma newRight_updDown_disj {b : BoxR K} {s : Space K} {p : K × K}
    (hp : inSpacePt (newRight s b) p) (hq : inSpacePt (updDown s b) p) : False := by
  obtain ⟨bx, by₀, bw, bh, bi⟩ := b
  obtain ⟨sx, sy, sw, sh⟩ := s
  obtain ⟨_, _, _, hy2⟩ := hp
  obtain ⟨_, _, hy1, _⟩ := hq
  have hy2' : p.2 < sy + bh := hy2
  have hy1' : sy + bh ≤ p.2 := hy1
  linarith

/-- Two spaces are disjoint when no point lies in both. -/
def SpDisj (s t : Space K) : Prop :=
  ∀ p : K × K, inSpacePt s p → inSpacePt t p → False

/-- A space and a placed box are disjoint. -/
def SBDisj (s : Space K) (c : BoxR K) : Prop :=
  ∀ p : K × K, inSpacePt s p → inBoxPt c p → False

/-- Two placed boxes are disjoint. -/
def BDisj (a c : BoxR K) : Prop :=
  ∀ p : K × K, inBoxPt a p → inBoxPt c p → False

/-- Loop invariant of the packing loop: free spaces are pairwise
disjoint, disjoint from every placed box, placed boxes are pairwise
disjoint, every unbounded space has the start width, and an unbounded
space exists. -/
structure PackInv (startW : K) (spaces : List (Space K))
    (placed : List (BoxR K)) : Prop where
  ss : spaces.Pairwise SpDisj
  sb : ∀ s ∈ spaces, ∀ c ∈ placed, SBDisj s c
  bb : placed.Pairwise BDisj
  infAll : ∀ s ∈ spaces, s.h = none → s.w = startW
  infEx : ∃ s ∈ spaces, s.h = none

lemma spDisj_symm {s t : Space K} (h : SpDisj s t) : SpDisj t s :=
  fun p hp hq => h p hq hp

lemma PackInv.perm {startW : K} {sp sp' : List (Space K)} {pl : List (BoxR K)}
    (hp : sp.Perm sp') (inv : PackInv startW sp pl) : PackInv startW sp' pl where
  ss := (List.Perm.pairwise_iff (fun h => spDisj_symm h) hp).1 inv.ss
  sb := fun s hs c hc => inv.sb s (hp.mem_iff.2 hs) c hc
  bb := inv.bb
  infAll := fun s hs => inv.infAll s (hp.mem_iff.2 hs)
  infEx := by
    obtain ⟨s, hs, hn⟩ := inv.infEx
    exact ⟨s, hp.mem_iff.1 hs, hn⟩

lemma perm_get_eraseIdx {α : Type} (l : List α) (i : ℕ) (hi : i < l.length) :
    l.Perm (l.get ⟨i, hi⟩ :: l.eraseIdx i) := by
  conv_lhs => rw [← List.take_append_drop i l, ← List.getElem_cons_drop l i hi]
  rw [List.eraseIdx_eq_take_drop_succ]
  exact List.perm_middle

lemma perm_set_eraseIdx {α : Type} (l : List α) (i : ℕ) (hi : i < l.length) (a : α) :
    (l.set i a).Perm (a :: l.eraseIdx i) := by
  rw [List.set_eq_take_cons_drop a hi, List.eraseIdx_eq_take_drop_succ]
  exact List.perm_middle

lemma popSwap_perm (l : List (Space K)) (i : ℕ) (hi : i < l.length) :
    (popSwap l i).Perm (l.eraseIdx i) := by
  have hne : l ≠ [] := by
    intro h
    rw [h] at hi
    exact absurd hi (by simp)
  unfold popSwap
  by_cases hlt : i < l.length - 1
  · rw [if_pos hlt, List.getLast?_eq_getLast l hne]
    show (l.dropLast.set i (l.getLast hne)).Perm (l.eraseIdx i)
    have hi' : i < l.dropLast.length := by
      rw [List.length_dropLast]
      exact hlt
    have h1 := perm_set_eraseIdx l.dropLast i hi' (l.getLast hne)
    have h2 : l.eraseIdx i = l.dropLast.eraseIdx i ++ [l.getLast hne] := by
      conv_lhs => rw [← List.dropLast_append_getLast hne]
      exact List.eraseIdx_append_of_lt_length hi' _
    rw [h2]
    exact h1.trans (List.perm_append_singleton _ _).symm
  · rw [if_neg hlt]
    have : i + 1 = l.length := by
      have := List.length_pos.2 hne
      omega
    rw [List.dropLast_eq_eraseIdx this]

lemma PackInv.update {startW : K} {s : Space K} {E : List (Space K)}
    {placed : List (BoxR K)} {b : BoxR K}
    (inv : PackInv startW (s :: E) placed) (hfit : boxFits b s = true)
    (news : List (Space K))
    (hsub : ∀ t ∈ news, ∀ p : K × K, inSpacePt t p → inSpacePt s p)
    (hbdis : ∀ t ∈ news, ∀ p : K × K, inSpacePt t p → inBoxPt (placedAt s b) p → False)
    (hnn : news.Pairwise SpDisj)
    (hinf : (∃ t ∈ news, t.h = none) ∨ s.h ≠ none)
    (hinfall : ∀ t ∈ news, t.h = none → s.h = none ∧ t.w = s.w) :
    PackInv startW (news ++ E) (placed ++ [placedAt s b]) := by
  have hsmem : s ∈ s :: E := List.mem_cons_self s E
  obtain ⟨hsE, hEE⟩ := List.pairwise_cons.1 inv.ss
  refine ⟨?_, ?_, ?_, ?_, ?_⟩
  · rw [List.pairwise_append]
    refine ⟨hnn, hEE, ?_⟩
    intro t ht u hu p hpt hpu
    exact hsE u hu p (hsub t ht p hpt) hpu
  · intro t ht c hc
    rcases List.mem_append.1 ht with htn | htE
    · rcases List.mem_append.1 hc with hcp | hcb
      · exact fun p hpt hpc => inv.sb s hsmem c hcp p (hsub t htn p hpt) hpc
      · rw [List.mem_singleton] at hcb
        subst hcb
        exact fun p hpt hpc => hbdis t htn p hpt hpc
    · rcases List.mem_append.1 hc with hcp | hcb
      · exact inv.sb t (List.mem_cons_of_mem s htE) c hcp
      · rw [List.mem_singleton] at hcb
        subst hcb
        intro p hpt hpc
        exact hsE t htE p (placed_sub_space hfit hpc) hpt
  · rw [List.pairwise_append]
    refine ⟨inv.bb, List.pairwise_singleton _ _, ?_⟩
    intro a ha c hc p hpa hpc
    rw [List.mem_singleton] at hc
    subst hc
    exact inv.sb s hsmem a ha p (placed_sub_space hfit hpc) hpa
  · intro t ht hth
    rcases List.mem_append.1 ht with htn | htE
    · obtain ⟨hsh, htw⟩ := hinfall t htn hth
      rw [htw]
      exact inv.infAll s hsmem hsh
    · exact inv.infAll t (List.mem_cons_of_mem s htE) hth
  · rcases hinf with ⟨t, htn, hth⟩ | hne
    · exact ⟨t, List.mem_append.2 (Or.inl htn), hth⟩
    · obtain ⟨u, hu, huh⟩ := inv.infEx
      rcases List.mem_cons.1 hu with rfl | huE
      · exact absurd huh hne
      · exact ⟨u, List.mem_append.2 (Or.inr huE), huh⟩

lemma packStep_inv {startW : K} {st : List (Space K) × List (BoxR K) × K × K}
    {b : BoxR K} (hw : 0 ≤ b.w) (hh : 0 ≤ b.h) (hwle : b.w ≤ startW)
    (inv : PackInv startW st.1 st.2.1) :
    PackInv startW (packStep st b).1 (packStep st b).2.1 := by
  obtain ⟨s₀, hs₀m, hs₀h⟩ := inv.infEx
  have hs₀w : s₀.w = startW := inv.infAll s₀ hs₀m hs₀h
  have hs₀fit : boxFits b s₀ = true := boxFits_inf hs₀h (by rw [hs₀w]; exact hwle)
  obtain ⟨i, hfi⟩ : ∃ i, findSpaceIdx b st.1 = some i := by
    cases hx : findSpaceIdx b st.1 with
    | none =>
        obtain ⟨j, hj, hgj⟩ := List.mem_iff_getElem.1 hs₀m
        have hfalse := findSpaceIdx_none hx j hj
        rw [show st.1.get ⟨j, hj⟩ = s₀ from hgj, hs₀fit] at hfalse
        exact Bool.noConfusion hfalse
    | some i => exact ⟨i, rfl⟩
  obtain ⟨hilt, hfit⟩ := findSpaceIdx_spec hfi
  have invC : PackInv startW (st.1.get ⟨i, hilt⟩ :: st.1.eraseIdx i) st.2.1 :=
    PackInv.perm (perm_get_eraseIdx st.1 i hilt) inv
  rw [packStep_eq_of_found st b i hilt _ rfl hfi]
  dsimp only
  split
  · rename_i hc1
    obtain ⟨hcw, hch⟩ := hc1
    have hupd := invC.update hfit [] (by simp) (by simp) (by simp)
      (Or.inr (by rw [hEq_true hch]; simp)) (by simp)
    exact PackInv.perm (popSwap_perm st.1 i hilt).symm hupd
  · rename_i hc1
    split
    · rename_i hc2
      refine PackInv.perm (perm_set_eraseIdx st.1 i hilt _).symm
        (invC.update hfit [updRight (st.1.get ⟨i, hilt⟩) b] ?_ ?_ ?_ ?_ ?_)
      · intro t ht p hpt
        rw [List.mem_singleton] at ht
        subst ht
        exact updRight_sub_space hw hpt
      · intro t ht p hpt hpb
        rw [List.mem_singleton] at ht
        subst ht
        exact updRight_box_disj hpt hpb
      · exact List.pairwise_singleton _ _
      · exact Or.inr (by rw [hEq_true hc2]; simp)
      · intro t ht hth
        rw [List.mem_singleton] at ht
        subst ht
        have hth' : (st.1.get ⟨i, hilt⟩).h = none := hth
        rw [hEq_true hc2] at hth'
        exact Option.noConfusion hth'
    · rename_i hc2
      split
      · rename_i hc3
        refine PackInv.perm (perm_set_eraseIdx st.1 i hilt _).symm
          (invC.update hfit [updDown (st.1.get ⟨i, hilt⟩) b] ?_ ?_ ?_ ?_ ?_)
        · intro t ht p hpt
          rw [List.mem_singleton] at ht
          subst ht
          exact updDown_sub_space hh hpt
        · intro t ht p hpt hpb
          rw [List.mem_singleton] at ht
          subst ht
          exact updDown_box_disj hpt hpb
        · exact List.pairwise_singleton _ _
        · by_cases hsn : (st.1.get ⟨i, hilt⟩).h = none
          · refine Or.inl ⟨updDown (st.1.get ⟨i, hilt⟩) b, List.mem_singleton_self _, ?_⟩
            show hSub (st.1.get ⟨i, hilt⟩).h b.h = none
            rw [hsn]
            rfl
          · exact Or.inr hsn
        · intro t ht hth
          rw [List.mem_singleton] at ht
          subst ht
          have hth' : hSub (st.1.get ⟨i, hilt⟩).h b.h = none := hth
          cases hsh : (st.1.get ⟨i, hilt⟩).h with
          | none => exact ⟨rfl, rfl⟩
          | some shv =>
              rw [hsh] at hth'
              exact Option.noConfusion hth'
      · rename_i hc3
        have hperm4 : (st.1.set i (updDown (st.1.get ⟨i, hilt⟩) b) ++
            [newRight (st.1.get ⟨i, hilt⟩) b]).Perm
            ([updDown (st.1.get ⟨i, hilt⟩) b, newRight (st.1.get ⟨i, hilt⟩) b] ++
              st.1.eraseIdx i) := by
          have h1 := (perm_set_eraseIdx st.1 i hilt
            (updDown (st.1.get ⟨i, hilt⟩) b)).append_right
              [newRight (st.1.get ⟨i, hilt⟩) b]
          refine h1.trans ?_
          show (updDown (st.1.get ⟨i, hilt⟩) b ::
            (st.1.eraseIdx i ++ [newRight (st.1.get ⟨i, hilt⟩) b])).Perm _
          exact (List.perm_append_singleton _ _).cons _
        refine PackInv.perm hperm4.symm
          (invC.update hfit
            [updDown (st.1.get ⟨i, hilt⟩) b, newRight (st.1.get ⟨i, hilt⟩) b]
            ?_ ?_ ?_ ?_ ?_)
        · intro t ht p hpt
          rcases List.mem_cons.1 ht with rfl | ht2
          · exact updDown_sub_space hh hpt
          · rw [List.mem_singleton] at ht2
            subst ht2
            exact newRight_sub_space hw hfit hpt
        · intro t ht p hpt hpb
          rcases List.mem_cons.1 ht with rfl | ht2
          · exact updDown_box_disj hpt hpb
          · rw [List.mem_singleton] at ht2
            subst ht2
            exact newRight_box_disj hpt hpb
        · refine List.pairwise_cons.2 ⟨?_, List.pairwise_singleton _ _⟩
          intro t ht
          rw [List.mem_singleton] at ht
          subst ht
          exact fun p hpu hpn => newRight_updDown_disj hpn hpu
        · by_cases hsn : (st.1.get ⟨i, hilt⟩).h = none
          · refine Or.inl ⟨updDown (st.1.get ⟨i, hilt⟩) b, List.mem_cons_self _ _, ?_⟩
            show hSub (st.1.get ⟨i, hilt⟩).h b.h = none
            rw [hsn]
            rfl
          · exact Or.inr hsn
        · intro t ht hth
          rcases List.mem_cons.1 ht with rfl | ht2
          · have hth' : hSub (st.1.get ⟨i, hilt⟩).h b.h = none := hth
            cases hsh : (st.1.get ⟨i, hilt⟩).h with
            | none => exact ⟨rfl, rfl⟩
            | some shv =>
                rw [hsh] at hth'
                exact Option.noConfusion hth'
          · rw [List.mem_singleton] at ht2
            subst ht2
            have hth' : (some b.h : Option K) = none := hth
            exact Option.noConfusion hth'

lemma packFold_inv {startW : K} (bs : List (BoxR K)) :
    ∀ (st : List (Space K) × List (BoxR K) × K × K),
      (∀ b ∈ bs, 0 ≤ b.w ∧ 0 ≤ b.h ∧ b.w ≤ startW) →
      PackInv startW st.1 st.2.1 →
      PackInv startW (bs.foldl packStep st).1 (bs.foldl packStep st).2.1 := by
  induction bs with
  | nil => exact fun st _ inv => inv
  | cons b bs ih =>
      intro st hb inv
      rw [List.foldl_cons]
      exact ih _ (fun c hc => hb c (List.mem_cons_of_mem _ hc))
        (packStep_inv (hb b (List.mem_cons_self _ _)).1
          (hb b (List.mem_cons_self _ _)).2.1
          (hb b (List.mem_cons_self _ _)).2.2 inv)

lemma packInit_inv (startW : K) :
    PackInv startW [⟨0, 0, startW, none⟩] ([] : List (BoxR K)) where
  ss := List.pairwise_singleton _ _
  sb := fun _ _ c hc => absurd hc (List.not_mem_nil c)
  bb := List.Pairwise.nil
  infAll := by
    intro s hs _
    rw [List.mem_singleton] at hs
    subst hs
    rfl
  infEx := ⟨_, List.mem_singleton_self _, rfl⟩

lemma le_foldl_maxW (l : List (BoxR K)) :
    ∀ m : K, m ≤ l.foldl (fun a c => max a c.w) m := by
  induction l with
  | nil => exact fun m => le_refl m
  | cons c l ih =>
      intro m
      rw [List.foldl_cons]
      exact le_trans (le_max_left m c.w) (ih _)

lemma mem_le_foldl_maxW (l : List (BoxR K)) :
    ∀ (m : K) (b : BoxR K), b ∈ l → b.w ≤ l.foldl (fun a c => max a c.w) m := by
  induction l with
  | nil => exact fun m b hb => absurd hb (List.not_mem_nil b)
  | cons c l ih =>
      intro m b hb
      rw [List.foldl_cons]
      rcases List.mem_cons.1 hb with rfl | hb2
      · exact le_trans (le_max_right m b.w) (le_foldl_maxW l _)
      · exact ih _ b hb2

lemma w_le_startWidthOf (sqrtK : K → K) (boxes : List (BoxR K)) (b : BoxR K)
    (hb : b ∈ boxes) : b.w ≤ startWidthOf sqrtK boxes :=
  le_trans (mem_le_foldl_maxW boxes 0 b hb)
    (le_max_right _ (packMaxWidth boxes))

lemma BoxPack2d_no_overlap_aux (sqrtK : K → K) (boxes : List (BoxR K))
    (hb : ∀ b ∈ boxes, 0 ≤ b.w ∧ 0 ≤ b.h) :
    NoOverlap (BoxPack2d sqrtK boxes).1 := by
  have hb' : ∀ b ∈ sortBoxes boxes,
      0 ≤ b.w ∧ 0 ≤ b.h ∧ b.w ≤ startWidthOf sqrtK boxes := by
    intro b hbm
    have hbm' : b ∈ boxes := (List.perm_insertionSort _ boxes).mem_iff.1 hbm
    exact ⟨(hb b hbm').1, (hb b hbm').2, w_le_startWidthOf sqrtK boxes b hbm'⟩
  have hfold := @packFold_inv K _ _ (startWidthOf sqrtK boxes) (sortBoxes boxes)
    ([⟨0, 0, startWidthOf sqrtK boxes, none⟩], [], 0, 0) hb' (packInit_inv _)
  intro i j hi hj hij p hp
  obtain ⟨hpi, hpj⟩ := hp
  have hpw := List.pairwise_iff_getElem.1 hfold.bb
  rcases Nat.lt_or_ge i j with hlt | hge
  · exact hpw i j hi hj hlt p hpi hpj
  · have hlt : j < i := lt_of_le_of_ne hge (fun h => hij h.symm)
    exact hpw j i hj hi hlt p hpj hpi

lemma islandBox_dims (idx : ℕ) (isl : List (Face K)) :
    0 ≤ (islandBox idx isl).w ∧ 0 ≤ (islandBox idx isl).h := by
  have hs : (0 : K) ≤ SMALL_NUM := by
    unfold SMALL_NUM
    positivity
  constructor
  · show (0 : K) ≤ if boundsW (boundsIslands isl) < SMALL_NUM then SMALL_NUM
      else boundsW (boundsIslands isl)
    split
    · exact hs
    · rename_i hnlt
      exact le_trans hs (le_of_not_lt hnlt)
  · show (0 : K) ≤ if boundsH (boundsIslands isl) < SMALL_NUM then SMALL_NUM
      else boundsH (boundsIslands isl)
    split
    · exact hs
    · rename_i hnlt
      exact le_trans hs (le_of_not_lt hnlt)

/-- Claim C3.  The packer never overlaps two placed boxes: for every box
list with nonnegative dimensions, the boxes returned by `BoxPack2d` are
pairwise disjoint (every box finds a space because an unbounded space of
the start width always remains, and each box is carved out of a free
space disjoint from everything already placed); consequently the
post-margin island boxes built by `packIslands` — whose dimensions are
clamped from below by `SMALL_NUM` — are packed without overlap for every
island list. -/
theorem BoxPack2d_no_overlap (sqrtK : K → K) :
    (∀ boxes : List (BoxR K), (∀ b ∈ boxes, 0 ≤ b.w ∧ 0 ≤ b.h) →
        NoOverlap (BoxPack2d sqrtK boxes).1) ∧
    (∀ islandList : List (List (Face K)),
        NoOverlap (BoxPack2d sqrtK (packBoxes islandList)).1) := by
  refine ⟨fun boxes hb => BoxPack2d_no_overlap_aux sqrtK boxes hb, ?_⟩
  intro islandList
  refine BoxPack2d_no_overlap_aux sqrtK (packBoxes islandList) ?_
  intro b hbm
  obtain ⟨i, hi, hbi⟩ := List.mem_map.1 hbm
  rw [← hbi]
  exact islandBox_dims i _

/-- Witness for `BoxPack2d_no_overlap`: two concrete boxes with
nonnegative dimensions. -/
theorem BoxPack2d_no_overlap_witness :
    (∀ b ∈ ([⟨0, 0, 2, 1, 0⟩, ⟨0, 0, 1, 1, 1⟩] : List (BoxR ℚ)),
        0 ≤ b.w ∧ 0 ≤ b.h) ∧
      NoOverlap (BoxPack2d (fun q : ℚ => q)
        [⟨0, 0, 2, 1, 0⟩, ⟨0, 0, 1, 1, 1⟩]).1 := by
  have hb : ∀ b ∈ ([⟨0, 0, 2, 1, 0⟩, ⟨0, 0, 1, 1, 1⟩] : List (BoxR ℚ)),
      0 ≤ b.w ∧ 0 ≤ b.h := by
    intro b hbm
    rcases List.mem_cons.1 hbm with rfl | h2
    · exact ⟨by norm_num, by norm_num⟩
    · rw [List.mem_singleton] at h2
      subst h2
      exact ⟨by norm_num, by norm_num⟩
  exact ⟨hb, (BoxPack2d_no_overlap (fun q : ℚ => q)).1 _ hb⟩

end PackerProofs

/-! ## Island placement (`UvMapper.packIslands`, source lines 1628–1656)
and the UV write-back with seam resolution (`UvMapper.map`, source lines
1487–1581)

`packIslands` scales every island's UVs by `1 / max(width, height)` of
the packed container after translating them to the island's box.  The
islands hold references to shared `Face` objects, so the rewrite is
modelled on a face store indexed by those references.  The write-back
initialises the new UV channel to `-1` and walks the islands'
faces, assigning each corner's UV to its vertex slot or — when the slot
is already taken — redirecting the corner's index to a found-or-appended
additional vertex.  `f.pushVertexToVertexData` copies the remaining
vertex attributes and is not modelled; the additional UVs and positions
are. -/

/-- `islandOffsetList` entry (line 1616): the island bounds' minima. -/
def islandOffset (isl : List (Face K)) : K × K :=
  ((boundsIslands isl).1, (boundsIslands isl).2.1)

/-- Lines 1649–1650: translate by the box-minus-offset and scale. -/
def uvTransform (factor xOff yOff : K) (uv : Pt2 K) : Pt2 K :=
  ⟨(uv.x + xOff) * factor, (uv.y + yOff) * factor⟩

/-- The per-box UV map (lines 1642–1650): offsets are the box position
minus the island's recorded minimum. -/
def boxTransform (offsets : List (K × K)) (factor : K) (bx : BoxR K) :
    Pt2 K → Pt2 K :=
  uvTransform factor (bx.x - (offsets.getD bx.islandIdx (0, 0)).1)
    (bx.y - (offsets.getD bx.islandIdx (0, 0)).2)

/-- A JS island is a list of references to shared `Face` objects: the
heap of faces is a store, an island a list of indices into it, and the
face values an island denotes are the dereferenced entries.  The same
deleted face is referenced from one island per processed group. -/
def derefIsland (store : List (Face K)) (refs : List ℕ) : List (Face K) :=
  refs.map (fun r => store.getD r default)

/-- The whole island list, dereferenced. -/
def derefIslands (store : List (Face K)) (islRefs : List (List ℕ)) :
    List (List (Face K)) :=
  islRefs.map (derefIsland store)

/-- The box loop of lines 1638–1654 acting on the face store: each packed
box carries its island index, and that island's faces are rewritten in
place through their references — a face referenced from several islands
is rewritten once per referencing box, the transforms compounding. -/
def applyBoxesStore (factor : K) (offsets : List (K × K))
    (boxes : List (BoxR K)) (islRefs : List (List ℕ))
    (store : List (Face K)) : List (Face K) :=
  boxes.foldl
    (fun s bx =>
      (islRefs.getD bx.islandIdx []).foldl
        (fun s2 r =>
          s2.set r (mapUv (boxTransform offsets factor bx) (s2.getD r default)))
        s)
    store

/-- `packIslands` (lines 1584–1657, `USER_FILL_HOLES = 0`): build every
island's box and offset from the pre-rewrite store, pack the boxes, then
rewrite the islands' UVs through the shared references; the returned
factor is `1 / max(width, height)` for a nonempty island list and `1`
otherwise. -/
def packIslands (sqrtK : K → K) (islRefs : List (List ℕ))
    (store : List (Face K)) : List (Face K) × K :=
  let islandList := derefIslands store islRefs
  let boxes := packBoxes islandList
  let offsets := (List.range islandList.length).map
    (fun i => islandOffset (islandList.getD i []))
  let packed := BoxPack2d sqrtK boxes
  let xFactor : K := if islandList.length ≠ 0
    then 1 / max packed.2.1 packed.2.2 else 1
  (applyBoxesStore xFactor offsets packed.1 islRefs store, xFactor)

/-- The per-mesh state of the write-back loop (lines 1487–1542):
`newUvs` is the flat channel (two entries per vertex, initialised to
`-1`), `indices` the mesh's index buffer, and `addUvs`/`addVerts` the
additional seam vertices created so far. -/
structure ResolveSt (K : Type) where
  newUvs : List K
  indices : List ℕ
  addUvs : List (Pt2 K)
  addVerts : List (Pt3 K)
deriving Repr

/-- One corner `k` of face `f` (lines 1513–1541): if the vertex slot is
still negative the UV is written there; otherwise the corner is pointed
at an additional vertex with equal UV and position, appended when none
exists.  A slot read out of range yields the default `0`, which is not
negative — as in JS, where `undefined < 0` is false. -/
def resolveCorner (numVerts : ℕ) (st : ResolveSt K) (f : Face K) (k : ℕ) :
    ResolveSt K :=
  let vi := st.indices.getD (f.index + k) 0
  if st.newUvs.getD (vi * 2) 0 < 0 then
    let u := f.uv.getD k ⟨0, 0⟩
    { st with newUvs := (st.newUvs.set (vi * 2) u.x).set (vi * 2 + 1) u.y }
  else
    let newUv := f.uv.getD k ⟨0, 0⟩
    let newPos := (f.v.getD k (⟨0, 0, 0⟩, 0)).1
    match (List.range st.addUvs.length).find?
        (fun h => st.addUvs.getD h ⟨0, 0⟩ = newUv ∧
          st.addVerts.getD h ⟨0, 0, 0⟩ = newPos) with
    | some h => { st with indices := st.indices.set (f.index + k) (h + numVerts) }
    | none =>
        { st with
          addUvs := st.addUvs ++ [newUv],
          addVerts := st.addVerts ++ [newPos],
          indices := st.indices.set (f.index + k) (st.addUvs.length + numVerts) }

/-- The corner loop `for k in 0..2` of line 1512. -/
def resolveFace (numVerts : ℕ) (st : ResolveSt K) (f : Face K) : ResolveSt K :=
  [0, 1, 2].foldl (fun s k => resolveCorner numVerts s f k) st

/-- The island/face loops of lines 1507–1511. -/
def resolveIslands (numVerts : ℕ) (islands : List (List (Face K)))
    (st0 : ResolveSt K) : ResolveSt K :=
  islands.foldl (fun s isl => isl.foldl (fun s2 f => resolveFace numVerts s2 f) s) st0

/-- The final UV channel of one mesh (lines 1548–1578): the `newUvs`
array with the additional seam vertices' UVs merged behind it. -/
def finalUvChannel (st : ResolveSt K) : List K :=
  st.newUvs ++ st.addUvs.flatMap (fun q => [q.x, q.y])

/-- All UVs of one island lie in the unit square. -/
def islOk (isl : List (Face K)) : Prop :=
  ∀ f ∈ isl, ∀ uv ∈ f.uv, 0 ≤ uv.x ∧ uv.x ≤ 1 ∧ 0 ≤ uv.y ∧ uv.y ≤ 1

/-- All UVs of all islands lie in the unit square. -/
def uvInUnit (isls : List (List (Face K))) : Prop :=
  ∀ isl ∈ isls, islOk isl

/-- The placement-independent data of a box. -/
def stripBox (b : BoxR K) : K × K × ℕ := (b.w, b.h, b.islandIdx)

/-- Positional invariant of the packing loop: all spaces sit at
nonnegative coordinates, and every placed box is at nonnegative
coordinates within the running container extent. -/
structure PackPos (spaces : List (Space K)) (placed : List (BoxR K))
    (width height : K) : Prop where
  sp : ∀ s ∈ spaces, 0 ≤ s.x ∧ 0 ≤ s.y
  pl : ∀ c ∈ placed, 0 ≤ c.x ∧ 0 ≤ c.y ∧ c.x + c.w ≤ width ∧ c.y + c.h ≤ height

section PackIslandsProofs

lemma getD_set_self2 {α : Type} (l : List α) (i : ℕ) (a d : α)
    (hi : i < l.length) : (l.set i a).getD i d = a := by
  rw [List.getD_eq_getElem?_getD, List.getElem?_set_self hi]
  rfl

lemma getD_set_ne2 {α : Type} (l : List α) (i j : ℕ) (a d : α)
    (hne : i ≠ j) : (l.set i a).getD j d = l.getD j d := by
  rw [List.getD_eq_getElem?_getD, List.getElem?_set_ne hne,
    ← List.getD_eq_getElem?_getD]

lemma getD_map_range {α : Type} (n : ℕ) (f : ℕ → α) (j : ℕ) (d : α)
    (hj : j < n) : ((List.range n).map f).getD j d = f j := by
  rw [List.getD_eq_getElem?_getD, List.getElem?_map, List.getElem?_range hj]
  rfl

lemma packStep_found_idx {startW : K}
    {st : List (Space K) × List (BoxR K) × K × K} {b : BoxR K}
    (hwle : b.w ≤ startW) (inv : PackInv startW st.1 st.2.1) :
    ∃ (i : ℕ) (hilt : i < st.1.length),
      findSpaceIdx b st.1 = some i ∧
        boxFits b (st.1.get ⟨i, hilt⟩) = true := by
  obtain ⟨s₀, hs₀m, hs₀h⟩ := inv.infEx
  have hs₀w : s₀.w = startW := inv.infAll s₀ hs₀m hs₀h
  have hs₀fit : boxFits b s₀ = true := boxFits_inf hs₀h (by rw [hs₀w]; exact hwle)
  obtain ⟨i, hfi⟩ : ∃ i, findSpaceIdx b st.1 = some i := by
    cases hx : findSpaceIdx b st.1 with
    | none =>
        obtain ⟨j, hj, hgj⟩ := List.mem_iff_getElem.1 hs₀m
        have hfalse := findSpaceIdx_none hx j hj
        rw [show st.1.get ⟨j, hj⟩ = s₀ from hgj, hs₀fit] at hfalse
        exact Bool.noConfusion hfalse
    | some i => exact ⟨i, rfl⟩
  obtain ⟨hilt, hfit⟩ := findSpaceIdx_spec hfi
  exact ⟨i, hilt, hfi, hfit⟩

lemma packStep_pos {startW : K}
    {st : List (Space K) × List (BoxR K) × K × K} {b : BoxR K}
    (hw : 0 ≤ b.w) (hh : 0 ≤ b.h) (hwle : b.w ≤ startW)
    (inv : PackInv startW st.1 st.2.1)
    (pos : PackPos st.1 st.2.1 st.2.2.1 st.2.2.2) :
    PackPos (packStep st b).1 (packStep st b).2.1
      (packStep st b).2.2.1 (packStep st b).2.2.2 := by
  obtain ⟨i, hilt, hfi, hfit⟩ := packStep_found_idx hwle inv
  have hsm : st.1.get ⟨i, hilt⟩ ∈ st.1 := List.get_mem st.1 i hilt
  obtain ⟨hsx, hsy⟩ := pos.sp _ hsm
  have hmemE : ∀ t ∈ st.1.eraseIdx i, t ∈ st.1 :=
    fun t ht => (List.eraseIdx_sublist st.1 i).subset ht
  have hpl : ∀ c ∈ st.2.1 ++ [placedAt (st.1.get ⟨i, hilt⟩) b],
      0 ≤ c.x ∧ 0 ≤ c.y ∧
        c.x + c.w ≤ max st.2.2.1 ((placedAt (st.1.get ⟨i, hilt⟩) b).x +
          (placedAt (st.1.get ⟨i, hilt⟩) b).w) ∧
        c.y + c.h ≤ max st.2.2.2 ((placedAt (st.1.get ⟨i, hilt⟩) b).y +
          (placedAt (st.1.get ⟨i, hilt⟩) b).h) := by
    intro c hc
    rcases List.mem_append.1 hc with hco | hcn
    · obtain ⟨h1, h2, h3, h4⟩ := pos.pl c hco
      exact ⟨h1, h2, le_trans h3 (le_max_left _ _), le_trans h4 (le_max_left _ _)⟩
    · rw [List.mem_singleton] at hcn
      subst hcn
      exact ⟨hsx, hsy, le_max_right _ _, le_max_right _ _⟩
  rw [packStep_eq_of_found st b i hilt _ rfl hfi]
  dsimp only
  split
  · refine ⟨?_, hpl⟩
    intro t ht
    exact pos.sp t (hmemE t ((popSwap_perm st.1 i hilt).mem_iff.1 ht))
  · split
    · refine ⟨?_, hpl⟩
      intro t ht
      rcases List.mem_cons.1 ((perm_set_eraseIdx st.1 i hilt _).mem_iff.1 ht) with
        rfl | ht2
      · exact ⟨by show 0 ≤ (st.1.get ⟨i, hilt⟩).x + b.w; linarith,
          by show 0 ≤ (st.1.get ⟨i, hilt⟩).y; exact hsy⟩
      · exact pos.sp t (hmemE t ht2)
    · split
      · refine ⟨?_, hpl⟩
        intro t ht
        rcases List.mem_cons.1 ((perm_set_eraseIdx st.1 i hilt _).mem_iff.1 ht) with
          rfl | ht2
        · exact ⟨by show 0 ≤ (st.1.get ⟨i, hilt⟩).x; exact hsx,
            by show 0 ≤ (st.1.get ⟨i, hilt⟩).y + b.h; linarith⟩
        · exact pos.sp t (hmemE t ht2)
      · refine ⟨?_, hpl⟩
        intro t ht
        rcases List.mem_append.1 ht with ht1 | ht2
        · rcases List.mem_cons.1 ((perm_set_eraseIdx st.1 i hilt _).mem_iff.1 ht1) with
            rfl | ht3
          · exact ⟨by show 0 ≤ (st.1.get ⟨i, hilt⟩).x; exact hsx,
              by show 0 ≤ (st.1.get ⟨i, hilt⟩).y + b.h; linarith⟩
          · exact pos.sp t (hmemE t ht3)
        · rw [List.mem_singleton] at ht2
          subst ht2
          exact ⟨by show 0 ≤ (st.1.get ⟨i, hilt⟩).x + b.w; linarith,
            by show 0 ≤ (st.1.get ⟨i, hilt⟩).y; exact hsy⟩

lemma packFold_pos {startW : K} (bs : List (BoxR K)) :
    ∀ (st : List (Space K) × List (BoxR K) × K × K),
      (∀ b ∈ bs, 0 ≤ b.w ∧ 0 ≤ b.h ∧ b.w ≤ startW) →
      PackInv startW st.1 st.2.1 →
      PackPos st.1 st.2.1 st.2.2.1 st.2.2.2 →
      PackPos (bs.foldl packStep st).1 (bs.foldl packStep st).2.1
        (bs.foldl packStep st).2.2.1 (bs.foldl packStep st).2.2.2 := by
  induction bs with
  | nil => exact fun st _ _ pos => pos
  | cons b bs ih =>
      intro st hb inv pos
      rw [List.foldl_cons]
      have hbh := hb b (List.mem_cons_self _ _)
      exact ih _ (fun c hc => hb c (List.mem_cons_of_mem _ hc))
        (packStep_inv hbh.1 hbh.2.1 hbh.2.2 inv)
        (packStep_pos hbh.1 hbh.2.1 hbh.2.2 inv pos)

lemma BoxPack2d_pos (sqrtK : K → K) (boxes : List (BoxR K))
    (hb : ∀ b ∈ boxes, 0 ≤ b.w ∧ 0 ≤ b.h) :
    ∀ c ∈ (BoxPack2d sqrtK boxes).1,
      0 ≤ c.x ∧ 0 ≤ c.y ∧ c.x + c.w ≤ (BoxPack2d sqrtK boxes).2.1 ∧
        c.y + c.h ≤ (BoxPack2d sqrtK boxes).2.2 := by
  have hb' : ∀ b ∈ sortBoxes boxes,
      0 ≤ b.w ∧ 0 ≤ b.h ∧ b.w ≤ startWidthOf sqrtK boxes := by
    intro b hbm
    have hbm' : b ∈ boxes := (List.perm_insertionSort _ boxes).mem_iff.1 hbm
    exact ⟨(hb b hbm').1, (hb b hbm').2, w_le_startWidthOf sqrtK boxes b hbm'⟩
  have hpos := @packFold_pos K _ _ (startWidthOf sqrtK boxes) (sortBoxes boxes)
    ([⟨0, 0, startWidthOf sqrtK boxes, none⟩], [], 0, 0) hb' (packInit_inv _)
    ⟨by
      intro t ht
      rw [List.mem_singleton] at ht
      subst ht
      exact ⟨le_refl 0, le_refl 0⟩,
     fun c hc => absurd hc (List.not_mem_nil c)⟩
  exact hpos.pl

lemma packStep_strip (st : List (Space K) × List (BoxR K) × K × K) (b : BoxR K) :
    (packStep st b).2.1.map stripBox = st.2.1.map stripBox ++ [stripBox b] := by
  unfold packStep
  split
  · rw [List.map_append]
    rfl
  · split
    · rw [List.map_append]
      rfl
    · dsimp only
      rw [List.map_append]
      rfl

lemma packFold_strip (bs : List (BoxR K)) :
    ∀ st : List (Space K) × List (BoxR K) × K × K,
      (bs.foldl packStep st).2.1.map stripBox =
        st.2.1.map stripBox ++ bs.map stripBox := by
  induction bs with
  | nil => intro st; rw [List.foldl_nil, List.map_nil, List.append_nil]
  | cons b bs ih =>
      intro st
      rw [List.foldl_cons, ih, packStep_strip, List.map_cons,
        List.append_assoc, List.singleton_append]

lemma BoxPack2d_strip (sqrtK : K → K) (boxes : List (BoxR K)) :
    ((BoxPack2d sqrtK boxes).1.map stripBox).Perm (boxes.map stripBox) := by
  show (((sortBoxes boxes).foldl packStep
    ([⟨0, 0, startWidthOf sqrtK boxes, none⟩], [], 0, 0)).2.1.map stripBox).Perm _
  rw [packFold_strip]
  show ((sortBoxes boxes).map stripBox).Perm _
  exact (List.perm_insertionSort _ boxes).map stripBox

lemma packStep_len (st : List (Space K) × List (BoxR K) × K × K) (b : BoxR K) :
    (packStep st b).2.1.length = st.2.1.length + 1 := by
  unfold packStep
  split
  · rw [List.length_append, List.length_singleton]
  · split
    · rw [List.length_append, List.length_singleton]
    · dsimp only
      rw [List.length_append, List.length_singleton]

lemma packFold_len (bs : List (BoxR K)) :
    ∀ st : List (Space K) × List (BoxR K) × K × K,
      (bs.foldl packStep st).2.1.length = st.2.1.length + bs.length := by
  induction bs with
  | nil =>
      intro st
      rw [List.foldl_nil, List.length_nil]
      rfl
  | cons b bs ih =>
      intro st
      rw [List.foldl_cons, ih, packStep_len, List.length_cons]
      omega

lemma BoxPack2d_length (sqrtK : K → K) (boxes : List (BoxR K)) :
    (BoxPack2d sqrtK boxes).1.length = boxes.length := by
  show (((sortBoxes boxes).foldl packStep
    ([⟨0, 0, startWidthOf sqrtK boxes, none⟩], [], 0, 0)).2.1.length) = _
  rw [packFold_len]
  show 0 + (sortBoxes boxes).length = _
  rw [Nat.zero_add]
  exact (List.perm_insertionSort _ boxes).length_eq

lemma boundsStep_mono (b : K × K × K × K) (q : Pt2 K) :
    (boundsStep b q).1 ≤ b.1 ∧ (boundsStep b q).2.1 ≤ b.2.1 ∧
      b.2.2.1 ≤ (boundsStep b q).2.2.1 ∧ b.2.2.2 ≤ (boundsStep b q).2.2.2 := by
  unfold boundsStep
  refine ⟨?_, ?_, ?_, ?_⟩ <;> dsimp only <;> split
  · exact le_of_lt (by assumption)
  · exact le_refl _
  · exact le_of_lt (by assumption)
  · exact le_refl _
  · exact le_of_lt (by assumption)
  · exact le_refl _
  · exact le_of_lt (by assumption)
  · exact le_refl _

lemma boundsStep_insert (b : K × K × K × K) (q : Pt2 K) :
    (boundsStep b q).1 ≤ q.x ∧ (boundsStep b q).2.1 ≤ q.y ∧
      q.x ≤ (boundsStep b q).2.2.1 ∧ q.y ≤ (boundsStep b q).2.2.2 := by
  unfold boundsStep
  refine ⟨?_, ?_, ?_, ?_⟩ <;> dsimp only <;> split
  · exact le_refl _
  · exact le_of_not_lt (by assumption)
  · exact le_refl _
  · exact le_of_not_lt (by assumption)
  · exact le_refl _
  · exact le_of_not_lt (by assumption)
  · exact le_refl _
  · exact le_of_not_lt (by assumption)

lemma foldl_bounds_mono (pts : List (Pt2 K)) :
    ∀ b : K × K × K × K,
      (pts.foldl boundsStep b).1 ≤ b.1 ∧ (pts.foldl boundsStep b).2.1 ≤ b.2.1 ∧
        b.2.2.1 ≤ (pts.foldl boundsStep b).2.2.1 ∧
        b.2.2.2 ≤ (pts.foldl boundsStep b).2.2.2 := by
  induction pts with
  | nil => exact fun b => ⟨le_refl _, le_refl _, le_refl _, le_refl _⟩
  | cons q pts ih =>
      intro b
      rw [List.foldl_cons]
      obtain ⟨h1, h2, h3, h4⟩ := ih (boundsStep b q)
      obtain ⟨m1, m2, m3, m4⟩ := boundsStep_mono b q
      exact ⟨le_trans h1 m1, le_trans h2 m2, le_trans m3 h3, le_trans m4 h4⟩

lemma foldl_bounds_contains (pts : List (Pt2 K)) :
    ∀ (b : K × K × K × K) (q : Pt2 K), q ∈ pts →
      (pts.foldl boundsStep b).1 ≤ q.x ∧ (pts.foldl boundsStep b).2.1 ≤ q.y ∧
        q.x ≤ (pts.foldl boundsStep b).2.2.1 ∧
        q.y ≤ (pts.foldl boundsStep b).2.2.2 := by
  induction pts with
  | nil => exact fun b q hq => absurd hq (List.not_mem_nil q)
  | cons r pts ih =>
      intro b q hq
      rw [List.foldl_cons]
      rcases List.mem_cons.1 hq with rfl | hq2
      · obtain ⟨i1, i2, i3, i4⟩ := boundsStep_insert b q
        obtain ⟨h1, h2, h3, h4⟩ := foldl_bounds_mono pts (boundsStep b q)
        exact ⟨le_trans h1 i1, le_trans h2 i2, le_trans i3 h3, le_trans i4 h4⟩
      · exact ih _ q hq2

lemma boundsIslands_contains (isl : List (Face K)) (f : Face K) (uv : Pt2 K)
    (hf : f ∈ isl) (huv : uv ∈ f.uv) :
    (boundsIslands isl).1 ≤ uv.x ∧ (boundsIslands isl).2.1 ≤ uv.y ∧
      uv.x ≤ (boundsIslands isl).2.2.1 ∧ uv.y ≤ (boundsIslands isl).2.2.2 := by
  have hmem : uv ∈ isl.flatMap (fun g => g.uv) :=
    List.mem_flatMap.2 ⟨f, hf, huv⟩
  unfold boundsIslands boundsPts
  cases hl : isl.flatMap (fun g => g.uv) with
  | nil =>
      rw [hl] at hmem
      exact absurd hmem (List.not_mem_nil uv)
  | cons p rest =>
      rw [hl] at hmem
      exact foldl_bounds_contains (p :: rest) (p.x, p.y, p.x, p.y) uv hmem

lemma scale_mem_unit {u mn mx bx bw W M : K}
    (humn : mn ≤ u) (humx : u ≤ mx) (hclamp : mx - mn ≤ bw) (hbx : 0 ≤ bx)
    (hxw : bx + bw ≤ W) (hWM : W ≤ M) (hM : 0 < M) :
    0 ≤ (u + (bx - mn)) * (1 / M) ∧ (u + (bx - mn)) * (1 / M) ≤ 1 := by
  constructor
  · apply mul_nonneg (by linarith)
    positivity
  · rw [mul_one_div, div_le_one hM]
    linarith

lemma storeWrite_notmem (T : Face K → Face K) :
    ∀ (L : List ℕ) (s : List (Face K)) (r : ℕ), r ∉ L →
      ((L.foldl (fun s2 x => s2.set x (T (s2.getD x default))) s).getD r default)
        = s.getD r default := by
  intro L
  induction L with
  | nil =>
      intro s r _
      rfl
  | cons x L ih =>
      intro s r hr
      rw [List.foldl_cons,
        ih _ _ (fun h => hr (List.mem_cons_of_mem _ h))]
      exact getD_set_ne2 _ _ _ _ _
        (fun he => hr (by rw [← he]; exact List.mem_cons_self _ _))

lemma storeWrite_length (T : Face K → Face K) :
    ∀ (L : List ℕ) (s : List (Face K)),
      (L.foldl (fun s2 x => s2.set x (T (s2.getD x default))) s).length
        = s.length := by
  intro L
  induction L with
  | nil =>
      intro s
      rfl
  | cons x L ih =>
      intro s
      rw [List.foldl_cons, ih, List.length_set]

lemma storeWrite_get (T : Face K → Face K) :
    ∀ (L : List ℕ) (s : List (Face K)) (r : ℕ),
      r < s.length → L.Nodup → r ∈ L →
      ((L.foldl (fun s2 x => s2.set x (T (s2.getD x default))) s).getD r default)
        = T (s.getD r default) := by
  intro L
  induction L with
  | nil =>
      intro s r _ _ hr
      exact absurd hr (List.not_mem_nil r)
  | cons x L ih =>
      intro s r hlen hnd hr
      rw [List.nodup_cons] at hnd
      rw [List.foldl_cons]
      rcases List.mem_cons.1 hr with he | hr2
      · subst he
        rw [storeWrite_notmem T L _ _ hnd.1]
        exact getD_set_self2 _ _ _ _ hlen
      · have hx : x ≠ r := fun he => hnd.1 (by rw [he]; exact hr2)
        rw [ih _ _ (by rw [List.length_set]; exact hlen) hnd.2 hr2,
          getD_set_ne2 _ _ _ _ _ hx]

lemma applyBoxesStore_notmem (factor : K) (offsets : List (K × K))
    (islRefs : List (List ℕ)) :
    ∀ (boxes : List (BoxR K)) (s : List (Face K)) (r : ℕ),
      (∀ bx ∈ boxes, r ∉ islRefs.getD bx.islandIdx []) →
      (applyBoxesStore factor offsets boxes islRefs s).getD r default
        = s.getD r default := by
  intro boxes
  induction boxes with
  | nil =>
      intro s r _
      rfl
  | cons b bs ih =>
      intro s r hnm
      show (applyBoxesStore factor offsets bs islRefs
        ((islRefs.getD b.islandIdx []).foldl
          (fun s2 x =>
            s2.set x (mapUv (boxTransform offsets factor b) (s2.getD x default)))
          s)).getD r default = _
      rw [ih _ _ (fun bx hbx => hnm bx (List.mem_cons_of_mem _ hbx))]
      exact storeWrite_notmem _ _ _ _ (hnm b (List.mem_cons_self _ _))

lemma applyBoxesStore_length (factor : K) (offsets : List (K × K))
    (islRefs : List (List ℕ)) :
    ∀ (boxes : List (BoxR K)) (s : List (Face K)),
      (applyBoxesStore factor offsets boxes islRefs s).length = s.length := by
  intro boxes
  induction boxes with
  | nil =>
      intro s
      rfl
  | cons b bs ih =>
      intro s
      show (applyBoxesStore factor offsets bs islRefs
        ((islRefs.getD b.islandIdx []).foldl
          (fun s2 x =>
            s2.set x (mapUv (boxTransform offsets factor b) (s2.getD x default)))
          s)).length = _
      rw [ih, storeWrite_length]

lemma applyBoxesStore_get (factor : K) (offsets : List (K × K))
    (islRefs : List (List ℕ))
    (hdisj : ∀ i j, i ≠ j →
      (islRefs.getD i ([] : List ℕ)).Disjoint (islRefs.getD j []))
    (hndi : ∀ i, (islRefs.getD i ([] : List ℕ)).Nodup) :
    ∀ (boxes : List (BoxR K)) (s : List (Face K)) (r : ℕ) (bx : BoxR K),
      (boxes.map (fun b => b.islandIdx)).Nodup →
      bx ∈ boxes → r ∈ islRefs.getD bx.islandIdx [] → r < s.length →
      (applyBoxesStore factor offsets boxes islRefs s).getD r default
        = mapUv (boxTransform offsets factor bx) (s.getD r default) := by
  intro boxes
  induction boxes with
  | nil =>
      intro s r bx _ hbx
      exact absurd hbx (List.not_mem_nil bx)
  | cons b bs ih =>
      intro s r bx hndb hbx hrm hrl
      rw [List.map_cons, List.nodup_cons] at hndb
      show (applyBoxesStore factor offsets bs islRefs
        ((islRefs.getD b.islandIdx []).foldl
          (fun s2 x =>
            s2.set x (mapUv (boxTransform offsets factor b) (s2.getD x default)))
          s)).getD r default = _
      rcases List.mem_cons.1 hbx with he | hbx2
      · subst he
        have hlater : ∀ bb ∈ bs, r ∉ islRefs.getD bb.islandIdx [] := by
          intro bb hbb hrm2
          have hne : bb.islandIdx ≠ bx.islandIdx := by
            intro heq
            refine hndb.1 ?_
            rw [← heq]
            exact List.mem_map_of_mem (fun t => t.islandIdx) hbb
          exact hdisj _ _ hne hrm2 hrm
        rw [applyBoxesStore_notmem factor offsets islRefs bs _ r hlater]
        exact storeWrite_get _ _ _ _ hrl (hndi _) hrm
      · have hne : b.islandIdx ≠ bx.islandIdx := by
          intro heq
          refine hndb.1 ?_
          rw [heq]
          exact List.mem_map_of_mem (fun t => t.islandIdx) hbx2
        have hrnm : r ∉ islRefs.getD b.islandIdx [] := fun hr2 =>
          hdisj _ _ hne hr2 hrm
        have hlen2 : r < ((islRefs.getD b.islandIdx []).foldl
            (fun s2 x =>
              s2.set x (mapUv (boxTransform offsets factor b) (s2.getD x default)))
            s).length := by
          rw [storeWrite_length]
          exact hrl
        rw [ih _ _ _ hndb.2 hbx2 hrm hlen2,
          storeWrite_notmem _ _ _ _ hrnm]

lemma flatten_nodup_parts (islRefs : List (List ℕ))
    (h : islRefs.flatten.Nodup) :
    (∀ i, (islRefs.getD i ([] : List ℕ)).Nodup) ∧
      (∀ i j, i ≠ j →
        (islRefs.getD i ([] : List ℕ)).Disjoint (islRefs.getD j [])) := by
  obtain ⟨hall, hpw⟩ := List.nodup_flatten.1 h
  constructor
  · intro i
    by_cases hi : i < islRefs.length
    · rw [List.getD_eq_getElem _ _ hi]
      exact hall _ (List.getElem_mem _)
    · rw [List.getD_eq_default _ _ (le_of_not_lt hi)]
      exact List.nodup_nil
  · intro i j hij
    by_cases hi : i < islRefs.length
    · by_cases hj : j < islRefs.length
      · rw [List.getD_eq_getElem _ _ hi, List.getD_eq_getElem _ _ hj]
        have hpg := List.pairwise_iff_getElem.1 hpw
        rcases Nat.lt_or_ge i j with hlt | hge
        · exact hpg i j hi hj hlt
        · have hlt2 : j < i := by omega
          exact (hpg j i hj hi hlt2).symm
      · rw [List.getD_eq_default _ _ (le_of_not_lt hj)]
        intro a ham
        exact List.not_mem_nil a
    · rw [List.getD_eq_default _ _ (le_of_not_lt hi)]
      intro a ha
      exact absurd ha (List.not_mem_nil a)

lemma getD_derefIslands (store : List (Face K)) (islRefs : List (List ℕ))
    (i : ℕ) :
    (derefIslands store islRefs).getD i [] =
      derefIsland store (islRefs.getD i []) := by
  by_cases hi : i < islRefs.length
  · have hi2 : i < (derefIslands store islRefs).length := by
      show i < (islRefs.map (derefIsland store)).length
      rw [List.length_map]
      exact hi
    rw [List.getD_eq_getElem _ _ hi2, List.getD_eq_getElem _ _ hi]
    exact List.getElem_map _
  · have hi2 : (derefIslands store islRefs).length ≤ i := by
      show (islRefs.map (derefIsland store)).length ≤ i
      rw [List.length_map]
      exact le_of_not_lt hi
    rw [List.getD_eq_default _ _ hi2,
      List.getD_eq_default _ _ (le_of_not_lt hi)]
    rfl

lemma islandBox_w_eq (idx : ℕ) (isl : List (Face K)) :
    SMALL_NUM ≤ (islandBox idx isl).w ∧
      boundsW (boundsIslands isl) ≤ (islandBox idx isl).w := by
  show SMALL_NUM ≤ (if boundsW (boundsIslands isl) < SMALL_NUM then SMALL_NUM
      else boundsW (boundsIslands isl)) ∧
    boundsW (boundsIslands isl) ≤ (if boundsW (boundsIslands isl) < SMALL_NUM
      then SMALL_NUM else boundsW (boundsIslands isl))
  split
  · rename_i hlt
    exact ⟨le_refl _, le_of_lt hlt⟩
  · rename_i hnlt
    exact ⟨le_of_not_lt hnlt, le_refl _⟩

lemma islandBox_h_eq (idx : ℕ) (isl : List (Face K)) :
    SMALL_NUM ≤ (islandBox idx isl).h ∧
      boundsH (boundsIslands isl) ≤ (islandBox idx isl).h := by
  show SMALL_NUM ≤ (if boundsH (boundsIslands isl) < SMALL_NUM then SMALL_NUM
      else boundsH (boundsIslands isl)) ∧
    boundsH (boundsIslands isl) ≤ (if boundsH (boundsIslands isl) < SMALL_NUM
      then SMALL_NUM else boundsH (boundsIslands isl))
  split
  · rename_i hlt
    exact ⟨le_refl _, le_of_lt hlt⟩
  · rename_i hnlt
    exact ⟨le_of_not_lt hnlt, le_refl _⟩

lemma packBoxes_idx (islandList : List (List (Face K))) :
    (packBoxes islandList).map (fun b => b.islandIdx) =
      List.range islandList.length := by
  unfold packBoxes
  rw [List.map_map]
  exact List.map_id _

lemma packed_idx_perm (sqrtK : K → K) (islandList : List (List (Face K))) :
    (((BoxPack2d sqrtK (packBoxes islandList)).1.map
      (fun b => b.islandIdx)).Perm (List.range islandList.length)) := by
  have h := (BoxPack2d_strip sqrtK (packBoxes islandList)).map
    (fun t : K × K × ℕ => t.2.2)
  rw [List.map_map, List.map_map] at h
  rw [← packBoxes_idx islandList]
  exact h

lemma packed_box_ok (sqrtK : K → K) (islandList : List (List (Face K))) :
    ∀ bx ∈ (BoxPack2d sqrtK (packBoxes islandList)).1,
      islOk ((islandList.getD bx.islandIdx []).map
        (mapUv (boxTransform
          ((List.range islandList.length).map
            (fun i => islandOffset (islandList.getD i [])))
          (if islandList.length ≠ 0
            then 1 / max (BoxPack2d sqrtK (packBoxes islandList)).2.1
              (BoxPack2d sqrtK (packBoxes islandList)).2.2 else 1) bx))) := by
  have hdims : ∀ b ∈ packBoxes islandList, 0 ≤ b.w ∧ 0 ≤ b.h := by
    intro b hbm
    obtain ⟨i, _, hbi⟩ := List.mem_map.1 hbm
    rw [← hbi]
    exact islandBox_dims i _
  have hidxperm := packed_idx_perm sqrtK islandList
  intro bx hbx f' hf' uv' huv'
  -- identify the original box
  have hstrip : stripBox bx ∈ (packBoxes islandList).map stripBox :=
    (BoxPack2d_strip sqrtK (packBoxes islandList)).mem_iff.1
      (List.mem_map_of_mem stripBox hbx)
  obtain ⟨b0, hb0m, hb0e⟩ := List.mem_map.1 hstrip
  obtain ⟨i, hir, hbi⟩ := List.mem_map.1 hb0m
  rw [List.mem_range] at hir
  rw [← hbi] at hb0e
  have hidx : i = bx.islandIdx := congrArg (fun t : K × K × ℕ => t.2.2) hb0e
  have hwq : (islandBox i (islandList.getD i [])).w = bx.w :=
    congrArg (fun t : K × K × ℕ => t.1) hb0e
  have hhq : (islandBox i (islandList.getD i [])).h = bx.h :=
    congrArg (fun t : K × K × ℕ => t.2.1) hb0e
  -- positions within the container
  obtain ⟨hbxx, hbxy, hbxw, hbxh⟩ :=
    BoxPack2d_pos sqrtK (packBoxes islandList) hdims bx hbx
  have hsmall : (0 : K) < SMALL_NUM := by
    unfold SMALL_NUM
    positivity
  have hWpos : (0 : K) <
      max (BoxPack2d sqrtK (packBoxes islandList)).2.1
        (BoxPack2d sqrtK (packBoxes islandList)).2.2 := by
    have h1 := (islandBox_w_eq i (islandList.getD i [])).1
    rw [hwq] at h1
    have h2 := le_max_left (BoxPack2d sqrtK (packBoxes islandList)).2.1
      (BoxPack2d sqrtK (packBoxes islandList)).2.2
    linarith
  have hn0 : islandList.length ≠ 0 := by omega
  -- decompose the transformed uv
  obtain ⟨f, hfm, hfe⟩ := List.mem_map.1 hf'
  rw [← hfe] at huv'
  have huv3 : uv' ∈ f.uv.map (boxTransform
      ((List.range islandList.length).map
        (fun i => islandOffset (islandList.getD i [])))
      (if islandList.length ≠ 0
        then 1 / max (BoxPack2d sqrtK (packBoxes islandList)).2.1
          (BoxPack2d sqrtK (packBoxes islandList)).2.2 else 1) bx) := huv'
  obtain ⟨uv, huvm, huve⟩ := List.mem_map.1 huv3
  -- the offsets entry
  have hoff : (((List.range islandList.length).map
      (fun i => islandOffset (islandList.getD i []))).getD bx.islandIdx (0, 0)) =
      islandOffset (islandList.getD bx.islandIdx []) :=
    getD_map_range _ _ _ _ (hidx ▸ hir)
  have hoffx : ((((List.range islandList.length).map
      (fun i => islandOffset (islandList.getD i []))).getD
        bx.islandIdx (0, 0))).1 =
      (boundsIslands (islandList.getD bx.islandIdx [])).1 := by
    rw [hoff]
    rfl
  have hoffy : ((((List.range islandList.length).map
      (fun i => islandOffset (islandList.getD i []))).getD
        bx.islandIdx (0, 0))).2 =
      (boundsIslands (islandList.getD bx.islandIdx [])).2.1 := by
    rw [hoff]
    rfl
  obtain ⟨hc1, hc2, hc3, hc4⟩ :=
    boundsIslands_contains (islandList.getD bx.islandIdx []) f uv hfm huvm
  have hclw : (boundsIslands (islandList.getD bx.islandIdx [])).2.2.1 -
      (boundsIslands (islandList.getD bx.islandIdx [])).1 ≤ bx.w := by
    have h := (islandBox_w_eq i (islandList.getD i [])).2
    rw [hwq, hidx] at h
    exact h
  have hclh : (boundsIslands (islandList.getD bx.islandIdx [])).2.2.2 -
      (boundsIslands (islandList.getD bx.islandIdx [])).2.1 ≤ bx.h := by
    have h := (islandBox_h_eq i (islandList.getD i [])).2
    rw [hhq, hidx] at h
    exact h
  have hxmem := scale_mem_unit hc1 hc3 hclw hbxx hbxw
    (le_max_left _ _) hWpos
  have hymem := scale_mem_unit hc2 hc4 hclh hbxy hbxh
    (le_max_right _ _) hWpos
  have htr : boxTransform
      ((List.range islandList.length).map
        (fun i => islandOffset (islandList.getD i [])))
      (if islandList.length ≠ 0
        then 1 / max (BoxPack2d sqrtK (packBoxes islandList)).2.1
          (BoxPack2d sqrtK (packBoxes islandList)).2.2 else 1) bx uv =
      ⟨(uv.x + (bx.x - (boundsIslands (islandList.getD bx.islandIdx [])).1)) *
          (1 / max (BoxPack2d sqrtK (packBoxes islandList)).2.1
            (BoxPack2d sqrtK (packBoxes islandList)).2.2),
       (uv.y + (bx.y - (boundsIslands (islandList.getD bx.islandIdx [])).2.1)) *
          (1 / max (BoxPack2d sqrtK (packBoxes islandList)).2.1
            (BoxPack2d sqrtK (packBoxes islandList)).2.2)⟩ := by
    unfold boxTransform uvTransform
    rw [hoffx, hoffy, if_pos hn0]
  rw [← huve, htr]
  exact ⟨hxmem.1, hxmem.2, hymem.1, hymem.2⟩

lemma packIslands_bounds (sqrtK : K → K) (islRefs : List (List ℕ))
    (store : List (Face K)) (hnd : islRefs.flatten.Nodup) :
    ∀ r ∈ islRefs.flatten, r < store.length →
      ∀ uv ∈ ((packIslands sqrtK islRefs store).1.getD r default).uv,
        0 ≤ uv.x ∧ uv.x ≤ 1 ∧ 0 ≤ uv.y ∧ uv.y ≤ 1 := by
  obtain ⟨hndi, hdisj⟩ := flatten_nodup_parts islRefs hnd
  intro r hrm hrl uv huv
  obtain ⟨L, hLm, hrL⟩ := List.mem_flatten.1 hrm
  obtain ⟨i, hi, hLe⟩ := List.mem_iff_getElem.1 hLm
  have hrGet : r ∈ islRefs.getD i [] := by
    rw [List.getD_eq_getElem _ _ hi, hLe]
    exact hrL
  have hlen : (derefIslands store islRefs).length = islRefs.length := by
    show (islRefs.map (derefIsland store)).length = islRefs.length
    exact List.length_map _ _
  have hidxperm := packed_idx_perm sqrtK (derefIslands store islRefs)
  have hib : i ∈ (BoxPack2d sqrtK
      (packBoxes (derefIslands store islRefs))).1.map
        (fun b => b.islandIdx) := by
    refine hidxperm.mem_iff.2 (List.mem_range.2 ?_)
    rw [hlen]
    exact hi
  obtain ⟨bx, hbxm, hbi⟩ := List.mem_map.1 hib
  have hget : (packIslands sqrtK islRefs store).1.getD r default
      = mapUv (boxTransform
          ((List.range (derefIslands store islRefs).length).map
            (fun i => islandOffset ((derefIslands store islRefs).getD i [])))
          (if (derefIslands store islRefs).length ≠ 0
            then 1 / max
              (BoxPack2d sqrtK (packBoxes (derefIslands store islRefs))).2.1
              (BoxPack2d sqrtK (packBoxes (derefIslands store islRefs))).2.2
            else 1) bx)
        (store.getD r default) := by
    show (applyBoxesStore _ _
      (BoxPack2d sqrtK (packBoxes (derefIslands store islRefs))).1
      islRefs store).getD r default = _
    exact applyBoxesStore_get _ _ islRefs hdisj hndi _ _ _ _
      (hidxperm.nodup_iff.2 (List.nodup_range _)) hbxm
      (by rw [hbi]; exact hrGet) hrl
  have hmem2 : mapUv (boxTransform
        ((List.range (derefIslands store islRefs).length).map
          (fun i => islandOffset ((derefIslands store islRefs).getD i [])))
        (if (derefIslands store islRefs).length ≠ 0
          then 1 / max
            (BoxPack2d sqrtK (packBoxes (derefIslands store islRefs))).2.1
            (BoxPack2d sqrtK (packBoxes (derefIslands store islRefs))).2.2
          else 1) bx)
      (store.getD r default)
      ∈ ((derefIslands store islRefs).getD bx.islandIdx []).map
        (mapUv (boxTransform
          ((List.range (derefIslands store islRefs).length).map
            (fun i => islandOffset ((derefIslands store islRefs).getD i [])))
          (if (derefIslands store islRefs).length ≠ 0
            then 1 / max
              (BoxPack2d sqrtK (packBoxes (derefIslands store islRefs))).2.1
              (BoxPack2d sqrtK (packBoxes (derefIslands store islRefs))).2.2
            else 1) bx)) := by
    refine List.mem_map_of_mem _ ?_
    rw [getD_derefIslands, hbi]
    exact List.mem_map_of_mem _ hrGet
  rw [hget] at huv
  exact packed_box_ok sqrtK (derefIslands store islRefs) bx hbxm _ hmem2 uv huv

/-- Invariant of the write-back loop for a vertex `v` referenced by no
face: every index value is an original one or a seam index past the
vertex count, lengths are preserved, and `v`'s x-slot still holds the
`-1` sentinel. -/
def ResInv (numVerts : ℕ) (idx0 : List ℕ) (v : ℕ) (st : ResolveSt K) : Prop :=
  (∀ x ∈ st.indices, x ∈ idx0 ∨ numVerts ≤ x) ∧
    st.indices.length = idx0.length ∧
    st.newUvs.length = 2 * numVerts ∧
    st.newUvs.getD (v * 2) 0 = -1

lemma resolveCorner_inv {numVerts : ℕ} {idx0 : List ℕ} {v : ℕ}
    {st : ResolveSt K} {f : Face K} {k : ℕ}
    (hv : v < numVerts) (hvn : v ∉ idx0) (hk : f.index + k < idx0.length)
    (hinv : ResInv numVerts idx0 v st) :
    ResInv numVerts idx0 v (resolveCorner numVerts st f k) := by
  obtain ⟨hidx, hlen, hulen, hsent⟩ := hinv
  have hkr : f.index + k < st.indices.length := by
    rw [hlen]
    exact hk
  have hvim : st.indices.getD (f.index + k) 0 ∈ st.indices := by
    rw [List.getD_eq_getElem _ _ hkr]
    exact List.getElem_mem _
  have hvi : st.indices.getD (f.index + k) 0 ≠ v := by
    rcases hidx _ hvim with h0 | h0
    · exact fun he => hvn (he ▸ h0)
    · omega
  unfold resolveCorner
  dsimp only
  split
  · refine ⟨hidx, hlen, ?_, ?_⟩
    · rw [List.length_set, List.length_set]
      exact hulen
    · rw [getD_set_ne2 _ _ _ _ _ (by omega),
        getD_set_ne2 _ _ _ _ _ (by omega)]
      exact hsent
  · split
    · refine ⟨?_, ?_, hulen, hsent⟩
      · intro x hx
        rcases List.mem_cons.1
            ((perm_set_eraseIdx st.indices (f.index + k) hkr _).mem_iff.1 hx) with
          rfl | hx2
        · right
          omega
        · exact hidx x ((List.eraseIdx_sublist _ _).subset hx2)
      · rw [List.length_set]
        exact hlen
    · refine ⟨?_, ?_, hulen, hsent⟩
      · intro x hx
        rcases List.mem_cons.1
            ((perm_set_eraseIdx st.indices (f.index + k) hkr _).mem_iff.1 hx) with
          rfl | hx2
        · right
          omega
        · exact hidx x ((List.eraseIdx_sublist _ _).subset hx2)
      · rw [List.length_set]
        exact hlen

lemma resolveFace_inv {numVerts : ℕ} {idx0 : List ℕ} {v : ℕ}
    {st : ResolveSt K} {f : Face K}
    (hv : v < numVerts) (hvn : v ∉ idx0) (hk2 : f.index + 2 < idx0.length)
    (hinv : ResInv numVerts idx0 v st) :
    ResInv numVerts idx0 v (resolveFace numVerts st f) :=
  resolveCorner_inv hv hvn hk2
    (resolveCorner_inv hv hvn (by omega)
      (resolveCorner_inv hv hvn (by omega) hinv))

lemma foldFaces_inv {numVerts : ℕ} {idx0 : List ℕ} {v : ℕ}
    (hv : v < numVerts) (hvn : v ∉ idx0) (fs : List (Face K)) :
    ∀ st : ResolveSt K, (∀ f ∈ fs, f.index + 2 < idx0.length) →
      ResInv numVerts idx0 v st →
      ResInv numVerts idx0 v
        (fs.foldl (fun s2 f => resolveFace numVerts s2 f) st) := by
  induction fs with
  | nil => exact fun st _ hinv => hinv
  | cons f fs ih =>
      intro st hk hinv
      rw [List.foldl_cons]
      exact ih _ (fun g hg => hk g (List.mem_cons_of_mem _ hg))
        (resolveFace_inv hv hvn (hk f (List.mem_cons_self _ _)) hinv)

lemma resolveIslands_inv {numVerts : ℕ} {idx0 : List ℕ} {v : ℕ}
    (hv : v < numVerts) (hvn : v ∉ idx0) (islands : List (List (Face K))) :
    ∀ st : ResolveSt K,
      (∀ f ∈ islands.flatten, f.index + 2 < idx0.length) →
      ResInv numVerts idx0 v st →
      ResInv numVerts idx0 v (resolveIslands numVerts islands st) := by
  induction islands with
  | nil => exact fun st _ hinv => hinv
  | cons isl islands ih =>
      intro st hk hinv
      show ResInv numVerts idx0 v (resolveIslands numVerts islands
        (isl.foldl (fun s2 f => resolveFace numVerts s2 f) st))
      refine ih _ ?_ (foldFaces_inv hv hvn isl st ?_ hinv)
      · intro f hf
        exact hk f (by rw [List.flatten_cons]; exact List.mem_append_right _ hf)
      · intro f hf
        exact hk f (by rw [List.flatten_cons]; exact List.mem_append_left _ hf)

/-- Claim C4 (amended).  `packIslands` rewrites UVs through the island
lists' shared `Face` references.  When no face is referenced from two
islands, every referenced face ends with all its UVs inside
`[0,1] × [0,1]`.  But a face shared by two islands — as every deleted
face is, once two projection groups exist — receives both islands'
translate-and-scale maps in sequence, one per referencing box, so its
UVs are transformed once per containing island and are not confined to
the unit square.  And the output channel of `map` is not everywhere in
`[0,1]` either: a vertex referenced by no face corner keeps the `-1`
sentinel that the channel was initialised with, both in its slot and in
the final merged channel. -/
theorem map_uv_bounds (sqrtK : K → K) :
    (∀ (islRefs : List (List ℕ)) (store : List (Face K)),
        islRefs.flatten.Nodup →
        ∀ r ∈ islRefs.flatten, r < store.length →
          ∀ uv ∈ ((packIslands sqrtK islRefs store).1.getD r default).uv,
            0 ≤ uv.x ∧ uv.x ≤ 1 ∧ 0 ≤ uv.y ∧ uv.y ≤ 1) ∧
    (∀ (factor : K) (offsets : List (K × K)) (b1 b2 : BoxR K)
        (islRefs : List (List ℕ)) (store : List (Face K)) (r : ℕ),
        islRefs.getD b1.islandIdx [] = [r] →
        islRefs.getD b2.islandIdx [] = [r] →
        r < store.length →
        (applyBoxesStore factor offsets [b1, b2] islRefs store).getD r default
          = mapUv (boxTransform offsets factor b2)
              (mapUv (boxTransform offsets factor b1)
                (store.getD r default))) ∧
    (∀ (numVerts : ℕ) (idx0 : List ℕ) (islands : List (List (Face K))) (v : ℕ),
        v < numVerts → v ∉ idx0 →
        (∀ f ∈ islands.flatten, f.index + 2 < idx0.length) →
        (finalUvChannel (resolveIslands numVerts islands
          ⟨List.replicate (2 * numVerts) (-1), idx0, [], []⟩)).getD (v * 2) 0
          = -1) := by
  refine ⟨fun islRefs store hnd => packIslands_bounds sqrtK islRefs store hnd,
    ?_, ?_⟩
  · intro factor offsets b1 b2 islRefs store r h1 h2 hr
    show ((islRefs.getD b2.islandIdx []).foldl
      (fun s2 x =>
        s2.set x (mapUv (boxTransform offsets factor b2) (s2.getD x default)))
      ((islRefs.getD b1.islandIdx []).foldl
        (fun s2 x =>
          s2.set x (mapUv (boxTransform offsets factor b1) (s2.getD x default)))
        store)).getD r default = _
    rw [h1, h2]
    simp only [List.foldl_cons, List.foldl_nil]
    rw [getD_set_self2 _ _ _ _ (by rw [List.length_set]; exact hr),
      getD_set_self2 _ _ _ _ hr]
  · intro numVerts idx0 islands v hv hvn hks
    have hinit : ResInv numVerts idx0 v
        (⟨List.replicate (2 * numVerts) (-1), idx0, [], []⟩ : ResolveSt K) := by
      refine ⟨fun x hx => Or.inl hx, rfl, List.length_replicate _ _, ?_⟩
      show (List.replicate (2 * numVerts) (-1 : K)).getD (v * 2) 0 = -1
      rw [List.getD_eq_getElem _ _ (by rw [List.length_replicate]; omega)]
      exact List.getElem_replicate _ _
    obtain ⟨_, _, hulen, hsent⟩ :=
      resolveIslands_inv hv hvn islands _ hks hinit
    unfold finalUvChannel
    rw [List.getD_eq_getElem?_getD, List.getElem?_append_left (by omega),
      ← List.getD_eq_getElem?_getD]
    exact hsent

/-- Witness for `map_uv_bounds`: the single triangle `fA` referenced by
the one-island reference list `[[0]]` gets unit-square UVs, and vertex 1
of a two-vertex mesh with no faces keeps its sentinel. -/
theorem map_uv_bounds_witness :
    (([[0]] : List (List ℕ)).flatten.Nodup ∧ (0 : ℕ) < ([fA] : List (Face ℚ)).length ∧
      ∀ uv ∈ (((packIslands (fun q : ℚ => q) [[0]] [fA]).1.getD 0 default).uv),
        0 ≤ uv.x ∧ uv.x ≤ 1 ∧ 0 ≤ uv.y ∧ uv.y ≤ 1) ∧
    (1 < 2 ∧ (1 : ℕ) ∉ ([0] : List ℕ) ∧
      (finalUvChannel (resolveIslands 2 ([] : List (List (Face ℚ)))
        ⟨List.replicate 4 (-1), [0], [], []⟩)).getD 2 0 = -1) := by
  constructor
  · refine ⟨by decide, by norm_num, ?_⟩
    exact (map_uv_bounds (fun q : ℚ => q)).1 [[0]] [fA] (by decide) 0 (by decide)
      (by norm_num)
  · refine ⟨by norm_num, by norm_num, ?_⟩
    exact (map_uv_bounds (fun q : ℚ => q)).2.2 2 [0] [] 1 (by norm_num)
      (by norm_num) (fun f hf => absurd hf (List.not_mem_nil f))

/-- Claim C4 as stated is false: for a mesh of four vertices of which the
first three form the single triangle `fA`, the write-back assigns UVs to
vertices 0–2 but vertex 3's slots keep the `-1` sentinel, so not every
coordinate of the output channel lies in `[0, 1]`. -/
theorem map_uv_bounds_claim_counterexample :
    ¬ (∀ u ∈ finalUvChannel (resolveIslands 4 [[fA]]
        ⟨List.replicate 8 (-1 : ℚ), [0, 1, 2], [], []⟩), 0 ≤ u ∧ u ≤ 1) := by
  intro hall
  have heval : finalUvChannel (resolveIslands 4 [[fA]]
      ⟨List.replicate 8 (-1 : ℚ), [0, 1, 2], [], []⟩) =
      [0, 0, 1, 0, 0, 1, -1, -1] := by
    show finalUvChannel (resolveIslands 4 [[fA]]
      ⟨[-1, -1, -1, -1, -1, -1, -1, -1], [0, 1, 2], [], []⟩) = _
    norm_num [finalUvChannel, resolveIslands, resolveFace, resolveCorner, fA]
  have hm : (-1 : ℚ) ∈ finalUvChannel (resolveIslands 4 [[fA]]
      ⟨List.replicate 8 (-1 : ℚ), [0, 1, 2], [], []⟩) := by
    rw [heval]
    norm_num
  have hc := hall (-1) hm
  norm_num at hc

end PackIslandsProofs

/-! ## Seam resolution invariants (`UvMapper.map`, source lines 1507–1542) -/

/-- The three corners of a face, as (face, corner) pairs. -/
def cornersOf (f : Face K) : List (Face K × ℕ) := [(f, 0), (f, 1), (f, 2)]

/-- The index-buffer slot a corner owns. -/
def slotOf (c : Face K × ℕ) : ℕ := c.1.index + c.2

/-- The initial per-mesh state of the write-back loop (lines 1494–1505):
the channel all `-1`, the original index buffer, no additional
vertices. -/
def initSt (numVerts : ℕ) (idx0 : List ℕ) : ResolveSt K :=
  ⟨List.replicate (2 * numVerts) (-1), idx0, [], []⟩

/-- The UV the output mesh carries for vertex reference `i`: a base
vertex reads the channel's two slots, an additional vertex reads the
appended list. -/
def uvAt (numVerts : ℕ) (st : ResolveSt K) (i : ℕ) : Pt2 K :=
  if i < numVerts then ⟨st.newUvs.getD (i * 2) 0, st.newUvs.getD (i * 2 + 1) 0⟩
  else st.addUvs.getD (i - numVerts) ⟨0, 0⟩

section SeamProofs

lemma getD_mem_of_lt {α : Type} (l : List α) (i : ℕ) (d : α)
    (h : i < l.length) : l.getD i d ∈ l := by
  rw [List.getD_eq_getElem _ _ h]
  exact List.getElem_mem _

lemma getD_concat_self {α : Type} (l : List α) (a d : α) :
    (l ++ [a]).getD l.length d = a := by
  rw [List.getD_eq_getElem?_getD, List.getElem?_concat_length]
  rfl

lemma getD_append_left {α : Type} (l l' : List α) (i : ℕ) (d : α)
    (h : i < l.length) : (l ++ l').getD i d = l.getD i d := by
  rw [List.getD_eq_getElem?_getD, List.getElem?_append_left h,
    ← List.getD_eq_getElem?_getD]

/-- Invariant of the corner-by-corner write-back: already processed
corners read back exactly their UV; index values are original or point
into the additional list; lengths are fixed; untouched slots still hold
the original index. -/
structure CINV (numVerts : ℕ) (idx0 : List ℕ)
    (done : List (Face K × ℕ)) (st : ResolveSt K) : Prop where
  look : ∀ c ∈ done,
    uvAt numVerts st (st.indices.getD (slotOf c) 0) = c.1.uv.getD c.2 ⟨0, 0⟩
  ivals : ∀ x ∈ st.indices,
    x ∈ idx0 ∨ (numVerts ≤ x ∧ x - numVerts < st.addUvs.length)
  ilen : st.indices.length = idx0.length
  ulen : st.newUvs.length = 2 * numVerts
  fresh : ∀ s : ℕ, (∀ c ∈ done, slotOf c ≠ s) →
    st.indices.getD s 0 = idx0.getD s 0

lemma resolveCorner_consist {numVerts : ℕ} {idx0 : List ℕ}
    {done : List (Face K × ℕ)} {st : ResolveSt K} {f : Face K} {k : ℕ}
    (hfresh : ∀ c ∈ done, slotOf c ≠ f.index + k)
    (hlt : f.index + k < idx0.length)
    (hidx : ∀ x ∈ idx0, x < numVerts)
    (hduv : ∀ c ∈ done, 0 ≤ (c.1.uv.getD c.2 ⟨0, 0⟩).x)
    (hinv : CINV numVerts idx0 done st) :
    CINV numVerts idx0 (done ++ [(f, k)]) (resolveCorner numVerts st f k) := by
  have hilt : f.index + k < st.indices.length := by
    rw [hinv.ilen]
    exact hlt
  have hvio : st.indices.getD (f.index + k) 0 = idx0.getD (f.index + k) 0 :=
    hinv.fresh _ hfresh
  have hvim : idx0.getD (f.index + k) 0 ∈ idx0 := getD_mem_of_lt _ _ _ hlt
  have hvilt : st.indices.getD (f.index + k) 0 < numVerts := by
    rw [hvio]
    exact hidx _ hvim
  unfold resolveCorner
  dsimp only
  split
  · -- assign branch
    rename_i hneg
    refine ⟨?_, hinv.ivals, hinv.ilen, ?_, ?_⟩
    · intro c hc
      rcases List.mem_append.1 hc with hcd | hcn
      · -- an old corner is undisturbed
        have hold := hinv.look c hcd
        show uvAt numVerts _ (st.indices.getD (slotOf c) 0) = _
        unfold uvAt at hold ⊢
        dsimp only
        by_cases hvj : st.indices.getD (slotOf c) 0 < numVerts
        · rw [if_pos hvj] at hold ⊢
          have hxge := hduv c hcd
          rw [← hold] at hxge
          have hvij : st.indices.getD (slotOf c) 0 ≠
              st.indices.getD (f.index + k) 0 := by
            intro he
            rw [he] at hxge
            dsimp only at hxge
            exact absurd hneg (not_lt.2 hxge)
          rw [getD_set_ne2 _ _ _ _ _ (by omega), getD_set_ne2 _ _ _ _ _ (by omega),
            getD_set_ne2 _ _ _ _ _ (by omega), getD_set_ne2 _ _ _ _ _ (by omega)]
          exact hold
        · rw [if_neg hvj] at hold ⊢
          exact hold
      · -- the new corner reads back its uv
        rw [List.mem_singleton] at hcn
        subst hcn
        show uvAt numVerts _ (st.indices.getD (f.index + k) 0) = _
        unfold uvAt
        dsimp only
        rw [if_pos hvilt]
        have hl2 : st.indices.getD (f.index + k) 0 * 2 < st.newUvs.length := by
          rw [hinv.ulen]
          omega
        have hl21 : st.indices.getD (f.index + k) 0 * 2 + 1 <
            (st.newUvs.set (st.indices.getD (f.index + k) 0 * 2)
              (f.uv.getD k ⟨0, 0⟩).x).length := by
          rw [List.length_set, hinv.ulen]
          omega
        rw [getD_set_ne2 _ _ _ _ _ (by omega), getD_set_self2 _ _ _ _ hl2,
          getD_set_self2 _ _ _ _ hl21]
    · rw [List.length_set, List.length_set]
      exact hinv.ulen
    · intro s hs
      exact hinv.fresh s (fun c hc => hs c (List.mem_append_left _ hc))
  · -- seam branch
    rename_i hpos
    split
    · -- an equal additional vertex exists
      rename_i h heq
      have hpred := List.find?_some heq
      have hhm := List.mem_of_find?_eq_some heq
      rw [List.mem_range] at hhm
      have hprop : st.addUvs.getD h ⟨0, 0⟩ = f.uv.getD k ⟨0, 0⟩ ∧
          st.addVerts.getD h ⟨0, 0, 0⟩ = (f.v.getD k (⟨0, 0, 0⟩, 0)).1 := by
        simpa using hpred
      refine ⟨?_, ?_, ?_, hinv.ulen, ?_⟩
      · intro c hc
        rcases List.mem_append.1 hc with hcd | hcn
        · have hold := hinv.look c hcd
          show uvAt numVerts _ ((st.indices.set (f.index + k) (h + numVerts)).getD
            (slotOf c) 0) = _
          rw [getD_set_ne2 _ _ _ _ _ (fun he => hfresh c hcd he.symm)]
          exact hold
        · rw [List.mem_singleton] at hcn
          subst hcn
          show uvAt numVerts _ ((st.indices.set (f.index + k) (h + numVerts)).getD
            (f.index + k) 0) = _
          rw [getD_set_self2 _ _ _ _ hilt]
          unfold uvAt
          rw [if_neg (by omega), Nat.add_sub_cancel]
          exact hprop.1
      · intro x hx
        rcases List.mem_cons.1
            ((perm_set_eraseIdx st.indices (f.index + k) hilt _).mem_iff.1 hx) with
          rfl | hx2
        · right
          constructor
          · omega
          · rw [Nat.add_sub_cancel]
            exact hhm
        · exact hinv.ivals x ((List.eraseIdx_sublist _ _).subset hx2)
      · rw [List.length_set]
        exact hinv.ilen
      · intro s hs
        show (st.indices.set (f.index + k) (h + numVerts)).getD s 0 = idx0.getD s 0
        have hnes : f.index + k ≠ s :=
          hs (f, k) (List.mem_append_right _ (List.mem_singleton_self _))
        rw [getD_set_ne2 _ _ _ _ _ hnes]
        exact hinv.fresh s (fun c hc => hs c (List.mem_append_left _ hc))
    · -- no equal additional vertex: append one
      rename_i heq
      refine ⟨?_, ?_, ?_, hinv.ulen, ?_⟩
      · intro c hc
        rcases List.mem_append.1 hc with hcd | hcn
        · have hold := hinv.look c hcd
          show uvAt numVerts
            (⟨st.newUvs, st.indices.set (f.index + k) (st.addUvs.length + numVerts),
              st.addUvs ++ [f.uv.getD k ⟨0, 0⟩],
              st.addVerts ++ [(f.v.getD k (⟨0, 0, 0⟩, 0)).1]⟩ : ResolveSt K)
            ((st.indices.set (f.index + k) (st.addUvs.length + numVerts)).getD
              (slotOf c) 0) = _
          rw [getD_set_ne2 _ _ _ _ _ (fun he => hfresh c hcd he.symm)]
          unfold uvAt at hold ⊢
          dsimp only
          by_cases hvj : st.indices.getD (slotOf c) 0 < numVerts
          · rw [if_pos hvj] at hold ⊢
            exact hold
          · rw [if_neg hvj] at hold ⊢
            have hb : st.indices.getD (slotOf c) 0 - numVerts <
                st.addUvs.length := by
              have hmem : st.indices.getD (slotOf c) 0 ∈ st.indices := by
                refine getD_mem_of_lt _ _ _ ?_
                by_contra hge
                rw [List.getD_eq_default _ _ (by omega)] at hvj
                exact hvj (by omega)
              rcases hinv.ivals _ hmem with h0 | h0
              · exact absurd (hidx _ h0) hvj
              · exact h0.2
            rw [getD_append_left _ _ _ _ hb]
            exact hold
        · rw [List.mem_singleton] at hcn
          subst hcn
          show uvAt numVerts
            (⟨st.newUvs, st.indices.set (f.index + k) (st.addUvs.length + numVerts),
              st.addUvs ++ [f.uv.getD k ⟨0, 0⟩],
              st.addVerts ++ [(f.v.getD k (⟨0, 0, 0⟩, 0)).1]⟩ : ResolveSt K)
            ((st.indices.set (f.index + k) (st.addUvs.length + numVerts)).getD
              (f.index + k) 0) = _
          rw [getD_set_self2 _ _ _ _ hilt]
          unfold uvAt
          rw [if_neg (by omega), Nat.add_sub_cancel]
          exact getD_concat_self _ _ _
      · intro x hx
        rcases List.mem_cons.1
            ((perm_set_eraseIdx st.indices (f.index + k) hilt _).mem_iff.1 hx) with
          rfl | hx2
        · right
          refine ⟨by omega, ?_⟩
          rw [Nat.add_sub_cancel, List.length_append, List.length_singleton]
          omega
        · rcases hinv.ivals x ((List.eraseIdx_sublist _ _).subset hx2) with h0 | h0
          · exact Or.inl h0
          · refine Or.inr ⟨h0.1, ?_⟩
            rw [List.length_append, List.length_singleton]
            omega
      · rw [List.length_set]
        exact hinv.ilen
      · intro s hs
        show (st.indices.set (f.index + k) (st.addUvs.length + numVerts)).getD s 0 =
          idx0.getD s 0
        have hnes : f.index + k ≠ s :=
          hs (f, k) (List.mem_append_right _ (List.mem_singleton_self _))
        rw [getD_set_ne2 _ _ _ _ _ hnes]
        exact hinv.fresh s (fun c hc => hs c (List.mem_append_left _ hc))

lemma resolveCorners_consist {numVerts : ℕ} {idx0 : List ℕ}
    (hidx : ∀ x ∈ idx0, x < numVerts) (pending : List (Face K × ℕ)) :
    ∀ (done : List (Face K × ℕ)) (st : ResolveSt K),
      ((done ++ pending).map slotOf).Nodup →
      (∀ c ∈ done ++ pending, slotOf c < idx0.length ∧
        0 ≤ (c.1.uv.getD c.2 ⟨0, 0⟩).x) →
      CINV numVerts idx0 done st →
      CINV numVerts idx0 (done ++ pending)
        (pending.foldl (fun s c => resolveCorner numVerts s c.1 c.2) st) := by
  induction pending with
  | nil =>
      intro done st _ _ hinv
      rw [List.append_nil]
      exact hinv
  | cons c pending ih =>
      intro done st hnd hc hinv
      rw [List.foldl_cons]
      have hstep : CINV numVerts idx0 (done ++ [c])
          (resolveCorner numVerts st c.1 c.2) := by
        obtain ⟨cf, ck⟩ := c
        refine resolveCorner_consist ?_ ?_ hidx ?_ hinv
        · intro c' hc' he
          have h1 : slotOf c' ∈ (done.map slotOf) := List.mem_map_of_mem _ hc'
          have hnd' := hnd
          rw [List.map_append, List.map_cons, List.nodup_append] at hnd'
          exact hnd'.2.2 h1 (by rw [he]; exact List.mem_cons_self _ _)
        · exact (hc (cf, ck) (List.mem_append_right _ (List.mem_cons_self _ _))).1
        · intro c' hc'
          exact (hc c' (List.mem_append_left _ hc')).2
      have hre : done ++ c :: pending = (done ++ [c]) ++ pending := by
        rw [List.append_assoc, List.singleton_append]
      rw [hre]
      refine ih (done ++ [c]) _ ?_ ?_ hstep
      · rw [← hre]
        exact hnd
      · rw [← hre]
        exact hc

lemma foldl_corners_face (numVerts : ℕ) (fs : List (Face K)) :
    ∀ st : ResolveSt K,
      (fs.flatMap cornersOf).foldl
          (fun s c => resolveCorner numVerts s c.1 c.2) st =
        fs.foldl (fun s f => resolveFace numVerts s f) st := by
  induction fs with
  | nil => exact fun st => rfl
  | cons f fs ih =>
      intro st
      rw [show (f :: fs).flatMap cornersOf =
        cornersOf f ++ fs.flatMap cornersOf from rfl, List.foldl_append,
        List.foldl_cons]
      exact ih _

lemma resolveIslands_eq_corners (numVerts : ℕ) (islands : List (List (Face K))) :
    ∀ st : ResolveSt K,
      resolveIslands numVerts islands st =
        ((islands.flatten.flatMap cornersOf).foldl
          (fun s c => resolveCorner numVerts s c.1 c.2) st) := by
  induction islands with
  | nil => exact fun st => rfl
  | cons isl islands ih =>
      intro st
      show resolveIslands numVerts islands
        (isl.foldl (fun s2 f => resolveFace numVerts s2 f) st) = _
      rw [List.flatten_cons, List.flatMap_append, List.foldl_append,
        foldl_corners_face numVerts isl st]
      exact ih _

/-- Claim C2 (amended).  Under the mesh well-formedness hypotheses
(corner slots pairwise distinct and in range, original indices within the
vertex count, nonnegative UV x-coordinates — all true of the values the
packer produces), the write-back is consistent: every corner's final
index reads back exactly that corner's UV, every index stays a valid
reference below `numVerts` plus the number of additional vertices, and
two corners with different UVs end at different indices (the seam is
split).  The claim's no-duplication half is refuted separately: a second
reference to a vertex is redirected to an additional vertex even when
the UVs agree. -/
theorem seam_resolution (numVerts : ℕ) (idx0 : List ℕ)
    (islands : List (List (Face K)))
    (hnd : ((islands.flatten.flatMap cornersOf).map slotOf).Nodup)
    (hrange : ∀ c ∈ islands.flatten.flatMap cornersOf, slotOf c < idx0.length)
    (hidx : ∀ x ∈ idx0, x < numVerts)
    (huv : ∀ c ∈ islands.flatten.flatMap cornersOf,
      0 ≤ (c.1.uv.getD c.2 ⟨0, 0⟩).x) :
    (∀ c ∈ islands.flatten.flatMap cornersOf,
      uvAt numVerts (resolveIslands numVerts islands (initSt numVerts idx0))
        ((resolveIslands numVerts islands (initSt numVerts idx0)).indices.getD
          (slotOf c) 0) = c.1.uv.getD c.2 ⟨0, 0⟩) ∧
    (∀ x ∈ (resolveIslands numVerts islands (initSt numVerts idx0)).indices,
      x < numVerts +
        (resolveIslands numVerts islands (initSt numVerts idx0)).addUvs.length) ∧
    (∀ c ∈ islands.flatten.flatMap cornersOf,
      ∀ c' ∈ islands.flatten.flatMap cornersOf,
      c.1.uv.getD c.2 ⟨0, 0⟩ ≠ c'.1.uv.getD c'.2 ⟨0, 0⟩ →
      (resolveIslands numVerts islands (initSt numVerts idx0)).indices.getD
          (slotOf c) 0 ≠
        (resolveIslands numVerts islands (initSt numVerts idx0)).indices.getD
          (slotOf c') 0) := by
  have hinit : CINV numVerts idx0 [] (initSt numVerts idx0 : ResolveSt K) := by
    refine ⟨fun c hc => absurd hc (List.not_mem_nil c),
      fun x hx => Or.inl hx, rfl, List.length_replicate _ _,
      fun s _ => rfl⟩
  have hfin := resolveCorners_consist hidx (islands.flatten.flatMap cornersOf)
    [] (initSt numVerts idx0) (by rw [List.nil_append]; exact hnd)
    (by
      rw [List.nil_append]
      exact fun c hc => ⟨hrange c hc, huv c hc⟩) hinit
  rw [List.nil_append] at hfin
  rw [resolveIslands_eq_corners]
  refine ⟨hfin.look, ?_, ?_⟩
  · intro x hx
    rcases hfin.ivals x hx with h0 | h0
    · have := hidx x h0
      omega
    · omega
  · intro c hc c' hc' hne heq
    have h1 := hfin.look c hc
    have h2 := hfin.look c' hc'
    rw [heq, h2] at h1
    exact hne h1.symm

/-- Witness for `seam_resolution`: the single triangle `fA` over a
four-vertex mesh; its first corner reads back its UV `(0, 0)`. -/
theorem seam_resolution_witness :
    uvAt 4 (resolveIslands 4 [[fA]] (initSt 4 [0, 1, 2]))
      ((resolveIslands 4 [[fA]] (initSt 4 [0, 1, 2])).indices.getD
        (slotOf (fA, 0)) 0) = fA.uv.getD 0 ⟨0, 0⟩ := by
  refine (seam_resolution 4 [0, 1, 2] [[fA]] ?_ ?_ ?_ ?_).1 (fA, 0) ?_
  · show ([(fA, 0), (fA, 1), (fA, 2)].map slotOf).Nodup
    show ([fA.index + 0, fA.index + 1, fA.index + 2] : List ℕ).Nodup
    norm_num [fA]
  · intro c hc
    have hc' : c ∈ [(fA, 0), (fA, 1), (fA, 2)] := hc
    show c.1.index + c.2 < 3
    rcases List.mem_cons.1 hc' with rfl | hc2
    · norm_num [fA]
    rcases List.mem_cons.1 hc2 with rfl | hc3
    · norm_num [fA]
    rcases List.mem_cons.1 hc3 with rfl | hc4
    · norm_num [fA]
    · exact absurd hc4 (List.not_mem_nil c)
  · intro x hx
    rcases List.mem_cons.1 hx with rfl | hx2
    · norm_num
    rcases List.mem_cons.1 hx2 with rfl | hx3
    · norm_num
    rcases List.mem_cons.1 hx3 with rfl | hx4
    · norm_num
    · exact absurd hx4 (List.not_mem_nil x)
  · intro c hc
    have hc' : c ∈ [(fA, 0), (fA, 1), (fA, 2)] := hc
    rcases List.mem_cons.1 hc' with rfl | hc2
    · norm_num [fA]
    rcases List.mem_cons.1 hc2 with rfl | hc3
    · norm_num [fA]
    rcases List.mem_cons.1 hc3 with rfl | hc4
    · norm_num [fA]
    · exact absurd hc4 (List.not_mem_nil c)
  · show (fA, 0) ∈ [(fA, 0), (fA, 1), (fA, 2)]
    exact List.mem_cons_self _ _

/-- A second triangle sharing mesh vertices 1 and 2 with `fA`, with the
same UVs at those vertices (triangle offset 3, third vertex fresh). -/
def fS : Face ℚ where
  meshIndex := 0
  index := 3
  v := [(⟨1, 0, 0⟩, 1), (⟨0, 1, 0⟩, 2), (⟨3, 3, 0⟩, 3)]
  uv := [⟨1, 0⟩, ⟨0, 1⟩, ⟨0, 0⟩]
  vAttrs := []
  no := ⟨0, 0, 1⟩
  area := 2
  edgeKeys := [(0, 1, 2), (0, 2, 3), (0, 1, 3)]

/-- Claim C2's no-duplication half is false on the code: `fS` agrees with
`fA` on the UVs of their shared vertices 1 and 2, yet the write-back
creates two additional vertices for them (`addUvs` repeats the UVs the
base slots already hold) and redirects `fS`'s corners to fresh indices 4
and 5. -/
theorem seam_resolution_claim_counterexample :
    (resolveIslands 4 [[fA, fS]] (initSt 4 [0, 1, 2, 1, 2, 3])).addUvs =
        [⟨1, 0⟩, ⟨0, 1⟩] ∧
      (resolveIslands 4 [[fA, fS]] (initSt 4 [0, 1, 2, 1, 2, 3])).indices =
        [0, 1, 2, 4, 5, 3] ∧
      fS.uv.getD 0 ⟨0, 0⟩ = fA.uv.getD 1 ⟨0, 0⟩ ∧
      fS.uv.getD 1 ⟨0, 0⟩ = fA.uv.getD 2 ⟨0, 0⟩ := by
  have heval : resolveIslands 4 [[fA, fS]] (initSt 4 [0, 1, 2, 1, 2, 3]) =
      ⟨[0, 0, 1, 0, 0, 1, 0, 0], [0, 1, 2, 4, 5, 3],
        [⟨1, 0⟩, ⟨0, 1⟩], [⟨1, 0, 0⟩, ⟨0, 1, 0⟩]⟩ := by
    show resolveIslands 4 [[fA, fS]]
      ⟨[-1, -1, -1, -1, -1, -1, -1, -1], [0, 1, 2, 1, 2, 3], [], []⟩ = _
    rfl
  rw [heval]
  refine ⟨rfl, rfl, rfl, rfl⟩

end SeamProofs

/-! ## Projection-vector gathering (`UvMapper.map`, source lines 1336–1431)

The per-mesh phase sorts the faces by area (descending), pops trailing
degenerate faces (area ≤ `SMALL_NUM`) into `deletedFaces` with their UVs
zeroed, skips the mesh if nothing remains, and otherwise gathers
projection vectors in a `while (true)` loop.  The loop is embedded with
explicit fuel because its `break` sits behind `projectVecs.length`: a
state that produces no vector loops forever (`none`).
`userAreaWeight = 0` (the default) selects the plain normal sum. -/

/-- The degenerate-face pop of lines 1344–1350, over the REVERSED sorted
face list (the source pops from the end): returns (kept-reversed,
deleted in pop order), the popped faces' UVs zeroed. -/
def popDegenRev : List (Face K) → List (Face K) × List (Face K)
  | [] => ([], [])
  | f :: rest =>
      if f.area ≤ SMALL_NUM then
        ((popDegenRev rest).1,
          mapUv (fun _ => ⟨0, 0⟩) f :: (popDegenRev rest).2)
      else (f :: rest, [])

/-- Lines 1342–1350: sort by area descending, then pop trailing
degenerate faces; returns (kept faces in order, popped faces). -/
def popDegen (faces : List (Face K)) : List (Face K) × List (Face K) :=
  ((popDegenRev (faces.insertionSort (fun a b => b.area ≤ a.area)).reverse).1.reverse,
    (popDegenRev (faces.insertionSort (fun a b => b.area ≤ a.area)).reverse).2)

/-- `averageVec.normalize()`. -/
def normalize3 (sqrtK : K → K) (v : Pt3 K) : Pt3 K :=
  scale3 v (1 / sqrtK (dot3 v v))

/-- Lines 1539–1547 of the gather loop's second `for`: the closest
projection vector's angle to a face normal, seeded with `-1`. -/
def angleDiff (vecs : List (Pt3 K)) (f : Face K) : K :=
  vecs.foldl (fun m p => max m (dot3 p f.no)) (-1)

/-- Lines 1395–1416: the face of `temp` (scanned from the end) whose
closest projection vector is farthest, as (angle, index), seeded
`(1, 0)`. -/
def mostUnique (vecs : List (Pt3 K)) (temp : List (Face K)) : K × ℕ :=
  ((List.range temp.length).reverse).foldl
    (fun mu i =>
      if angleDiff vecs (temp.getD i default) < mu.1
      then (angleDiff vecs (temp.getD i default), i) else mu)
    (1, 0)

/-- The `while (true)` loop of lines 1365–1424: split off the faces
within the half-limit cone of the seed (the backwards splice keeps the
rest in order and pushes the group reversed), push the normalised
average when nonzero, then either recurse on the most unique remaining
face or exit when a vector exists.  `none` is the loop running out of
fuel, which the source does forever. -/
def gatherLoop (fuel : ℕ) (sqrtK : K → K) (PLHC PLC : K)
    (temp npmf : List (Face K)) (seed : Pt3 K) (vecs : List (Pt3 K)) :
    Option (List (Pt3 K)) :=
  match fuel with
  | 0 => none
  | fuel + 1 =>
      let grp := (temp.filter (fun f => PLHC < dot3 seed f.no)).reverse
      let rest := temp.filter (fun f => ¬ PLHC < dot3 seed f.no)
      let npmf2 := npmf ++ grp
      let avg := npmf2.foldl (fun a f => add3 a f.no) ⟨0, 0, 0⟩
      let vecs2 := if avg.x ≠ 0 ∨ avg.y ≠ 0 ∨ avg.z ≠ 0
        then vecs ++ [normalize3 sqrtK avg] else vecs
      let mu := mostUnique vecs2 rest
      if mu.1 < PLC then
        gatherLoop fuel sqrtK PLHC PLC (rest.eraseIdx mu.2)
          [rest.getD mu.2 default] (rest.getD mu.2 default).no vecs2
      else if vecs2 ≠ [] then some vecs2
      else gatherLoop fuel sqrtK PLHC PLC rest npmf2 seed vecs2

/-- Lines 1357–1363 then the loop: seed with the first face's normal. -/
def gatherStart (sqrtK : K → K) (PLHC PLC : K) (faces : List (Face K)) :
    Option (List (Pt3 K)) :=
  gatherLoop (faces.length + 1) sqrtK PLHC PLC faces [] (faces.getD 0 default).no []

section GatherProofs

lemma mostUnique_lt {vecs : List (Pt3 K)} {temp : List (Face K)}
    (h : (mostUnique vecs temp).1 < 1) :
    (mostUnique vecs temp).2 < temp.length := by
  have hgen : ∀ (l : List ℕ), (∀ i ∈ l, i < temp.length) →
      ∀ mu : K × ℕ, (mu.1 < 1 → mu.2 < temp.length) →
      ((l.foldl (fun mu i =>
        if angleDiff vecs (temp.getD i default) < mu.1
        then (angleDiff vecs (temp.getD i default), i) else mu) mu).1 < 1 →
      (l.foldl (fun mu i =>
        if angleDiff vecs (temp.getD i default) < mu.1
        then (angleDiff vecs (temp.getD i default), i) else mu) mu).2 <
        temp.length) := by
    intro l
    induction l with
    | nil => exact fun _ mu hmu => hmu
    | cons i l ih =>
        intro hl mu hmu
        rw [List.foldl_cons]
        refine ih (fun j hj => hl j (List.mem_cons_of_mem _ hj)) _ ?_
        by_cases hc : angleDiff vecs (temp.getD i default) < mu.1
        · rw [if_pos hc]
          exact fun _ => hl i (List.mem_cons_self _ _)
        · rw [if_neg hc]
          exact hmu
  unfold mostUnique at h ⊢
  exact hgen _ (fun i hi => by
      rw [List.mem_reverse, List.mem_range] at hi
      exact hi)
    (1, 0) (fun h1 => absurd h1 (lt_irrefl _)) h

lemma dot3_foldl (s : Pt3 K) (l : List (Face K)) :
    ∀ a : Pt3 K, dot3 s (l.foldl (fun a f => add3 a f.no) a) =
      l.foldl (fun t f => t + dot3 s f.no) (dot3 s a) := by
  induction l with
  | nil => exact fun a => rfl
  | cons f l ih =>
      intro a
      rw [List.foldl_cons, List.foldl_cons, ih]
      have hd : dot3 s (add3 a f.no) = dot3 s a + dot3 s f.no := by
        unfold dot3 add3
        dsimp only
        ring
      rw [hd]

lemma foldl_add_ge (s : Pt3 K) (l : List (Face K)) :
    ∀ t : K, (∀ f ∈ l, 0 ≤ dot3 s f.no) →
      t ≤ l.foldl (fun t f => t + dot3 s f.no) t := by
  induction l with
  | nil => exact fun t _ => le_refl t
  | cons f l ih =>
      intro t hl
      rw [List.foldl_cons]
      have h1 : (0 : K) ≤ dot3 s f.no := hl f (List.mem_cons_self _ _)
      have h2 := ih (t + dot3 s f.no) (fun g hg => hl g (List.mem_cons_of_mem _ hg))
      linarith

lemma foldl_add_pos (s : Pt3 K) (l : List (Face K)) (hne : l ≠ [])
    (hl : ∀ f ∈ l, 0 < dot3 s f.no) :
    0 < l.foldl (fun t f => t + dot3 s f.no) 0 := by
  cases l with
  | nil => exact absurd rfl hne
  | cons f l =>
      rw [List.foldl_cons]
      have h1 : (0 : K) < dot3 s f.no := hl f (List.mem_cons_self _ _)
      have h2 := foldl_add_ge s l (0 + dot3 s f.no)
        (fun g hg => le_of_lt (hl g (List.mem_cons_of_mem _ hg)))
      linarith

lemma gatherLoop_some_ne {sqrtK : K → K} {PLHC PLC : K} :
    ∀ (fuel : ℕ) (temp npmf : List (Face K)) (seed : Pt3 K)
      (vecs v : List (Pt3 K)),
      gatherLoop fuel sqrtK PLHC PLC temp npmf seed vecs = some v → v ≠ [] := by
  intro fuel
  induction fuel with
  | zero =>
      intro temp npmf seed vecs v hv
      exact Option.noConfusion hv
  | succ fuel ih =>
      intro temp npmf seed vecs v hv
      unfold gatherLoop at hv
      dsimp only at hv
      split at hv
      · split at hv
        · exact ih _ _ _ _ _ hv
        · split at hv
          · rename_i hne
            rw [← Option.some.inj hv]
            exact hne
          · exact ih _ _ _ _ _ hv
      · split at hv
        · exact ih _ _ _ _ _ hv
        · split at hv
          · rename_i hne
            rw [← Option.some.inj hv]
            exact hne
          · exact ih _ _ _ _ _ hv

lemma gatherLoop_some (sqrtK : K → K) (PLHC PLC : K) (hPLC : PLC ≤ 1) :
    ∀ (fuel : ℕ) (temp npmf : List (Face K)) (seed : Pt3 K)
      (vecs : List (Pt3 K)), vecs ≠ [] → temp.length < fuel →
      ∃ v, gatherLoop fuel sqrtK PLHC PLC temp npmf seed vecs = some v := by
  intro fuel
  induction fuel with
  | zero =>
      intro temp npmf seed vecs _ hlen
      exact absurd hlen (Nat.not_lt_zero _)
  | succ fuel ih =>
      intro temp npmf seed vecs hv hlen
      unfold gatherLoop
      dsimp only
      have hfl := List.length_filter_le
        (fun f => decide (¬ PLHC < dot3 seed f.no)) temp
      have hv2 : (if ((npmf ++ (temp.filter
            (fun f => PLHC < dot3 seed f.no)).reverse).foldl
              (fun a f => add3 a f.no) ⟨0, 0, 0⟩).x ≠ 0 ∨
          ((npmf ++ (temp.filter (fun f => PLHC < dot3 seed f.no)).reverse).foldl
              (fun a f => add3 a f.no) ⟨0, 0, 0⟩).y ≠ 0 ∨
          ((npmf ++ (temp.filter (fun f => PLHC < dot3 seed f.no)).reverse).foldl
              (fun a f => add3 a f.no) ⟨0, 0, 0⟩).z ≠ 0
        then vecs ++ [normalize3 sqrtK ((npmf ++ (temp.filter
            (fun f => PLHC < dot3 seed f.no)).reverse).foldl
              (fun a f => add3 a f.no) ⟨0, 0, 0⟩)]
        else vecs) ≠ [] := by
        split
        · intro hh
          exact List.noConfusion (List.append_eq_nil.1 hh).2
        · exact hv
      generalize hg : (if ((npmf ++ (temp.filter
            (fun f => PLHC < dot3 seed f.no)).reverse).foldl
              (fun a f => add3 a f.no) ⟨0, 0, 0⟩).x ≠ 0 ∨
          ((npmf ++ (temp.filter (fun f => PLHC < dot3 seed f.no)).reverse).foldl
              (fun a f => add3 a f.no) ⟨0, 0, 0⟩).y ≠ 0 ∨
          ((npmf ++ (temp.filter (fun f => PLHC < dot3 seed f.no)).reverse).foldl
              (fun a f => add3 a f.no) ⟨0, 0, 0⟩).z ≠ 0
        then vecs ++ [normalize3 sqrtK ((npmf ++ (temp.filter
            (fun f => PLHC < dot3 seed f.no)).reverse).foldl
              (fun a f => add3 a f.no) ⟨0, 0, 0⟩)]
        else vecs) = V at hv2 ⊢
      by_cases hc1 : (mostUnique V
          (temp.filter (fun f => ¬ PLHC < dot3 seed f.no))).1 < PLC
      · rw [if_pos hc1]
        refine ih _ _ _ _ hv2 ?_
        have hmu := mostUnique_lt (lt_of_lt_of_le hc1 hPLC)
        rw [List.length_eraseIdx, if_pos hmu]
        omega
      · rw [if_neg hc1, if_pos hv2]
        exact ⟨_, rfl⟩

/-- Claim C8 (amended).  Whenever the gather loop exits, it has produced
at least one projection vector — so the `projectVecs.length === 0` log
branch after the loop is unreachable; and for every nonempty face list
with unit normals (what survives the degenerate pop) the loop terminates
within `faces.length + 1` rounds with such a nonempty vector list.  The
all-degenerate mesh, for its part, is skipped before this loop without
any log (refuting the claim's "logs and skips"). -/
theorem projection_vectors (sqrtK : K → K) (PLHC PLC : K) :
    (∀ (fuel : ℕ) (temp npmf : List (Face K)) (seed : Pt3 K)
        (vecs v : List (Pt3 K)),
        gatherLoop fuel sqrtK PLHC PLC temp npmf seed vecs = some v → v ≠ []) ∧
    (∀ faces : List (Face K), faces ≠ [] →
        (∀ f ∈ faces, dot3 f.no f.no = 1) → 0 ≤ PLHC → PLHC < 1 → PLC ≤ 1 →
        ∃ v, gatherStart sqrtK PLHC PLC faces = some v ∧ v ≠ []) := by
  refine ⟨fun fuel => gatherLoop_some_ne fuel, ?_⟩
  intro faces hne hunit hP0 hP1 hPLC
  have h0lt : 0 < faces.length := List.length_pos.2 hne
  have h0m : faces.getD 0 default ∈ faces := getD_mem_of_lt _ _ _ h0lt
  have hp0 : PLHC < dot3 (faces.getD 0 default).no (faces.getD 0 default).no := by
    rw [hunit _ h0m]
    exact hP1
  have hg0 : faces.getD 0 default ∈ faces.filter
      (fun f => PLHC < dot3 (faces.getD 0 default).no f.no) :=
    List.mem_filter.2 ⟨h0m, decide_eq_true hp0⟩
  have hgrpne : (faces.filter
      (fun f => PLHC < dot3 (faces.getD 0 default).no f.no)).reverse ≠ [] := by
    rw [ne_eq, List.reverse_eq_nil_iff]
    exact List.ne_nil_of_mem hg0
  have hpos : 0 < dot3 (faces.getD 0 default).no
      ((([] : List (Face K)) ++ (faces.filter
        (fun f => PLHC < dot3 (faces.getD 0 default).no f.no)).reverse).foldl
          (fun a f => add3 a f.no) (⟨0, 0, 0⟩ : Pt3 K)) := by
    rw [dot3_foldl]
    have hz : dot3 (faces.getD 0 default).no (⟨0, 0, 0⟩ : Pt3 K) = 0 := by
      unfold dot3
      dsimp only
      ring
    rw [hz]
    refine foldl_add_pos _ _ ?_ ?_
    · rw [List.nil_append]
      exact hgrpne
    · intro f hf
      rw [List.nil_append, List.mem_reverse] at hf
      have hpf := (List.mem_filter.1 hf).2
      rw [decide_eq_true_eq] at hpf
      linarith
  have hcond : (((([] : List (Face K)) ++ (faces.filter
        (fun f => PLHC < dot3 (faces.getD 0 default).no f.no)).reverse).foldl
          (fun a f => add3 a f.no) (⟨0, 0, 0⟩ : Pt3 K)).x ≠ 0) ∨
      (((([] : List (Face K)) ++ (faces.filter
        (fun f => PLHC < dot3 (faces.getD 0 default).no f.no)).reverse).foldl
          (fun a f => add3 a f.no) (⟨0, 0, 0⟩ : Pt3 K)).y ≠ 0) ∨
      (((([] : List (Face K)) ++ (faces.filter
        (fun f => PLHC < dot3 (faces.getD 0 default).no f.no)).reverse).foldl
          (fun a f => add3 a f.no) (⟨0, 0, 0⟩ : Pt3 K)).z ≠ 0) := by
    by_contra hC
    push_neg at hC
    generalize hA : (([] : List (Face K)) ++ (faces.filter
        (fun f => PLHC < dot3 (faces.getD 0 default).no f.no)).reverse).foldl
          (fun a f => add3 a f.no) (⟨0, 0, 0⟩ : Pt3 K) = A at hC hpos
    have hzero : dot3 (faces.getD 0 default).no A = 0 := by
      unfold dot3
      rw [hC.1, hC.2.1, hC.2.2]
      ring
    linarith
  have hrlt : (faces.filter
      (fun f => ¬ PLHC < dot3 (faces.getD 0 default).no f.no)).length <
      faces.length := by
    refine List.length_filter_lt_length_iff_exists.2 ⟨faces.getD 0 default, h0m, ?_⟩
    rw [decide_eq_true_eq]
    exact not_not_intro hp0
  unfold gatherStart gatherLoop
  dsimp only
  have hv2 : (if (((([] : List (Face K)) ++ (faces.filter
        (fun f => PLHC < dot3 (faces.getD 0 default).no f.no)).reverse).foldl
          (fun a f => add3 a f.no) (⟨0, 0, 0⟩ : Pt3 K)).x ≠ 0) ∨
      (((([] : List (Face K)) ++ (faces.filter
        (fun f => PLHC < dot3 (faces.getD 0 default).no f.no)).reverse).foldl
          (fun a f => add3 a f.no) (⟨0, 0, 0⟩ : Pt3 K)).y ≠ 0) ∨
      (((([] : List (Face K)) ++ (faces.filter
        (fun f => PLHC < dot3 (faces.getD 0 default).no f.no)).reverse).foldl
          (fun a f => add3 a f.no) (⟨0, 0, 0⟩ : Pt3 K)).z ≠ 0)
      then ([] : List (Pt3 K)) ++ [normalize3 sqrtK ((([] : List (Face K)) ++
        (faces.filter
          (fun f => PLHC < dot3 (faces.getD 0 default).no f.no)).reverse).foldl
            (fun a f => add3 a f.no) (⟨0, 0, 0⟩ : Pt3 K))]
      else ([] : List (Pt3 K))) ≠ [] := by
    rw [if_pos hcond]
    intro hh
    exact List.noConfusion (List.append_eq_nil.1 hh).2
  generalize hgV : (if (((([] : List (Face K)) ++ (faces.filter
        (fun f => PLHC < dot3 (faces.getD 0 default).no f.no)).reverse).foldl
          (fun a f => add3 a f.no) (⟨0, 0, 0⟩ : Pt3 K)).x ≠ 0) ∨
      (((([] : List (Face K)) ++ (faces.filter
        (fun f => PLHC < dot3 (faces.getD 0 default).no f.no)).reverse).foldl
          (fun a f => add3 a f.no) (⟨0, 0, 0⟩ : Pt3 K)).y ≠ 0) ∨
      (((([] : List (Face K)) ++ (faces.filter
        (fun f => PLHC < dot3 (faces.getD 0 default).no f.no)).reverse).foldl
          (fun a f => add3 a f.no) (⟨0, 0, 0⟩ : Pt3 K)).z ≠ 0)
      then ([] : List (Pt3 K)) ++ [normalize3 sqrtK ((([] : List (Face K)) ++
        (faces.filter
          (fun f => PLHC < dot3 (faces.getD 0 default).no f.no)).reverse).foldl
            (fun a f => add3 a f.no) (⟨0, 0, 0⟩ : Pt3 K))]
      else ([] : List (Pt3 K))) = V at hv2 ⊢
  by_cases hc1 : (mostUnique V (faces.filter
      (fun f => ¬ PLHC < dot3 (faces.getD 0 default).no f.no))).1 < PLC
  · rw [if_pos hc1]
    have hmu := mostUnique_lt (lt_of_lt_of_le hc1 hPLC)
    obtain ⟨v, hsome⟩ := gatherLoop_some sqrtK PLHC PLC hPLC faces.length _ _ _ _
      hv2 (by rw [List.length_eraseIdx, if_pos hmu]; omega)
    exact ⟨v, hsome, gatherLoop_some_ne _ _ _ _ _ _ hsome⟩
  · rw [if_neg hc1, if_pos hv2]
    exact ⟨V, rfl, hv2⟩

/-- Witness for `projection_vectors`: the single unit-normal face `fA`
with the source's converted limits approximated by `7/10` and `1/50`. -/
theorem projection_vectors_witness :
    ([fA] : List (Face ℚ)) ≠ [] ∧
      ∃ v, gatherStart (fun q : ℚ => q) (7 / 10) (1 / 50) [fA] = some v ∧
        v ≠ [] := by
  refine ⟨by simp, (projection_vectors (fun q : ℚ => q) (7 / 10) (1 / 50)).2
    [fA] (by simp) ?_ (by norm_num) (by norm_num) (by norm_num)⟩
  intro f hf
  rw [List.mem_singleton] at hf
  subst hf
  show dot3 (⟨0, 0, 1⟩ : Pt3 ℚ) ⟨0, 0, 1⟩ = 1
  unfold dot3
  norm_num

/-- Claim C8 as stated is false on the code path: a mesh whose every face
is degenerate is emptied by the pop loop and map `continue`s at line 1353
— before the projection stage and its log — so the condition is never
logged (and `projection_vectors` shows the post-loop log branch can never
fire for meshes that do reach the loop). -/
theorem projection_vectors_claim_counterexample :
    (popDegen [fD] : List (Face ℚ) × List (Face ℚ)).1 = [] ∧
      (popDegen [fD] : List (Face ℚ) × List (Face ℚ)).2 =
        [mapUv (fun _ => ⟨0, 0⟩) fD] := by
  constructor
  · norm_num [popDegen, popDegenRev, SMALL_NUM, fD]
  · norm_num [popDegen, popDegenRev, SMALL_NUM, fD]

end GatherProofs


section DegenerateMesh

variable {K : Type} [LinearOrderedField K] [FloorRing K]

/-- `debugUvs`'s per-triangle negative-UV count (lines 858–868): how many
of the triangle's three corners read a negative first UV coordinate. -/
def debugTriangleNegCount (uvs : List K) (indices : List ℕ) (i : ℕ) : ℕ :=
  (if uvs.getD (indices.getD i 0 * 2) 0 < 0 then 1 else 0) +
    (if uvs.getD (indices.getD (i + 1) 0 * 2) 0 < 0 then 1 else 0) +
    (if uvs.getD (indices.getD (i + 2) 0 * 2) 0 < 0 then 1 else 0)

/-- Claim C7.  For the mesh made of the single degenerate triangle `fD`
(three coincident vertices, indices `[0,1,2]`): the degenerate pop
empties the face list, so `map` `continue`s at line 1353 and the mesh
contributes no island; the write-back therefore leaves the channel at
its `-1` initialisation in all six slots instead of the claimed `(0,0)`
corners, and `debugUvs`'s negative-UV assertion counts all three corners
negative (so its `lessThanZeroCount > 1` `debugger` fires). -/
theorem degenerate_triangle_mesh :
    (popDegen [fD] : List (Face ℚ) × List (Face ℚ)).1 = [] ∧
      finalUvChannel (resolveIslands 3 ([] : List (List (Face ℚ)))
        (initSt 3 [0, 1, 2])) = [-1, -1, -1, -1, -1, -1] ∧
      debugTriangleNegCount (finalUvChannel (resolveIslands 3
        ([] : List (List (Face ℚ))) (initSt 3 [0, 1, 2]))) [0, 1, 2] 0 = 3 := by
  refine ⟨?_, ?_, ?_⟩
  · norm_num [popDegen, popDegenRev, SMALL_NUM, fD]
  · show finalUvChannel (initSt 3 [0, 1, 2]) = _
    norm_num [finalUvChannel, initSt, List.replicate]
  · show debugTriangleNegCount (finalUvChannel (initSt 3 [0, 1, 2])) [0, 1, 2] 0 = 3
    norm_num [debugTriangleNegCount, finalUvChannel, initSt, List.replicate]

end DegenerateMesh


section Determinism

variable {α β : Type}

/-- Source line 1316: `obList.sort((a, b) => a.name.localeCompare(b.name))`
— the mesh list is sorted by name before any processing; a mesh is
modelled as its name paired with its remaining data. -/
def sortMeshesByName (meshes : List (String × α)) : List (String × α) :=
  meshes.insertionSort (fun a b => a.1 ≤ b.1)

/-- Claim C9.  `map` first sorts the mesh list by name (line 1316) and
from then on reads only the sorted list, so any two permutations of a
mesh collection with pairwise-distinct names drive the rest of the
pipeline — UV channels, index buffers and the returned ratio alike —
to identical results. -/
theorem map_deterministic (pipeline : List (String × α) → β)
    (l1 l2 : List (String × α)) (hperm : l1.Perm l2)
    (hnd : (l1.map (fun m => m.1)).Nodup) :
    pipeline (sortMeshesByName l1) = pipeline (sortMeshesByName l2) := by
  haveI htot : IsTotal (String × α) (fun a b : String × α => a.1 ≤ b.1) :=
    ⟨fun a b => le_total a.1 b.1⟩
  haveI htra : IsTrans (String × α) (fun a b : String × α => a.1 ≤ b.1) :=
    ⟨fun a b c h1 h2 => le_trans h1 h2⟩
  haveI hanti : IsAntisymm (String × α) (fun a b : String × α => a.1 < b.1) :=
    ⟨fun a b h1 h2 => (lt_asymm h1 h2).elim⟩
  have hs1 : (sortMeshesByName l1).Sorted (fun a b : String × α => a.1 ≤ b.1) :=
    List.sorted_insertionSort _ l1
  have hs2 : (sortMeshesByName l2).Sorted (fun a b : String × α => a.1 ≤ b.1) :=
    List.sorted_insertionSort _ l2
  have hp1 : (sortMeshesByName l1).Perm l1 := List.perm_insertionSort _ l1
  have hp2 : (sortMeshesByName l2).Perm l2 := List.perm_insertionSort _ l2
  have hnd2 : (l2.map (fun m => m.1)).Nodup := ((hperm.map _).nodup_iff).1 hnd
  have hne1 : (sortMeshesByName l1).Pairwise (fun a b : String × α => a.1 ≠ b.1) := by
    have h1 : l1.Pairwise (fun a b : String × α => a.1 ≠ b.1) :=
      (List.pairwise_map).1 hnd
    exact (hp1.pairwise_iff (fun h => Ne.symm h)).2 h1
  have hne2 : (sortMeshesByName l2).Pairwise (fun a b : String × α => a.1 ≠ b.1) := by
    have h2 : l2.Pairwise (fun a b : String × α => a.1 ≠ b.1) :=
      (List.pairwise_map).1 hnd2
    exact (hp2.pairwise_iff (fun h => Ne.symm h)).2 h2
  have hlt1 : (sortMeshesByName l1).Sorted (fun a b : String × α => a.1 < b.1) :=
    (hs1.and hne1).imp (fun h => lt_of_le_of_ne h.1 h.2)
  have hlt2 : (sortMeshesByName l2).Sorted (fun a b : String × α => a.1 < b.1) :=
    (hs2.and hne2).imp (fun h => lt_of_le_of_ne h.1 h.2)
  have hpp : (sortMeshesByName l1).Perm (sortMeshesByName l2) :=
    (hp1.trans hperm).trans hp2.symm
  exact congrArg pipeline (List.eq_of_perm_of_sorted hpp hlt1 hlt2)

/-- Witness for `map_deterministic`: the two-mesh collection in both
orders, with the identity pipeline. -/
theorem map_deterministic_witness :
    ([("b", 1), ("a", 2)] : List (String × ℕ)).Perm [("a", 2), ("b", 1)] ∧
      (([("b", 1), ("a", 2)] : List (String × ℕ)).map (fun m => m.1)).Nodup ∧
      id (sortMeshesByName ([("b", 1), ("a", 2)] : List (String × ℕ))) =
        id (sortMeshesByName ([("a", 2), ("b", 1)] : List (String × ℕ))) :=
  ⟨List.Perm.swap ("a", 2) ("b", 1) [], by decide,
    map_deterministic id [("b", 1), ("a", 2)] [("a", 2), ("b", 1)]
      (List.Perm.swap ("a", 2) ("b", 1) []) (by decide)⟩

end Determinism

end UvMapper
